import Mathlib

/-!
Verification of the blockchain / DAG ("tangle") consensus simulator.

The Go sources are shallowly embedded:
* machine integers are `Nat` (the simulator only uses non-negative ints;
  32-bit hash arithmetic carries explicit `% 2^32` through `u32`);
* `float64` transaction amounts are exact hundredths ("cents" as `Nat`):
  the run uses amounts 1.00, 1.01, 1.02, …, and genesis amounts 0.01, 0.02,
  which the formatting helpers below print exactly as Go does for these
  values;
* float results of `getPercentage` and the average-confidence divisions are
  modelled by `FVal` (a finite rational, `inf`, or `nan`), mirroring Go
  float64 division including division by zero;
* the unbounded mining loops become fuel-indexed searches returning
  `Option`: `some` corresponds exactly to the Go loop returning;
* Go maps become association lists with overwrite-on-insert (`upd`) and
  zero-value lookups (`lookupD`), matching Go map semantics.
-/

set_option maxRecDepth 100000

namespace Sim

/-- Truncate to 32 bits, as all Go sha256 word arithmetic is on uint32. -/
def u32 (n : Nat) : Nat := n % 4294967296

/-- 32-bit rotate right. -/
def rotr (n x : Nat) : Nat := u32 ((x >>> n) ||| (x <<< (32 - n)))

/-- SHA-256 round constants. -/
def sha256K : List Nat :=
  [1116352408, 1899447441, 3049323471, 3921009573, 961987163, 1508970993,
   2453635748, 2870763221, 3624381080, 310598401, 607225278, 1426881987,
   1925078388, 2162078206, 2614888103, 3248222580, 3835390401, 4022224774,
   264347078, 604807628, 770255983, 1249150122, 1555081692, 1996064986,
   2554220882, 2821834349, 2952996808, 3210313671, 3336571891, 3584528711,
   113926993, 338241895, 666307205, 773529912, 1294757372, 1396182291,
   1695183700, 1986661051, 2177026350, 2456956037, 2730485921, 2820302411,
   3259730800, 3345764771, 3516065817, 3600352804, 4094571909, 275423344,
   430227734, 506948616, 659060556, 883997877, 958139571, 1322822218,
   1537002063, 1747873779, 1955562222, 2024104815, 2227730452, 2361852424,
   2428436474, 2756734187, 3204031479, 3329325298]

/-- SHA-256 initial hash state. -/
def sha256H0 : List Nat :=
  [1779033703, 3144134277, 1013904242, 2773480762,
   1359893119, 2600822924, 528734635, 1541459225]

/-- Big-endian byte encoding of `n` in `k` bytes. -/
def toBytesBE (k n : Nat) : List Nat :=
  (List.range k).map (fun i => (n >>> (8 * (k - 1 - i))) % 256)

/-- SHA-256 message padding to a multiple of 64 bytes. -/
def padMsg (msg : List Nat) : List Nat :=
  msg ++ [128] ++ List.replicate ((55 + 64 - msg.length % 64) % 64) 0 ++
    toBytesBE 8 (8 * msg.length)

/-- Split a byte list into 64-byte chunks (structural recursion on a
length-based counter so that the kernel can evaluate it). -/
def chunks64Go (fuel : Nat) (l : List Nat) : List (List Nat) :=
  match fuel, l with
  | 0, _ => []
  | _, [] => []
  | fuel + 1, l => l.take 64 :: chunks64Go fuel (l.drop 64)

/-- Split a byte list into 64-byte chunks. -/
def chunks64 (l : List Nat) : List (List Nat) := chunks64Go l.length l

/-- The 16 big-endian 32-bit words of one 64-byte chunk. -/
def wordsOf (chunk : List Nat) : List Nat :=
  (List.range 16).map (fun i =>
    chunk.getD (4 * i) 0 * 16777216 + chunk.getD (4 * i + 1) 0 * 65536 +
    chunk.getD (4 * i + 2) 0 * 256 + chunk.getD (4 * i + 3) 0)

/-- Extend 16 schedule words to 64. -/
def extendW (w16 : List Nat) : List Nat :=
  (List.range 48).foldl (fun w _ =>
    let n := w.length
    let x15 := w.getD (n - 15) 0
    let x2 := w.getD (n - 2) 0
    let s0 := (rotr 7 x15) ^^^ (rotr 18 x15) ^^^ (x15 >>> 3)
    let s1 := (rotr 17 x2) ^^^ (rotr 19 x2) ^^^ (x2 >>> 10)
    w ++ [u32 (w.getD (n - 16) 0 + s0 + w.getD (n - 7) 0 + s1)]) w16

/-- One SHA-256 compression round; the state is the 8-word working vector. -/
def sha256Round (st : List Nat) (kw : Nat × Nat) : List Nat :=
  match st with
  | [a, b, c, d, e, f, g, h] =>
    let S1 := (rotr 6 e) ^^^ (rotr 11 e) ^^^ (rotr 25 e)
    let ch := (e &&& f) ^^^ ((e ^^^ 4294967295) &&& g)
    let temp1 := u32 (h + S1 + ch + kw.1 + kw.2)
    let S0 := (rotr 2 a) ^^^ (rotr 13 a) ^^^ (rotr 22 a)
    let maj := (a &&& b) ^^^ (a &&& c) ^^^ (b &&& c)
    let temp2 := u32 (S0 + maj)
    [u32 (temp1 + temp2), a, b, c, u32 (d + temp1), e, f, g]
  | _ => st

/-- Compress one chunk into the running hash state. -/
def processChunk (h : List Nat) (chunk : List Nat) : List Nat :=
  let w := extendW (wordsOf chunk)
  let fin := (sha256K.zip w).foldl sha256Round h
  (h.zip fin).map (fun p => u32 (p.1 + p.2))

/-- SHA-256 digest of a byte list, as eight 32-bit words. -/
def sha256 (msg : List Nat) : List Nat :=
  (chunks64 (padMsg msg)).foldl processChunk sha256H0

/-- Lower-case hex digit. -/
def hexDigit (n : Nat) : Char :=
  if n < 10 then Char.ofNat (48 + n) else Char.ofNat (87 + n)

/-- Eight hex characters of a 32-bit word, big-endian. -/
def hex8 (w : Nat) : List Char :=
  (List.range 8).map (fun i => hexDigit ((w >>> (4 * (7 - i))) % 16))

/-- `fmt.Sprintf("%x", sha256.Sum256(bytes))`: 64 lower-case hex characters. -/
def sha256hex (msg : List Nat) : String :=
  String.mk ((sha256 msg).map hex8).flatten

/-- Bytes of an ASCII string (all strings hashed by the simulator are ASCII). -/
def strBytes (s : String) : List Nat := s.toList.map Char.toNat

/-- Go `Transaction` struct.  `Amount` (a `float64` that is always a whole
number of hundredths in a run) is modelled exactly as cents. -/
structure Transaction where
  Sender : String
  Receiver : String
  Amount : Nat
  Parents : List String
  Hash : String
  Nonce : Nat
deriving DecidableEq, Repr

/-- Go zero value of `Transaction` (returned by map access on a missing key). -/
def Transaction.zero : Transaction :=
  { Sender := "", Receiver := "", Amount := 0, Parents := [], Hash := "", Nonce := 0 }

instance : Inhabited Transaction := ⟨Transaction.zero⟩

/-- Go `Block` struct. -/
structure Block where
  Transactions : List Transaction
  PrevHash : String
  Hash : String
  Nonce : Nat
deriving DecidableEq, Repr

/-- Go zero value of `Block`. -/
def Block.zero : Block := { Transactions := [], PrevHash := "", Hash := "", Nonce := 0 }

instance : Inhabited Block := ⟨Block.zero⟩

/-- Two-digit decimal rendering of `n < 100`. -/
def pad2 (n : Nat) : String := if n < 10 then "0" ++ toString n else toString n

/-- Go `fmt.Sprintf("%f", amount)` for an exact-cents amount: six decimals. -/
def fmtF (cents : Nat) : String :=
  toString (cents / 100) ++ "." ++ pad2 (cents % 100) ++ "0000"

/-- Go `json.Marshal` of an exact-cents `float64`: shortest decimal form. -/
def jsonAmount (cents : Nat) : String :=
  if cents % 100 = 0 then toString (cents / 100)
  else if cents % 10 = 0 then toString (cents / 100) ++ "." ++ toString (cents % 100 / 10)
  else toString (cents / 100) ++ "." ++ pad2 (cents % 100)

/-- JSON string literal (the simulator's strings never need escaping). -/
def jsonStr (s : String) : String := "\"" ++ s ++ "\""

/-- Go `json.Marshal` of the `Parents` slice: `nil` marshals as `null`.
(`Parents` is either `nil` or holds the two picked parents in a run.) -/
def jsonParents : List String → String
  | [] => "null"
  | ps => "[" ++ String.intercalate "," (ps.map jsonStr) ++ "]"

/-- Go `json.Marshal` of one `Transaction` (fields in struct order). -/
def jsonTx (t : Transaction) : String :=
  "\x7b\"Sender\":" ++ jsonStr t.Sender ++ ",\"Receiver\":" ++ jsonStr t.Receiver ++
  ",\"Amount\":" ++ jsonAmount t.Amount ++ ",\"Parents\":" ++ jsonParents t.Parents ++
  ",\"Hash\":" ++ jsonStr t.Hash ++ ",\"Nonce\":" ++ toString t.Nonce ++ "\x7d"

/-- Go `json.Marshal` of a (non-nil) `[]Transaction`. -/
def jsonTxs (ts : List Transaction) : String :=
  "[" ++ String.intercalate "," (ts.map jsonTx) ++ "]"

/-- `calculateHash` from `pow.go`: sha256 of marshalled transactions ++
previous hash ++ decimal nonce. -/
def calculateHash (b : Block) : String :=
  sha256hex (strBytes (jsonTxs b.Transactions ++ b.PrevHash ++ toString b.Nonce))

/-- The marshalled record `computeHash` in `dag.go` hashes: the JSON string
of sender ++ receiver ++ `%f` amount ++ concatenated parents. -/
def txRecordData (t : Transaction) : String :=
  jsonStr (t.Sender ++ t.Receiver ++ fmtF t.Amount ++ String.join t.Parents)

/-- `computeHash` from `dag.go`. -/
def computeHash (t : Transaction) : String :=
  sha256hex (strBytes (txRecordData t ++ toString t.Nonce))

/-- `strings.Repeat("0", d)`: the difficulty prefix. -/
def zeros (d : Nat) : String := String.mk (List.replicate d '0')

/-- Go `strings.HasPrefix` on the ASCII strings the simulator uses
(structural, so the kernel can evaluate it; `String.startsWith` is
extensionally the same but is defined by well-founded recursion). -/
def hasPrefixGo (s pre : String) : Bool := pre.toList.isPrefixOf s.toList

/-- Number of leading `'0'` characters of a hex string. -/
def countLeadZeros (s : String) : Nat := (s.toList.takeWhile (· == '0')).length

/-- `mineBlock` from `pow.go`: try nonces in increasing order until the hash
has the difficulty prefix.  The Go loop is unbounded; `fuel` bounds the
search here and `some` corresponds exactly to the Go loop returning. -/
def mineBlock (b : Block) (difficulty : Nat) : Nat → Option Block
  | 0 => none
  | fuel + 1 =>
    let h := calculateHash b
    if hasPrefixGo h (zeros difficulty) then some { b with Hash := h }
    else mineBlock { b with Nonce := b.Nonce + 1 } difficulty fuel

/-- `mineTransaction` from `dag.go`, fuelled the same way. -/
def mineTransaction (t : Transaction) (difficulty : Nat) : Nat → Option Transaction
  | 0 => none
  | fuel + 1 =>
    let h := computeHash t
    if hasPrefixGo h (zeros difficulty) then some { t with Hash := h }
    else mineTransaction { t with Nonce := t.Nonce + 1 } difficulty fuel

/-- `generateBlock` from `pow.go`: wrap transactions and previous hash, mine. -/
def generateBlock (prev : String) (txs : List Transaction) (difficulty fuel : Nat) :
    Option Block :=
  mineBlock { Transactions := txs, PrevHash := prev, Hash := "", Nonce := 0 } difficulty fuel

/-- The candidate block `createGenesisBlock` mines. -/
def genesisCandidate : Block :=
  { Transactions := [], PrevHash := "", Hash := "", Nonce := 0 }

theorem mineBlock_frame : ∀ (fuel : Nat) (b : Block) (d : Nat) (b' : Block),
    mineBlock b d fuel = some b' →
    b'.Transactions = b.Transactions ∧ b'.PrevHash = b.PrevHash := by
  intro fuel
  induction fuel with
  | zero => intro b d b' h; simp [mineBlock] at h
  | succ n ih =>
    intro b d b' h
    simp only [mineBlock] at h
    split at h
    · cases h; exact ⟨rfl, rfl⟩
    · exact ih { b with Nonce := b.Nonce + 1 } d b' h

theorem mineBlock_hash : ∀ (fuel : Nat) (b : Block) (d : Nat) (b' : Block),
    mineBlock b d fuel = some b' → hasPrefixGo b'.Hash (zeros d) = true := by
  intro fuel
  induction fuel with
  | zero => intro b d b' h; simp [mineBlock] at h
  | succ n ih =>
    intro b d b' h
    simp only [mineBlock] at h
    split at h
    next hc => cases h; exact hc
    next => exact ih { b with Nonce := b.Nonce + 1 } d b' h

theorem mineTransaction_frame : ∀ (fuel : Nat) (t : Transaction) (d : Nat) (t' : Transaction),
    mineTransaction t d fuel = some t' →
    t'.Sender = t.Sender ∧ t'.Receiver = t.Receiver ∧ t'.Amount = t.Amount ∧
      t'.Parents = t.Parents := by
  intro fuel
  induction fuel with
  | zero => intro t d t' h; simp [mineTransaction] at h
  | succ n ih =>
    intro t d t' h
    simp only [mineTransaction] at h
    split at h
    · cases h; exact ⟨rfl, rfl, rfl, rfl⟩
    · exact ih { t with Nonce := t.Nonce + 1 } d t' h

theorem mineTransaction_hash : ∀ (fuel : Nat) (t : Transaction) (d : Nat) (t' : Transaction),
    mineTransaction t d fuel = some t' → hasPrefixGo t'.Hash (zeros d) = true := by
  intro fuel
  induction fuel with
  | zero => intro t d t' h; simp [mineTransaction] at h
  | succ n ih =>
    intro t d t' h
    simp only [mineTransaction] at h
    split at h
    next hc => cases h; exact hc
    next => exact ih { t with Nonce := t.Nonce + 1 } d t' h

theorem replicate_prefix_le_takeWhile :
    ∀ (d : Nat) (l : List Char), List.replicate d '0' <+: l →
      d ≤ (l.takeWhile (· == '0')).length := by
  intro d
  induction d with
  | zero => intro l _; exact Nat.zero_le _
  | succ n ih =>
    intro l h
    rw [List.replicate_succ] at h
    obtain ⟨l', hl⟩ := h
    subst hl
    have hrest : List.replicate n '0' <+: List.replicate n '0' ++ l' := ⟨l', rfl⟩
    have := ih _ hrest
    simp [List.takeWhile]

/-- A hash accepted by the difficulty predicate has at least `d` leading
zero characters. -/
theorem hasPrefixGo_zeros (d : Nat) (s : String) (h : hasPrefixGo s (zeros d) = true) :
    d ≤ countLeadZeros s := by
  unfold hasPrefixGo zeros at h
  rw [List.isPrefixOf_iff_prefix] at h
  exact replicate_prefix_le_takeWhile d s.toList h

/-- Go float64 results: a finite value (kept exact as a rational), `+Inf`,
or `NaN`.  (`-Inf` never arises in this code.) -/
inductive FVal where
  | fin : Rat → FVal
  | inf : FVal
  | nan : FVal
deriving DecidableEq, Repr

/-- Go `math.Round(x*100)/100` on an exact non-negative rational
(round half away from zero coincides with `round` here). -/
def round2 (q : Rat) : Rat := (round (q * 100) : Int) / 100

/-- `getPercentage` from `tester.go`: float64 `100*a/b` rounded to two
decimals.  When `b = 0`, Go float division yields `+Inf` (for `a > 0`) or
`NaN` (for `0/0`), which `math.Round` and the division by 100 propagate. -/
def getPercentage (a b : Nat) : FVal :=
  if b = 0 then (if a = 0 then FVal.nan else FVal.inf)
  else FVal.fin (round2 ((100 * a : Rat) / (b : Rat)))

/-- Insert/overwrite in a Go-map modelled as an association list. -/
def upd {α β : Type} [BEq α] (m : List (α × β)) (k : α) (v : β) : List (α × β) :=
  (k, v) :: m.filter (fun p => !(p.1 == k))

/-- Go map read with zero value for missing keys. -/
def lookupD {α β : Type} [BEq α] (m : List (α × β)) (k : α) (d : β) : β :=
  (m.lookup k).getD d

/-- Go `_, ok := m[k]` existence check. -/
def hasKey {α β : Type} [BEq α] (m : List (α × β)) (k : α) : Bool :=
  (m.lookup k).isSome

/-- The key set of a Go map model. -/
def keysOf {α β : Type} (m : List (α × β)) : List α := m.map (·.1)

theorem lookup_upd_self {α β : Type} [BEq α] [LawfulBEq α] (m : List (α × β)) (k : α) (v : β) :
    (upd m k v).lookup k = some v := by
  simp [upd]

theorem lookup_filter_ne {α β : Type} [BEq α] [LawfulBEq α] (k k' : α) (h : k' ≠ k) :
    ∀ (m : List (α × β)), (m.filter (fun p => !(p.1 == k))).lookup k' = m.lookup k' := by
  intro m
  induction m with
  | nil => rfl
  | cons p rest ih =>
    rcases p with ⟨a, b⟩
    simp only [List.filter_cons]
    by_cases hk : a = k
    · subst hk
      rw [if_neg (by simp)]
      rw [ih]
      have hka : (k' == a) = false := beq_eq_false_iff_ne.mpr h
      simp [List.lookup, hka]
    · have hak : (a == k) = false := beq_eq_false_iff_ne.mpr hk
      simp only [hak, Bool.not_false, if_true]
      cases hka : k' == a <;> simp [List.lookup, hka, ih]

theorem lookup_upd_ne {α β : Type} [BEq α] [LawfulBEq α] (m : List (α × β)) (k k' : α) (v : β)
    (h : k' ≠ k) : (upd m k v).lookup k' = m.lookup k' := by
  have hkk : (k' == k) = false := beq_eq_false_iff_ne.mpr h
  simp only [upd, List.lookup, hkk]
  exact lookup_filter_ne k k' h m

/-- `getLabel` from `pow.go`: node indices below `C` are corrupt. -/
def getLabel (index C : Nat) : String := if index < C then "corrupt" else "honest"

/-- `getNum` from `pow.go`. -/
def getNum (index C : Nat) : Nat := if index < C then index + 1 else index + 1 - C

/-- `isHonest` from the DAG simulator: strict prefix `"honest"` with at
least one further character. -/
def isHonestName (name : String) : Bool :=
  name.length > 6 && hasPrefixGo name "honest"

/-- `isCorrupt` from the DAG simulator. -/
def isCorruptName (name : String) : Bool :=
  name.length > 7 && hasPrefixGo name "corrupt"

/-- Per-node local state of the chain-variant worker goroutine.  `origins`
is ghost instrumentation (which node mined each stored artifact) used only
to state partition properties, and `outbox` holds the targets of the
broadcast loop the goroutine is still inside. -/
structure ChainNode where
  hashMap : List (String × Block)
  counts : List (String × Nat)
  maxLength : Nat
  maxChain : String
  pending : List Transaction
  exited : Bool
  merged : Bool
  outbox : List (Nat × Block)
  origins : List (String × Nat)
deriving DecidableEq, Repr

/-- Initial chain-variant node state. -/
def ChainNode.start : ChainNode :=
  { hashMap := [], counts := [], maxLength := 0, maxChain := "", pending := [],
    exited := false, merged := false, outbox := [], origins := [] }

/-- The chain-variant block-receive case of `SimulateBlockchain`: if the
previous hash is known, extend its recorded length and update the best tip
on a strict improvement; otherwise graft the orphan onto genesis with
length 1 (updating the tip only if there was none).  `o` is the ghost
origin of the received block. -/
def receiveBlock (genesisHash : String) (nd : ChainNode) (b : Block) (o : Nat) : ChainNode :=
  if hasKey nd.hashMap b.PrevHash then
    if lookupD nd.counts b.PrevHash 0 + 1 > nd.maxLength then
      { nd with hashMap := upd nd.hashMap b.Hash b,
                counts := upd nd.counts b.Hash (lookupD nd.counts b.PrevHash 0 + 1),
                origins := upd nd.origins b.Hash o,
                maxChain := b.Hash,
                maxLength := lookupD nd.counts b.PrevHash 0 + 1 }
    else
      { nd with hashMap := upd nd.hashMap b.Hash b,
                counts := upd nd.counts b.Hash (lookupD nd.counts b.PrevHash 0 + 1),
                origins := upd nd.origins b.Hash o }
  else
    if nd.maxChain = "" then
      { nd with hashMap := upd nd.hashMap b.Hash { b with PrevHash := genesisHash },
                counts := upd nd.counts b.Hash 1,
                origins := upd nd.origins b.Hash o,
                maxChain := b.Hash,
                maxLength := 1 }
    else
      { nd with hashMap := upd nd.hashMap b.Hash { b with PrevHash := genesisHash },
                counts := upd nd.counts b.Hash 1,
                origins := upd nd.origins b.Hash o }

/-- C8: on receiving block `b`, if `b.PrevHash` is known the recorded
length of `b` is the predecessor's plus one and the best tip moves to `b`
exactly on a strict length improvement (otherwise tip and best length are
unchanged); if `b.PrevHash` is unknown, `b` is stored grafted onto genesis
with recorded length 1. -/
theorem C8_theorem (g : String) (nd : ChainNode) (b : Block) (o : Nat) :
    (hasKey nd.hashMap b.PrevHash = true →
      lookupD (receiveBlock g nd b o).counts b.Hash 0 = lookupD nd.counts b.PrevHash 0 + 1 ∧
      (lookupD nd.counts b.PrevHash 0 + 1 > nd.maxLength →
        (receiveBlock g nd b o).maxChain = b.Hash ∧
        (receiveBlock g nd b o).maxLength = lookupD nd.counts b.PrevHash 0 + 1) ∧
      (¬ (lookupD nd.counts b.PrevHash 0 + 1 > nd.maxLength) →
        (receiveBlock g nd b o).maxChain = nd.maxChain ∧
        (receiveBlock g nd b o).maxLength = nd.maxLength)) ∧
    (hasKey nd.hashMap b.PrevHash = false →
      (receiveBlock g nd b o).hashMap.lookup b.Hash = some { b with PrevHash := g } ∧
      lookupD (receiveBlock g nd b o).counts b.Hash 0 = 1) := by
  constructor
  · intro hk
    simp only [receiveBlock, hk, if_true]
    by_cases hgt : lookupD nd.counts b.PrevHash 0 + 1 > nd.maxLength
    · rw [if_pos hgt]
      refine ⟨?_, fun _ => ⟨rfl, rfl⟩, fun hc => absurd hgt hc⟩
      simp [lookupD, lookup_upd_self]
    · rw [if_neg hgt]
      refine ⟨?_, fun hc => absurd hc hgt, fun _ => ⟨rfl, rfl⟩⟩
      simp [lookupD, lookup_upd_self]
  · intro hk
    simp only [receiveBlock, hk, Bool.false_eq_true, if_false]
    by_cases hmc : nd.maxChain = ""
    · rw [if_pos hmc]
      exact ⟨lookup_upd_self _ _ _, by simp [lookupD, lookup_upd_self]⟩
    · rw [if_neg hmc]
      exact ⟨lookup_upd_self _ _ _, by simp [lookupD, lookup_upd_self]⟩

/-- Concrete predecessor block for the C8 witness. -/
def c8Prev : Block := { Transactions := [], PrevHash := "", Hash := "a", Nonce := 0 }

/-- Concrete node state for the C8 witness. -/
def c8Node : ChainNode :=
  { hashMap := [("a", c8Prev)], counts := [("a", 1)], maxLength := 1, maxChain := "a",
    pending := [], exited := false, merged := false, outbox := [], origins := [] }

/-- Concrete received block for the C8 witness. -/
def c8Block : Block := { Transactions := [], PrevHash := "a", Hash := "b", Nonce := 0 }

/-- Concrete genesis hash for the C8 witness. -/
def c8Gen : String := "g"

/-- C8 witness: receiving a block extending the known tip records length 2
and moves the best tip to it. -/
theorem C8_witness :
    lookupD (receiveBlock "g" c8Node c8Block 7).counts c8Block.Hash 0 =
      lookupD c8Node.counts c8Block.PrevHash 0 + 1 ∧
    (receiveBlock "g" c8Node c8Block 7).maxChain = c8Block.Hash :=
  ⟨((C8_theorem c8Gen c8Node c8Block 7).1 (by decide)).1,
   ((((C8_theorem c8Gen c8Node c8Block 7).1 (by decide)).2.1) (by decide)).1⟩

/-- Concrete block whose hash at difficulty 0 happens to start with `'0'`. -/
def c4uBlock : Block := { Transactions := [], PrevHash := "u", Hash := "", Nonce := 0 }

/-- The mined form of `c4uBlock` at difficulty 0. -/
def c4uMined : Block :=
  { c4uBlock with
    Hash := "04822a567f0ed7b3a2c71c94c7b6d3a010ded239d413b7aa91701a3dcd0e19e4" }

/-- Concrete DAG transaction for the C4/C10 witnesses. -/
def c4Tx : Transaction :=
  { Sender := "a", Receiver := "b", Amount := 100, Parents := [], Hash := "", Nonce := 0 }

/-- The mined form of `c4Tx` at difficulty 0. -/
def c4TxMined : Transaction :=
  { c4Tx with
    Hash := "8b5dbd2d141aea8df360126c73dc65bb81cc6bdfa940f0a4e373581391d38f9a" }

/-- C4, amended: for every candidate artifact and difficulty `d`, a
fingerprint returned by either miner has at least `d` leading zero hex
characters (not exactly `d`), and the difficulty-prefix verification
(`strings.HasPrefix` against `d` zeros) always succeeds on the miner's own
output. -/
theorem C4_theorem (b : Block) (t : Transaction) (d fuel : Nat) (b' : Block)
    (t' : Transaction) :
    (mineBlock b d fuel = some b' →
      hasPrefixGo b'.Hash (zeros d) = true ∧ d ≤ countLeadZeros b'.Hash) ∧
    (mineTransaction t d fuel = some t' →
      hasPrefixGo t'.Hash (zeros d) = true ∧ d ≤ countLeadZeros t'.Hash) :=
  ⟨fun h => ⟨mineBlock_hash fuel b d b' h,
     hasPrefixGo_zeros d _ (mineBlock_hash fuel b d b' h)⟩,
   fun h => ⟨mineTransaction_hash fuel t d t' h,
     hasPrefixGo_zeros d _ (mineTransaction_hash fuel t d t' h)⟩⟩

/-- C4 counterexample: mining the concrete block `c4uBlock` at difficulty 0
returns a fingerprint with one leading zero character, not exactly zero of
them, so the fingerprint does not have exactly `D` leading zeros. -/
theorem C4_counterexample :
    (mineBlock c4uBlock 0 1).map (fun b => countLeadZeros b.Hash) = some 1 ∧
      (1 : Nat) ≠ 0 :=
  ⟨by decide, by decide⟩

/-- C4 witness: the amended theorem applied to two concrete mining runs at
difficulty 0 and fuel 1. -/
theorem C4_witness :
    (hasPrefixGo c4uMined.Hash (zeros 0) = true ∧ 0 ≤ countLeadZeros c4uMined.Hash) ∧
    (hasPrefixGo c4TxMined.Hash (zeros 0) = true ∧ 0 ≤ countLeadZeros c4TxMined.Hash) :=
  ⟨(C4_theorem c4uBlock c4Tx 0 1 c4uMined c4TxMined).1 (by decide),
   (C4_theorem c4uBlock c4Tx 0 1 c4uMined c4TxMined).2 (by decide)⟩

/-- C10: mining fills in only fingerprint and nonce: `mineBlock` preserves
`Transactions` and `PrevHash`, `mineTransaction` preserves `Sender`,
`Receiver`, `Amount` and `Parents`, and `generateBlock` returns a block
carrying exactly the requested transactions and previous hash. -/
theorem C10_theorem (b : Block) (t : Transaction) (prev : String)
    (txs : List Transaction) (d fuel : Nat) (b' g' : Block) (t' : Transaction) :
    (mineBlock b d fuel = some b' →
      b'.Transactions = b.Transactions ∧ b'.PrevHash = b.PrevHash) ∧
    (mineTransaction t d fuel = some t' →
      t'.Sender = t.Sender ∧ t'.Receiver = t.Receiver ∧ t'.Amount = t.Amount ∧
        t'.Parents = t.Parents) ∧
    (generateBlock prev txs d fuel = some g' →
      g'.Transactions = txs ∧ g'.PrevHash = prev) :=
  ⟨mineBlock_frame fuel b d b', mineTransaction_frame fuel t d t',
   fun h => mineBlock_frame fuel _ d g' h⟩

/-- C10 witness: the frame theorem applied to concrete mining runs at
difficulty 0 and fuel 1. -/
theorem C10_witness :
    (c4uMined.Transactions = c4uBlock.Transactions ∧
      c4uMined.PrevHash = c4uBlock.PrevHash) ∧
    (c4TxMined.Sender = c4Tx.Sender ∧ c4TxMined.Receiver = c4Tx.Receiver ∧
      c4TxMined.Amount = c4Tx.Amount ∧ c4TxMined.Parents = c4Tx.Parents) ∧
    (c4uMined.Transactions = ([] : List Transaction) ∧ c4uMined.PrevHash = "u") :=
  ⟨(C10_theorem c4uBlock c4Tx "u" [] 0 1 c4uMined c4uMined c4TxMined).1 (by decide),
   (C10_theorem c4uBlock c4Tx "u" [] 0 1 c4uMined c4uMined c4TxMined).2.1 (by decide),
   (C10_theorem c4uBlock c4Tx "u" [] 0 1 c4uMined c4uMined c4TxMined).2.2 (by decide)⟩

/-- A DAG node map: fingerprint → transaction, as kept by each tangle
worker. -/
abbrev TxMap := List (String × Transaction)

/-- `HashMap[hash].Parents` with Go zero-value semantics (a missing key
yields the zero transaction, whose parent list is empty). -/
def parentsOf (m : TxMap) (h : String) : List String :=
  (lookupD m h Transaction.zero).Parents

/-- Whether some stored transaction with two declared parents references
`k` as its first or second parent (the tip-set deletion loop). -/
def referencedB (m : TxMap) (k : String) : Bool :=
  m.any (fun p => decide (2 ≤ p.2.Parents.length) &&
    (p.2.Parents.getD 0 "" == k || p.2.Parents.getD 1 "" == k))

/-- The tip set: known fingerprints never referenced as a parent. -/
def tipsOf (m : TxMap) : List String :=
  (keysOf m).filter (fun k => ! referencedB m k)

/-- The visited set computed by the confidence DFS, fuelled (the Go
recursion terminates because the visited set grows; `fuel` larger than the
number of unvisited keys is enough, proved below). -/
def dfsVis (m : TxMap) : Nat → List String → String → List String
  | 0, vis, _ => vis
  | fuel + 1, vis, h =>
    if vis.contains h then vis
    else (parentsOf m h).foldl (fun v p => dfsVis m fuel v p) (h :: vis)

/-- The confidence DFS exactly as in the Go code: mark visited, increment
the confidence counter of the visited fingerprint, recurse into parents. -/
def dfsConf (m : TxMap) :
    Nat → List (String × Nat) × List String → String → List (String × Nat) × List String
  | 0, cv, _ => cv
  | fuel + 1, cv, h =>
    if cv.2.contains h then cv
    else (parentsOf m h).foldl (fun cv' p => dfsConf m fuel cv' p)
      (upd cv.1 h (lookupD cv.1 h 0 + 1), h :: cv.2)

/-- Per-node confidence map: one DFS per tip, with a fresh visited set per
tip and a shared confidence map. -/
def confidenceOf (m : TxMap) : List (String × Nat) :=
  (tipsOf m).foldl (fun conf t => (dfsConf m (m.length + 1) (conf, []) t).1) []

/-- Transitive reachability along parent references (reflexive). -/
inductive Reaches (m : TxMap) : String → String → Prop where
  | refl (h : String) : Reaches m h h
  | step {a p c : String} : p ∈ parentsOf m a → Reaches m p c → Reaches m a c

/-- Number of keys not yet visited; the DFS fuel budget. -/
def unvisited (m : TxMap) (vis : List String) : Nat :=
  (keysOf m).countP (fun k => ! vis.contains k)

theorem foldl_mem_mono {f : List String → String → List String}
    (hf : ∀ v a x, x ∈ v → x ∈ f v a) :
    ∀ (ps : List String) (v : List String) (x : String), x ∈ v → x ∈ ps.foldl f v := by
  intro ps
  induction ps with
  | nil => intro v x hx; exact hx
  | cons p ps ih => intro v x hx; exact ih (f v p) x (hf v p x hx)

theorem dfsVis_mono (m : TxMap) :
    ∀ (fuel : Nat) (vis : List String) (h x : String), x ∈ vis → x ∈ dfsVis m fuel vis h := by
  intro fuel
  induction fuel with
  | zero => intro vis h x hx; exact hx
  | succ n ih =>
    intro vis h x hx
    simp only [dfsVis]
    split
    · exact hx
    · exact foldl_mem_mono (fun v a y hy => ih v a y hy) _ _ x (List.mem_cons_of_mem _ hx)

theorem dfsVis_self (m : TxMap) (fuel : Nat) (vis : List String) (h : String) :
    h ∈ dfsVis m (fuel + 1) vis h := by
  simp only [dfsVis]
  split
  next hc => exact List.elem_iff.mp hc
  next =>
    exact foldl_mem_mono (fun v a y hy => dfsVis_mono m fuel v a y hy) (parentsOf m h)
      (h :: vis) h (List.mem_cons_self _ _)

theorem reaches_trans {m : TxMap} {a b c : String}
    (hab : Reaches m a b) (hbc : Reaches m b c) : Reaches m a c := by
  induction hab with
  | refl => exact hbc
  | step hp _ ih => exact Reaches.step hp (ih hbc)

theorem dfsVis_sound (m : TxMap) :
    ∀ (fuel : Nat) (vis : List String) (h x : String),
      x ∈ dfsVis m fuel vis h → x ∈ vis ∨ Reaches m h x := by
  intro fuel
  induction fuel with
  | zero => intro vis h x hx; exact Or.inl hx
  | succ n ih =>
    intro vis h x hx
    simp only [dfsVis] at hx
    split at hx
    · exact Or.inl hx
    · -- fold over parents starting from h :: vis
      have main : ∀ (ps : List String) (acc : List String),
          (∀ y ∈ acc, y ∈ vis ∨ Reaches m h y) →
          (∀ p ∈ ps, p ∈ parentsOf m h) →
          ∀ y ∈ ps.foldl (fun v p => dfsVis m n v p) acc, y ∈ vis ∨ Reaches m h y := by
        intro ps
        induction ps with
        | nil => intro acc hacc _ y hy; exact hacc y hy
        | cons p ps ihp =>
          intro acc hacc hps y hy
          refine ihp (dfsVis m n acc p) ?_ (fun q hq => hps q (List.mem_cons_of_mem _ hq)) y hy
          intro z hz
          rcases ih acc p z hz with hz' | hz'
          · exact hacc z hz'
          · exact Or.inr (Reaches.step (hps p (List.mem_cons_self _ _)) hz')
      refine main _ _ ?_ (fun q hq => hq) x hx
      intro y hy
      rcases List.mem_cons.mp hy with rfl | hy'
      · exact Or.inr (Reaches.refl y)
      · exact Or.inl hy'

theorem contains_iff {l : List String} {a : String} : l.contains a = true ↔ a ∈ l :=
  List.elem_iff

theorem lookup_some_mem_keys {α β : Type} [BEq α] [LawfulBEq α] :
    ∀ (m : List (α × β)) (k : α) (v : β), m.lookup k = some v → k ∈ keysOf m := by
  intro m
  induction m with
  | nil => intro k v h; cases h
  | cons p rest ih =>
    intro k v h
    simp only [List.lookup] at h
    split at h
    next heq => exact List.mem_cons.mpr (Or.inl (by simpa using heq))
    next => exact List.mem_cons.mpr (Or.inr (ih k v h))

theorem parents_ne_nil_mem_keys (m : TxMap) (h : String) (hne : parentsOf m h ≠ []) :
    h ∈ keysOf m := by
  unfold parentsOf lookupD at hne
  cases hl : m.lookup h with
  | none => rw [hl] at hne; exact absurd rfl hne
  | some tx => exact lookup_some_mem_keys m h tx hl

theorem unvisited_anti (m : TxMap) {v w : List String} (h : ∀ x ∈ v, x ∈ w) :
    unvisited m w ≤ unvisited m v := by
  apply List.countP_mono_left
  intro k _ hk
  cases hcv : v.contains k with
  | false => rfl
  | true =>
    have hw : w.contains k = true := contains_iff.mpr (h k (contains_iff.mp hcv))
    rw [hw] at hk
    simp at hk

theorem countP_lt_of_flip {α : Type} (p q : α → Bool) :
    ∀ (l : List α) (a : α), a ∈ l → p a = true → q a = false →
      (∀ x ∈ l, q x = true → p x = true) → l.countP q < l.countP p := by
  intro l
  induction l with
  | nil => intro a ha; cases ha
  | cons b l ih =>
    intro a ha hp hq himp
    rcases List.mem_cons.mp ha with rfl | ha'
    · rw [List.countP_cons, List.countP_cons, hp, hq]
      have hle := List.countP_mono_left
        (fun x hx => himp x (List.mem_cons_of_mem _ hx))
      simp only [if_true, if_false]
      simp
      omega
    · rw [List.countP_cons, List.countP_cons]
      have hrec := ih a ha' hp hq (fun x hx => himp x (List.mem_cons_of_mem _ hx))
      have hif : (if q b = true then 1 else 0) ≤ (if p b = true then 1 else 0) := by
        by_cases hqb : q b = true
        · rw [if_pos hqb, if_pos (himp b (List.mem_cons_self _ _) hqb)]
        · rw [if_neg hqb]; omega
      omega

theorem unvisited_cons_lt (m : TxMap) (vis : List String) (h : String)
    (hk : h ∈ keysOf m) (hv : h ∉ vis) :
    unvisited m (h :: vis) < unvisited m vis := by
  apply countP_lt_of_flip _ _ (keysOf m) h hk
  · cases hcv : vis.contains h with
    | false => rfl
    | true => exact absurd (contains_iff.mp hcv) hv
  · have hc : (h :: vis).contains h = true := contains_iff.mpr (List.mem_cons_self _ _)
    rw [hc]
    rfl
  · intro x _ hx
    cases hcv : vis.contains x with
    | false => rfl
    | true =>
      have hc : (h :: vis).contains x = true :=
        contains_iff.mpr (List.mem_cons_of_mem _ (contains_iff.mp hcv))
      rw [hc] at hx
      simp at hx

theorem dfsVis_closed (m : TxMap) :
    ∀ (fuel : Nat) (vis : List String) (h : String),
      unvisited m vis < fuel →
      ∀ x, x ∈ dfsVis m fuel vis h → x ∉ vis →
        ∀ p ∈ parentsOf m x, p ∈ dfsVis m fuel vis h := by
  intro fuel
  induction fuel with
  | zero => intro vis h hlt; exact absurd hlt (Nat.not_lt_zero _)
  | succ f ih =>
    intro vis h hlt x hx hxv p hp
    have inner : ∀ (ps : List String) (acc : List String), unvisited m acc < f →
        (∀ q ∈ ps, q ∈ ps.foldl (fun v r => dfsVis m f v r) acc) ∧
        (∀ y, y ∈ ps.foldl (fun v r => dfsVis m f v r) acc → y ∉ acc →
          ∀ q ∈ parentsOf m y, q ∈ ps.foldl (fun v r => dfsVis m f v r) acc) := by
      intro ps
      induction ps with
      | nil =>
        intro acc hacc
        exact ⟨fun q hq => absurd hq (List.not_mem_nil q),
               fun y hy hyn => absurd hy hyn⟩
      | cons p' ps' ihp =>
        intro acc hacc
        obtain ⟨f', rfl⟩ : ∃ f', f = f' + 1 := ⟨f - 1, by omega⟩
        have hsub : ∀ z ∈ acc, z ∈ dfsVis m (f' + 1) acc p' :=
          fun z hz => dfsVis_mono m _ acc p' z hz
        have hacc' : unvisited m (dfsVis m (f' + 1) acc p') < f' + 1 :=
          Nat.lt_of_le_of_lt (unvisited_anti m hsub) hacc
        constructor
        · intro q hq
          rcases List.mem_cons.mp hq with rfl | hq'
          · exact foldl_mem_mono (fun v a y hy => dfsVis_mono m _ v a y hy) ps' _ q
              (dfsVis_self m f' acc q)
          · exact (ihp _ hacc').1 q hq'
        · intro y hy hyn q hq
          by_cases hy' : y ∈ dfsVis m (f' + 1) acc p'
          · exact foldl_mem_mono (fun v a z hz => dfsVis_mono m _ v a z hz) ps' _ q
              (ih acc p' hacc y hy' hyn q hq)
          · exact (ihp _ hacc').2 y hy hy' q hq
    simp only [dfsVis] at hx ⊢
    by_cases hc : vis.contains h = true
    · rw [if_pos hc] at hx
      exact absurd hx hxv
    · rw [if_neg hc] at hx ⊢
      by_cases hps : parentsOf m h = []
      · rw [hps] at hx ⊢
        rcases List.mem_cons.mp hx with rfl | hx'
        · rw [hps] at hp; exact absurd hp (List.not_mem_nil p)
        · exact absurd hx' hxv
      · have hkm : h ∈ keysOf m := parents_ne_nil_mem_keys m h hps
        have hvm : h ∉ vis := fun hmem => hc (contains_iff.mpr hmem)
        have hlt' : unvisited m (h :: vis) < f :=
          Nat.lt_of_lt_of_le (unvisited_cons_lt m vis h hkm hvm) (Nat.lt_succ_iff.mp hlt)
        by_cases hxh : x = h
        · subst hxh
          exact (inner (parentsOf m x) (x :: vis) hlt').1 p hp
        · have hxacc : x ∉ h :: vis := by
            intro hmem
            rcases List.mem_cons.mp hmem with rfl | hmem'
            · exact hxh rfl
            · exact hxv hmem'
          exact (inner (parentsOf m h) (h :: vis) hlt').2 x hx hxacc p hp

theorem reaches_mem_closed {m : TxMap} {R : List String}
    (hcl : ∀ y ∈ R, ∀ p ∈ parentsOf m y, p ∈ R) :
    ∀ a c, Reaches m a c → a ∈ R → c ∈ R := by
  intro a c h
  induction h with
  | refl => exact id
  | step hp _ ih => intro ha; exact ih (hcl _ ha _ hp)

theorem unvisited_nil (m : TxMap) : unvisited m [] = m.length := by
  unfold unvisited
  have : ∀ k ∈ keysOf m, (!([] : List String).contains k) = true := by
    intro k _; rfl
  rw [List.countP_eq_length.mpr this]
  simp [keysOf]

theorem dfsVis_empty_iff (m : TxMap) (t x : String) :
    x ∈ dfsVis m (m.length + 1) [] t ↔ Reaches m t x := by
  constructor
  · intro hx
    rcases dfsVis_sound m _ [] t x hx with h | h
    · exact absurd h (List.not_mem_nil x)
    · exact h
  · intro hx
    have hfuel : unvisited m [] < m.length + 1 := by rw [unvisited_nil]; omega
    have hcl : ∀ y ∈ dfsVis m (m.length + 1) [] t,
        ∀ p ∈ parentsOf m y, p ∈ dfsVis m (m.length + 1) [] t :=
      fun y hy p hp => dfsVis_closed m _ [] t hfuel y hy (List.not_mem_nil y) p hp
    exact reaches_mem_closed hcl t x hx (dfsVis_self m _ [] t)

/-- Reachability is decided by running the DFS itself. -/
instance reachesDecidable (m : TxMap) (t x : String) : Decidable (Reaches m t x) :=
  decidable_of_iff (x ∈ dfsVis m (m.length + 1) [] t) (dfsVis_empty_iff m t x)

theorem dfsConf_snd (m : TxMap) :
    ∀ (fuel : Nat) (c : List (String × Nat)) (v : List String) (h : String),
      (dfsConf m fuel (c, v) h).2 = dfsVis m fuel v h := by
  intro fuel
  induction fuel with
  | zero => intros; rfl
  | succ f ih =>
    intro c v h
    simp only [dfsConf, dfsVis]
    by_cases hc : v.contains h = true
    · rw [if_pos hc, if_pos hc]
    · rw [if_neg hc, if_neg hc]
      have inner : ∀ (ps : List String) (c' : List (String × Nat)) (v' : List String),
          (ps.foldl (fun cv p => dfsConf m f cv p) (c', v')).2 =
            ps.foldl (fun vv p => dfsVis m f vv p) v' := by
        intro ps
        induction ps with
        | nil => intros; rfl
        | cons p ps ihp =>
          intro c' v'
          rcases hsplit : dfsConf m f (c', v') p with ⟨c1, v1⟩
          have hv1 : v1 = dfsVis m f v' p := by rw [← ih c' v' p, hsplit]
          rw [List.foldl_cons, hsplit, ihp c1 v1, List.foldl_cons, hv1]
      exact inner (parentsOf m h) _ _

theorem dfsConf_fst (m : TxMap) :
    ∀ (fuel : Nat) (c : List (String × Nat)) (v : List String) (h x : String),
      lookupD (dfsConf m fuel (c, v) h).1 x 0 =
        lookupD c x 0 + (if x ∈ dfsVis m fuel v h ∧ x ∉ v then 1 else 0) := by
  intro fuel
  induction fuel with
  | zero =>
    intro c v h x
    simp only [dfsConf, dfsVis]
    rw [if_neg (fun hcon => hcon.2 hcon.1)]
    exact (Nat.add_zero _).symm
  | succ f ih =>
    intro c v h x
    by_cases hc : v.contains h = true
    · have e1 : dfsConf m (f + 1) (c, v) h = (c, v) := by
        simp only [dfsConf]
        rw [if_pos hc]
      have e2 : dfsVis m (f + 1) v h = v := by
        simp only [dfsVis]
        rw [if_pos hc]
      rw [e1, e2, if_neg (fun hcon => hcon.2 hcon.1)]
      exact (Nat.add_zero _).symm
    · have e1 : dfsConf m (f + 1) (c, v) h =
          (parentsOf m h).foldl (fun cv p => dfsConf m f cv p)
            (upd c h (lookupD c h 0 + 1), h :: v) := by
        simp only [dfsConf]
        rw [if_neg hc]
      have e2 : dfsVis m (f + 1) v h =
          (parentsOf m h).foldl (fun vv p => dfsVis m f vv p) (h :: v) := by
        simp only [dfsVis]
        rw [if_neg hc]
      rw [e1, e2]
      have inner : ∀ (ps : List String) (c' : List (String × Nat)) (v' : List String),
          lookupD (ps.foldl (fun cv p => dfsConf m f cv p) (c', v')).1 x 0 =
            lookupD c' x 0 +
              (if x ∈ ps.foldl (fun vv p => dfsVis m f vv p) v' ∧ x ∉ v' then 1 else 0) := by
        intro ps
        induction ps with
        | nil =>
          intro c' v'
          rw [List.foldl_nil, List.foldl_nil, if_neg (fun hcon => hcon.2 hcon.1)]
          exact (Nat.add_zero _).symm
        | cons p ps ihp =>
          intro c' v'
          rcases hsplit : dfsConf m f (c', v') p with ⟨c1, v1⟩
          have hv1 : v1 = dfsVis m f v' p := by rw [← dfsConf_snd m f c' v' p, hsplit]
          rw [List.foldl_cons, hsplit, ihp c1 v1, List.foldl_cons]
          have hc1 : lookupD c1 x 0 =
              lookupD c' x 0 + (if x ∈ dfsVis m f v' p ∧ x ∉ v' then 1 else 0) := by
            rw [← ih c' v' p x, hsplit]
          rw [hc1, hv1]
          have hgrow : ∀ z ∈ dfsVis m f v' p,
              z ∈ ps.foldl (fun vv q => dfsVis m f vv q) (dfsVis m f v' p) :=
            fun z hz => foldl_mem_mono (fun vv a y hy => dfsVis_mono m f vv a y hy) ps _ z hz
          have hsubv : ∀ z ∈ v', z ∈ dfsVis m f v' p :=
            fun z hz => dfsVis_mono m f v' p z hz
          by_cases h1 : x ∈ v'
          · rw [if_neg (fun hcon => hcon.2 h1),
              if_neg (fun hcon => hcon.2 (hsubv x h1)),
              if_neg (fun hcon => hcon.2 h1)]
          · by_cases h2 : x ∈ dfsVis m f v' p
            · rw [if_pos ⟨h2, h1⟩, if_neg (fun hcon => hcon.2 h2),
                if_pos ⟨hgrow x h2, h1⟩]
              try omega
            · rw [if_neg (fun hcon => h2 hcon.1)]
              by_cases h3 : x ∈ ps.foldl (fun vv q => dfsVis m f vv q) (dfsVis m f v' p)
              · rw [if_pos ⟨h3, h2⟩, if_pos ⟨h3, h1⟩]
                try omega
              · rw [if_neg (fun hcon => h3 hcon.1),
                  if_neg (fun hcon => h3 hcon.1)]
                try omega
      rw [inner (parentsOf m h) _ _]
      have hupd : lookupD (upd c h (lookupD c h 0 + 1)) x 0 =
          lookupD c x 0 + (if x = h then 1 else 0) := by
        by_cases hxh : x = h
        · subst hxh
          rw [if_pos rfl]
          unfold lookupD
          rw [lookup_upd_self]
          rfl
        · rw [if_neg hxh]
          unfold lookupD
          rw [lookup_upd_ne _ _ _ _ hxh]
          exact (Nat.add_zero _).symm
      rw [hupd]
      by_cases hxh : x = h
      · subst hxh
        have hxin : x ∈ (parentsOf m x).foldl (fun vv p => dfsVis m f vv p) (x :: v) :=
          foldl_mem_mono (fun vv a y hy => dfsVis_mono m f vv a y hy) _ _ x
            (List.mem_cons_self _ _)
        have hxv : x ∉ v := fun hmem => hc (contains_iff.mpr hmem)
        rw [if_pos rfl, if_neg (fun hcon => hcon.2 (List.mem_cons_self _ _)),
          if_pos ⟨hxin, hxv⟩]
        try omega
      · rw [if_neg hxh]
        by_cases hmem : x ∈ (parentsOf m h).foldl (fun vv p => dfsVis m f vv p) (h :: v)
        · by_cases hxv : x ∈ v
          · rw [if_neg (fun hcon => hcon.2 (List.mem_cons_of_mem _ hxv)),
              if_neg (fun hcon => hcon.2 hxv)]
            try omega
          · have hxhv : x ∉ h :: v := by
              intro hi
              rcases List.mem_cons.mp hi with rfl | hi2
              · exact hxh rfl
              · exact hxv hi2
            rw [if_pos ⟨hmem, hxhv⟩, if_pos ⟨hmem, hxv⟩]
            try omega
        · rw [if_neg (fun hcon => hmem hcon.1),
            if_neg (fun hcon => hmem hcon.1)]
          try omega

theorem confidenceOf_lookup (m : TxMap) (x : String) :
    lookupD (confidenceOf m) x 0 =
      ((tipsOf m).filter (fun t => (dfsVis m (m.length + 1) [] t).contains x)).length := by
  unfold confidenceOf
  have main : ∀ (ts : List String) (c : List (String × Nat)),
      lookupD (ts.foldl (fun conf t => (dfsConf m (m.length + 1) (conf, []) t).1) c) x 0 =
        lookupD c x 0 +
          (ts.filter (fun t => (dfsVis m (m.length + 1) [] t).contains x)).length := by
    intro ts
    induction ts with
    | nil => intro c; simp
    | cons t ts ihp =>
      intro c
      rw [List.foldl_cons, ihp, dfsConf_fst, List.filter_cons]
      by_cases hx : (dfsVis m (m.length + 1) [] t).contains x = true
      · rw [if_pos hx, if_pos ⟨contains_iff.mp hx, List.not_mem_nil x⟩]
        simp only [List.length_cons]
        omega
      · have hnx : x ∉ dfsVis m (m.length + 1) [] t :=
          fun hmem => hx (contains_iff.mpr hmem)
        rw [if_neg hx, if_neg (fun hcon => hnx hcon.1)]
        omega
  rw [main]
  simp [lookupD]

/-- C9: for any node's DAG map with distinct keys, the computed confidence
of each fingerprint equals the number of distinct tips from which the
fingerprint is transitively reachable via parent references, the tip list
is duplicate-free, and every confidence value is bounded by the tip-set
size. -/
theorem C9_theorem (m : TxMap) (x : String) (hnd : (keysOf m).Nodup) :
    lookupD (confidenceOf m) x 0 =
      ((tipsOf m).filter (fun t => decide (Reaches m t x))).length ∧
    (tipsOf m).Nodup ∧
    lookupD (confidenceOf m) x 0 ≤ (tipsOf m).length := by
  have heq : ((tipsOf m).filter (fun t => (dfsVis m (m.length + 1) [] t).contains x)) =
      ((tipsOf m).filter (fun t => decide (Reaches m t x))) := by
    apply List.filter_congr
    intro t _
    rw [Bool.eq_iff_iff]
    constructor
    · intro hcx
      exact decide_eq_true ((dfsVis_empty_iff m t x).mp (contains_iff.mp hcx))
    · intro hd
      exact contains_iff.mpr ((dfsVis_empty_iff m t x).mpr (of_decide_eq_true hd))
  refine ⟨?_, hnd.filter _, ?_⟩
  · rw [confidenceOf_lookup, heq]
  · rw [confidenceOf_lookup]
    exact List.length_filter_le _ _

/-- First genesis DAG transaction (its hash is overwritten to `"gen1"`). -/
def tangleG1 : Transaction :=
  { Sender := "genesis", Receiver := "network", Amount := 1, Parents := [],
    Hash := "gen1", Nonce := 0 }

/-- Second genesis DAG transaction. -/
def tangleG2 : Transaction :=
  { Sender := "genesis", Receiver := "network", Amount := 2, Parents := [],
    Hash := "gen2", Nonce := 0 }

/-- The initial per-node DAG map holding the two genesis entries. -/
def tangleInitMap : TxMap := upd (upd [] "gen1" tangleG1) "gen2" tangleG2

/-- C9 witness: on the genesis-only map, `"gen1"` has confidence 1 = the
number of tips reaching it, and the bound by the tip count holds. -/
theorem C9_witness :
    lookupD (confidenceOf tangleInitMap) "gen1" 0 =
      ((tipsOf tangleInitMap).filter
        (fun t => decide (Reaches tangleInitMap t "gen1"))).length ∧
    (tipsOf tangleInitMap).Nodup ∧
    lookupD (confidenceOf tangleInitMap) "gen1" 0 ≤ (tipsOf tangleInitMap).length :=
  C9_theorem tangleInitMap "gen1" (by decide)

/-- The aggregation loop of `SimulateDAG` (run under the mutex, one node at
a time): for each fingerprint holding a confidence entry, bump the global
tracker for that transaction's amount by one, registering the canonical
transaction copy only on the first observation.  `conf` is iterated in
list order (Go map iteration order is unspecified). -/
def aggregateNode (tracker : List (Nat × Nat)) (txmap : List (Nat × Transaction))
    (conf : List (String × Nat)) (m : TxMap) :
    List (Nat × Nat) × List (Nat × Transaction) :=
  conf.foldl (fun acc kv =>
    let tx := lookupD m kv.1 Transaction.zero
    let tm := if hasKey acc.1 tx.Amount then acc.2 else upd acc.2 tx.Amount tx
    (upd acc.1 tx.Amount (lookupD acc.1 tx.Amount 0 + 1), tm)) (tracker, txmap)

theorem hasKey_upd_self {α β : Type} [BEq α] [LawfulBEq α]
    (m : List (α × β)) (k : α) (v : β) : hasKey (upd m k v) k = true := by
  unfold hasKey
  rw [lookup_upd_self]
  rfl

theorem hasKey_upd_ne {α β : Type} [BEq α] [LawfulBEq α]
    (m : List (α × β)) (k k' : α) (v : β) (h : k' ≠ k) :
    hasKey (upd m k v) k' = hasKey m k' := by
  unfold hasKey
  rw [lookup_upd_ne _ _ _ _ h]

theorem lookupD_upd_self {α β : Type} [BEq α] [LawfulBEq α]
    (m : List (α × β)) (k : α) (v d : β) : lookupD (upd m k v) k d = v := by
  unfold lookupD
  rw [lookup_upd_self]
  rfl

theorem lookupD_upd_ne {α β : Type} [BEq α] [LawfulBEq α]
    (m : List (α × β)) (k k' : α) (v d : β) (h : k' ≠ k) :
    lookupD (upd m k v) k' d = lookupD m k' d := by
  unfold lookupD
  rw [lookup_upd_ne _ _ _ _ h]

theorem aggregateNode_tracker (m : TxMap) (amt : Nat) :
    ∀ (conf : List (String × Nat)) (tr : List (Nat × Nat)) (tm : List (Nat × Transaction)),
      lookupD (aggregateNode tr tm conf m).1 amt 0 =
        lookupD tr amt 0 +
          conf.countP (fun kv => (lookupD m kv.1 Transaction.zero).Amount == amt) := by
  intro conf
  induction conf with
  | nil => intro tr tm; simp [aggregateNode]
  | cons kv conf ih =>
    intro tr tm
    have hstep : aggregateNode tr tm (kv :: conf) m =
        aggregateNode (upd tr (lookupD m kv.1 Transaction.zero).Amount
            (lookupD tr (lookupD m kv.1 Transaction.zero).Amount 0 + 1))
          (if hasKey tr (lookupD m kv.1 Transaction.zero).Amount then tm
            else upd tm (lookupD m kv.1 Transaction.zero).Amount
              (lookupD m kv.1 Transaction.zero)) conf m := rfl
    rw [hstep, ih, List.countP_cons]
    by_cases ha : (lookupD m kv.1 Transaction.zero).Amount = amt
    · have hb : (((lookupD m kv.1 Transaction.zero).Amount == amt) : Bool) = true :=
        beq_iff_eq.mpr ha
      rw [if_pos hb, ha, lookupD_upd_self]
      omega
    · have hb : (((lookupD m kv.1 Transaction.zero).Amount == amt) : Bool) = false :=
        beq_eq_false_iff_ne.mpr ha
      rw [if_neg (fun hcon => absurd hcon (by simp [hb])),
        lookupD_upd_ne _ _ _ _ _ (fun he => ha he.symm)]
      omega

theorem aggregateNode_registered (m : TxMap) (amt : Nat) :
    ∀ (conf : List (String × Nat)) (tr : List (Nat × Nat)) (tm : List (Nat × Transaction)),
      hasKey tr amt = true →
      (aggregateNode tr tm conf m).2.lookup amt = tm.lookup amt := by
  intro conf
  induction conf with
  | nil => intro tr tm _; rfl
  | cons kv conf ih =>
    intro tr tm hk
    have hstep : aggregateNode tr tm (kv :: conf) m =
        aggregateNode (upd tr (lookupD m kv.1 Transaction.zero).Amount
            (lookupD tr (lookupD m kv.1 Transaction.zero).Amount 0 + 1))
          (if hasKey tr (lookupD m kv.1 Transaction.zero).Amount then tm
            else upd tm (lookupD m kv.1 Transaction.zero).Amount
              (lookupD m kv.1 Transaction.zero)) conf m := rfl
    rw [hstep]
    by_cases hae : (lookupD m kv.1 Transaction.zero).Amount = amt
    · rw [hae, if_pos hk, ih _ _ (hasKey_upd_self _ _ _)]
    · have hk2 : hasKey (upd tr (lookupD m kv.1 Transaction.zero).Amount
          (lookupD tr (lookupD m kv.1 Transaction.zero).Amount 0 + 1)) amt = true := by
        rw [hasKey_upd_ne _ _ _ _ (fun h => hae h.symm)]
        exact hk
      rw [ih _ _ hk2]
      by_cases hkey : hasKey tr (lookupD m kv.1 Transaction.zero).Amount = true
      · rw [if_pos hkey]
      · rw [if_neg hkey, lookup_upd_ne _ _ _ _ (fun h => hae h.symm)]

theorem aggregateNode_first (m : TxMap) (amt : Nat) (kv0 : String × Nat) :
    ∀ (conf : List (String × Nat)) (tr : List (Nat × Nat)) (tm : List (Nat × Transaction)),
      hasKey tr amt = false →
      conf.find? (fun kv => (lookupD m kv.1 Transaction.zero).Amount == amt) = some kv0 →
      (aggregateNode tr tm conf m).2.lookup amt =
        some (lookupD m kv0.1 Transaction.zero) := by
  intro conf
  induction conf with
  | nil => intro tr tm _ hf; cases hf
  | cons kv conf ih =>
    intro tr tm hk hf
    have hstep : aggregateNode tr tm (kv :: conf) m =
        aggregateNode (upd tr (lookupD m kv.1 Transaction.zero).Amount
            (lookupD tr (lookupD m kv.1 Transaction.zero).Amount 0 + 1))
          (if hasKey tr (lookupD m kv.1 Transaction.zero).Amount then tm
            else upd tm (lookupD m kv.1 Transaction.zero).Amount
              (lookupD m kv.1 Transaction.zero)) conf m := rfl
    rw [hstep]
    by_cases hae : (lookupD m kv.1 Transaction.zero).Amount = amt
    · have hb : (((lookupD m kv.1 Transaction.zero).Amount == amt) : Bool) = true :=
        beq_iff_eq.mpr hae
      rw [@List.find?_cons_of_pos _
        (fun kv => (lookupD m kv.1 Transaction.zero).Amount == amt) kv conf hb] at hf
      injection hf with hf
      subst hf
      have hkf : hasKey tr (lookupD m kv.1 Transaction.zero).Amount = false := by
        rw [hae]
        exact hk
      rw [if_neg (fun hcon => absurd hcon (by simp [hkf]))]
      have hreg : hasKey (upd tr (lookupD m kv.1 Transaction.zero).Amount
          (lookupD tr (lookupD m kv.1 Transaction.zero).Amount 0 + 1)) amt = true := by
        rw [← hae]
        exact hasKey_upd_self _ _ _
      rw [aggregateNode_registered m amt conf _ _ hreg, ← hae, lookup_upd_self]
    · have hb : (((lookupD m kv.1 Transaction.zero).Amount == amt) : Bool) = false :=
        beq_eq_false_iff_ne.mpr hae
      rw [@List.find?_cons_of_neg _
        (fun kv => (lookupD m kv.1 Transaction.zero).Amount == amt) kv conf
        (by simp [hb])] at hf
      have hk2 : hasKey (upd tr (lookupD m kv.1 Transaction.zero).Amount
          (lookupD tr (lookupD m kv.1 Transaction.zero).Amount 0 + 1)) amt = false := by
        rw [hasKey_upd_ne _ _ _ _ (fun h => hae h.symm)]
        exact hk
      rw [ih _ _ hk2 hf]

/-- `totalConfidence`: the sum of all tracked values. -/
def totalTracked (tr : List (Nat × Nat)) : Nat := (tr.map (·.2)).sum

/-- The `txConfirmed` loop at the end of `SimulateDAG`: count tracked
transactions whose value is at least the average tracked value
(`float64(kv.Value) >= totalConfidence/len`, exact for these integers). -/
def tangleConfirmedCount (tr : List (Nat × Nat)) : Nat :=
  tr.countP (fun kv => decide (totalTracked tr ≤ kv.2 * tr.length))

theorem tangleConfirmedCount_avg (tr : List (Nat × Nat)) (h : tr.length ≠ 0) :
    tangleConfirmedCount tr =
      tr.countP (fun kv =>
        decide (((totalTracked tr : Rat) / (tr.length : Rat)) ≤ (kv.2 : Rat))) := by
  unfold tangleConfirmedCount
  have hlen : (0 : Rat) < (tr.length : Rat) := by
    have := Nat.pos_of_ne_zero h
    exact_mod_cast this
  apply List.countP_congr
  intro kv _
  rw [decide_eq_true_iff, decide_eq_true_iff, div_le_iff₀ hlen]
  constructor
  · intro hle
    exact_mod_cast hle
  · intro hle
    exact_mod_cast hle

/-- Sender of the canonical registered copy for an amount. -/
def senderOf (tm : List (Nat × Transaction)) (amt : Nat) : String :=
  (lookupD tm amt Transaction.zero).Sender

/-- `honestCount` of the result loop. -/
def honestCountOf (tr : List (Nat × Nat)) (tm : List (Nat × Transaction)) : Nat :=
  tr.countP (fun kv => isHonestName (senderOf tm kv.1))

/-- `honestConfidence` of the result loop. -/
def honestConfOf (tr : List (Nat × Nat)) (tm : List (Nat × Transaction)) : Nat :=
  ((tr.filter (fun kv => isHonestName (senderOf tm kv.1))).map (·.2)).sum

/-- `corruptCount` (the `else if` branch of the result loop). -/
def corruptCountOf (tr : List (Nat × Nat)) (tm : List (Nat × Transaction)) : Nat :=
  tr.countP (fun kv =>
    !isHonestName (senderOf tm kv.1) && isCorruptName (senderOf tm kv.1))

/-- `corruptConfidence`. -/
def corruptConfOf (tr : List (Nat × Nat)) (tm : List (Nat × Transaction)) : Nat :=
  ((tr.filter (fun kv =>
    !isHonestName (senderOf tm kv.1) && isCorruptName (senderOf tm kv.1))).map (·.2)).sum

/-- `avgConf_Honest`: guarded division, zero on an empty population. -/
def tangleAvgHonest (tr : List (Nat × Nat)) (tm : List (Nat × Transaction)) : Rat :=
  if 0 < honestCountOf tr tm
  then (honestConfOf tr tm : Rat) / (honestCountOf tr tm : Rat) else 0

/-- `avgConf_Corrupt`: guarded division, zero on an empty population. -/
def tangleAvgCorrupt (tr : List (Nat × Nat)) (tm : List (Nat × Transaction)) : Rat :=
  if 0 < corruptCountOf tr tm
  then (corruptConfOf tr tm : Rat) / (corruptCountOf tr tm : Rat) else 0

/-- Result metrics of `SimulateDAG` (part of its return tuple plus the
internal overall average). -/
structure TangleResult where
  txConfirmed : Nat
  avgConfidence : FVal
  avgConfHonest : FVal
  avgConfCorrupt : FVal
  winnerType : String
  txConfirmedPct : FVal
deriving DecidableEq, Repr

/-- Assemble the end-of-run metrics of `SimulateDAG` from the global
tracker, the canonical-copy map, and the sent count.  The overall average
`totalConfidence / len(sortedConfidence)` is an unguarded float division:
over an empty tracker it is NaN.  All metrics are order-independent sums
and counts, so iterating the tracker in list order instead of the sorted
Go order is faithful. -/
def tangleResultOf (tr : List (Nat × Nat)) (tm : List (Nat × Transaction))
    (txSent : Nat) : TangleResult :=
  { txConfirmed := tangleConfirmedCount tr
    avgConfidence := if tr.length = 0 then FVal.nan
      else FVal.fin ((totalTracked tr : Rat) / (tr.length : Rat))
    avgConfHonest := FVal.fin (tangleAvgHonest tr tm)
    avgConfCorrupt := FVal.fin (tangleAvgCorrupt tr tm)
    winnerType := if tangleAvgHonest tr tm < tangleAvgCorrupt tr tm
      then "corrupt" else "honest"
    txConfirmedPct := getPercentage (tangleConfirmedCount tr) txSent }

/-- C5, amended: the global tracker gains a transaction (keyed by unique
amount) as soon as a node reports confidence entries for it, but what is
accumulated under the lock is ONE per reporting confidence entry, not the
reported confidence score; only the first observation registers the
canonical transaction copy; and the run's confirmed count is the number of
tracked transactions whose accumulated tally is at least the average
tally — not the number with any non-zero report. -/
theorem C5_theorem (tr : List (Nat × Nat)) (tm : List (Nat × Transaction))
    (conf : List (String × Nat)) (m : TxMap) (amt s : Nat) (kv0 : String × Nat) :
    (lookupD (aggregateNode tr tm conf m).1 amt 0 =
      lookupD tr amt 0 +
        conf.countP (fun kv => (lookupD m kv.1 Transaction.zero).Amount == amt)) ∧
    (hasKey tr amt = true →
      (aggregateNode tr tm conf m).2.lookup amt = tm.lookup amt) ∧
    (hasKey tr amt = false →
      conf.find? (fun kv => (lookupD m kv.1 Transaction.zero).Amount == amt) = some kv0 →
      (aggregateNode tr tm conf m).2.lookup amt =
        some (lookupD m kv0.1 Transaction.zero)) ∧
    (tr.length ≠ 0 → (tangleResultOf tr tm s).txConfirmed =
      tr.countP (fun kv =>
        decide (((totalTracked tr : Rat) / (tr.length : Rat)) ≤ (kv.2 : Rat)))) :=
  ⟨aggregateNode_tracker m amt conf tr tm,
   aggregateNode_registered m amt conf tr tm,
   aggregateNode_first m amt kv0 conf tr tm,
   fun h => tangleConfirmedCount_avg tr h⟩

/-- Canonical honest transaction with amount 1.00 for C5 scenarios. -/
def c5txA : Transaction :=
  { Sender := "honest1", Receiver := "honest2", Amount := 100,
    Parents := ["gen1", "gen2"], Hash := "a", Nonce := 0 }

/-- Canonical honest transaction with amount 2.00 for C5 scenarios. -/
def c5txB : Transaction :=
  { Sender := "honest2", Receiver := "honest1", Amount := 200,
    Parents := ["gen1", "gen2"], Hash := "b", Nonce := 0 }

/-- First node's DAG map in the C5 scenario. -/
def c5m1 : TxMap := [("a", c5txA), ("b", c5txB)]

/-- Second and third nodes' DAG map in the C5 scenario. -/
def c5m2 : TxMap := [("b", c5txB)]

/-- Tracker state after the first node aggregates. -/
def c5agg1 : List (Nat × Nat) × List (Nat × Transaction) :=
  aggregateNode [] [] [("a", 1), ("b", 1)] c5m1

/-- Tracker state after the second node aggregates. -/
def c5agg2 : List (Nat × Nat) × List (Nat × Transaction) :=
  aggregateNode c5agg1.1 c5agg1.2 [("b", 1)] c5m2

/-- Tracker state after the third node aggregates. -/
def c5agg3 : List (Nat × Nat) × List (Nat × Transaction) :=
  aggregateNode c5agg2.1 c5agg2.2 [("b", 1)] c5m2

/-- C5 counterexample: a node reporting confidence 5 for a transaction adds
only 1 to the tracker, and after three nodes report (amount 1.00 once,
amount 2.00 three times) the transaction with amount 1.00 has a non-zero
tally yet the confirmed count is 1, not 2 — so a transaction is not counted
as confirmed as soon as some node reports non-zero confidence, and the
reported score is not what is accumulated. -/
theorem C5_counterexample :
    lookupD (aggregateNode [] [] [("h", 5)] [("h", c5txA)]).1 100 0 = 1 ∧
    (1 : Nat) ≠ 5 ∧
    lookupD c5agg3.1 100 0 = 1 ∧ lookupD c5agg3.1 100 0 ≠ 0 ∧
    tangleConfirmedCount c5agg3.1 = 1 ∧ c5agg3.1.length = 2 :=
  ⟨by decide, by decide, by decide, by decide, by decide, by decide⟩

/-- C5 witness: the amended aggregation/confirmation rules applied at
concrete inputs. -/
theorem C5_witness :
    ((aggregateNode [(100, 1)] [(100, c5txA)] [("b", 1)] c5m2).2.lookup 100 =
      List.lookup 100 [(100, c5txA)]) ∧
    ((aggregateNode [] [] [("b", 1)] c5m2).2.lookup 200 =
      some (lookupD c5m2 "b" Transaction.zero)) ∧
    (lookupD (aggregateNode [] [] [("b", 1)] c5m2).1 200 0 =
      lookupD ([] : List (Nat × Nat)) 200 0 +
        [("b", 1)].countP
          (fun kv => (lookupD c5m2 kv.1 Transaction.zero).Amount == 200)) ∧
    ((tangleResultOf [(100, 2), (200, 2)] [] 0).txConfirmed =
      [(100, 2), (200, 2)].countP (fun kv =>
        decide (((totalTracked [(100, 2), (200, 2)] : Rat) /
          (([(100, 2), (200, 2)] : List (Nat × Nat)).length : Rat)) ≤ (kv.2 : Rat)))) :=
  ⟨(C5_theorem [(100, 1)] [(100, c5txA)] [("b", 1)] c5m2 100 0 ("b", 1)).2.1 (by decide),
   (C5_theorem [] [] [("b", 1)] c5m2 200 0 ("b", 1)).2.2.1 (by decide) (by decide),
   (C5_theorem [] [] [("b", 1)] c5m2 200 0 ("b", 1)).1,
   (C5_theorem [(100, 2), (200, 2)] [] [] [] 0 0 ("b", 1)).2.2.2 (by decide)⟩

/-- C7, amended: the honest- and corrupt-population average confidences are
a defined zero when their populations are empty, but the overall average
confidence over an empty tracker is NaN, and the confirmation percentage
with zero transactions sent is +Inf (or NaN when nothing was confirmed
either) — a float division by zero, not a defined zero. -/
theorem C7_theorem (tr : List (Nat × Nat)) (tm : List (Nat × Transaction)) (s a : Nat) :
    (honestCountOf tr tm = 0 → (tangleResultOf tr tm s).avgConfHonest = FVal.fin 0) ∧
    (corruptCountOf tr tm = 0 → (tangleResultOf tr tm s).avgConfCorrupt = FVal.fin 0) ∧
    (tr.length = 0 →
      (tangleResultOf tr tm s).avgConfidence = FVal.nan ∧ FVal.nan ≠ FVal.fin 0) ∧
    (0 < a → getPercentage a 0 = FVal.inf ∧ FVal.inf ≠ FVal.fin 0) ∧
    getPercentage 0 0 = FVal.nan := by
  refine ⟨?_, ?_, ?_, ?_, rfl⟩
  · intro h
    simp [tangleResultOf, tangleAvgHonest, h]
  · intro h
    simp [tangleResultOf, tangleAvgCorrupt, h]
  · intro h
    refine ⟨?_, by simp⟩
    simp [tangleResultOf, h]
  · intro h
    refine ⟨?_, by simp⟩
    unfold getPercentage
    rw [if_pos rfl, if_neg (by omega)]

/-- C7 counterexample: with zero transactions sent, the reported
confirmation percentage is `100*2/0 = +Inf` (and `0/0` is NaN), not a
defined zero — these concrete inputs arise in any `p = 0` tangle run,
where the two genesis artifacts are counted as confirmed. -/
theorem C7_counterexample :
    getPercentage 2 0 = FVal.inf ∧ FVal.inf ≠ FVal.fin 0 ∧
    getPercentage 0 0 = FVal.nan ∧ FVal.nan ≠ FVal.fin 0 :=
  ⟨rfl, by simp, rfl, by simp⟩

/-- C7 witness: the amended statement applied at concrete inputs. -/
theorem C7_witness :
    (tangleResultOf [] [] 0).avgConfHonest = FVal.fin 0 ∧
    (tangleResultOf [] [] 0).avgConfCorrupt = FVal.fin 0 ∧
    ((tangleResultOf [] [] 0).avgConfidence = FVal.nan ∧ FVal.nan ≠ FVal.fin 0) ∧
    (getPercentage 1 0 = FVal.inf ∧ FVal.inf ≠ FVal.fin 0) ∧
    getPercentage 0 0 = FVal.nan :=
  ⟨(C7_theorem [] [] 0 1).1 (by decide), (C7_theorem [] [] 0 1).2.1 (by decide),
   (C7_theorem [] [] 0 1).2.2.1 (by decide), (C7_theorem [] [] 0 1).2.2.2.1 (by decide),
   (C7_theorem [] [] 0 1).2.2.2.2⟩

/-- Driver commands of `SendTransactions`: a rendezvous send of a raw
transaction into a node's inbox, or closing a node's inbox. -/
inductive Cmd where
  | send : Nat → Transaction → Cmd
  | closeInbox : Nat → Cmd
deriving DecidableEq, Repr

/-- The eligible ordered pairs of one round in loop order: `i ≠ j` and both
endpoints in the same population.  Each eligible pair consumes one random
draw and one unique amount, whether or not a transaction is created. -/
def eligiblePairs (N C : Nat) : List (Nat × Nat) :=
  (List.range N).flatMap (fun i =>
    ((List.range N).filter
      (fun j => !(i == j) && (getLabel i C == getLabel j C))).map (fun j => (i, j)))

/-- The driver transaction for global slot `q` and pair `ij`: unique amount
`1.00 + 0.01·q`. -/
def mkTx (C q : Nat) (ij : Nat × Nat) : Transaction :=
  { Sender := getLabel ij.1 C ++ toString (getNum ij.1 C),
    Receiver := getLabel ij.2 C ++ toString (getNum ij.2 C),
    Amount := 100 + q, Parents := [], Hash := "", Nonce := 0 }

/-- The transactions of round `r` whose sender has label `lbl`
(`honestTxs` / `corruptTxs`); `coins q` is the outcome of the `q`-th
`rand.Float64() <= p` draw. -/
def roundPop (N C : Nat) (coins : Nat → Bool) (r : Nat) (lbl : String) :
    List Transaction :=
  (eligiblePairs N C).enum.filterMap (fun kij =>
    if coins (r * (eligiblePairs N C).length + kij.1) ∧ getLabel kij.2.1 C = lbl
    then some (mkTx C (r * (eligiblePairs N C).length + kij.1) kij.2) else none)

/-- All transactions created in round `r`. -/
def roundCreated (N C : Nat) (coins : Nat → Bool) (r : Nat) : List Transaction :=
  (eligiblePairs N C).enum.filterMap (fun kij =>
    if coins (r * (eligiblePairs N C).length + kij.1)
    then some (mkTx C (r * (eligiblePairs N C).length + kij.1) kij.2) else none)

/-- All transactions created during the run. -/
def createdTxs (N C R : Nat) (coins : Nat → Bool) : List Transaction :=
  (List.range R).flatMap (fun r => roundCreated N C coins r)

/-- The `txSent` value returned by `SendTransactions`: one count per
created transaction. -/
def txSentOf (N C R : Nat) (coins : Nat → Bool) : Nat :=
  (createdTxs N C R coins).length

/-- The full driver script: per round, deliver the round's corrupt
transactions to each corrupt inbox and the honest ones to each honest
inbox; after all rounds, close every inbox. -/
def scriptOf (N C R : Nat) (coins : Nat → Bool) : List Cmd :=
  (List.range R).flatMap (fun r =>
    (List.range N).flatMap (fun i =>
      (if i < C then roundPop N C coins r "corrupt"
       else roundPop N C coins r "honest").map (Cmd.send i))) ++
  (List.range N).map Cmd.closeInbox

theorem roundPop_sub_created (N C : Nat) (coins : Nat → Bool) (r : Nat) (lbl : String) :
    ∀ t ∈ roundPop N C coins r lbl, t ∈ roundCreated N C coins r := by
  intro t ht
  unfold roundPop at ht
  unfold roundCreated
  rcases List.mem_filterMap.mp ht with ⟨kij, hk, he⟩
  refine List.mem_filterMap.mpr ⟨kij, hk, ?_⟩
  split at he
  next hcond =>
    cases he
    rw [if_pos hcond.1]
  next => cases he

theorem script_send_created (N C R : Nat) (coins : Nat → Bool) (i : Nat)
    (tx : Transaction) (hm : Cmd.send i tx ∈ scriptOf N C R coins) :
    tx ∈ createdTxs N C R coins := by
  unfold scriptOf at hm
  rcases List.mem_append.mp hm with hm | hm
  · rcases List.mem_flatMap.mp hm with ⟨r, hr, hm⟩
    rcases List.mem_flatMap.mp hm with ⟨i', _, hm⟩
    rcases List.mem_map.mp hm with ⟨t, ht, he⟩
    cases he
    refine List.mem_flatMap.mpr ⟨r, hr, ?_⟩
    split at ht
    · exact roundPop_sub_created N C coins r "corrupt" tx ht
    · exact roundPop_sub_created N C coins r "honest" tx ht
  · rcases List.mem_map.mp hm with ⟨j, _, he⟩
    cases he

theorem eligiblePairs_length_le (N C : Nat) :
    (eligiblePairs N C).length ≤ N * (N - 1) := by
  unfold eligiblePairs
  rw [List.flatMap_def, List.length_flatten, List.map_map]
  have hb : ∀ x ∈ (List.range N).map (List.length ∘ fun i =>
      (((List.range N).filter
        (fun j => !(i == j) && (getLabel i C == getLabel j C))).map (fun j => (i, j)))),
      x ≤ N - 1 := by
    intro x hx
    rcases List.mem_map.mp hx with ⟨i, hi, he⟩
    subst he
    simp only [Function.comp, List.length_map]
    have hsub : ((List.range N).filter
        (fun j => !(i == j) && (getLabel i C == getLabel j C))) ⊆
        (List.range N).erase i := by
      intro j hj
      rcases List.mem_filter.mp hj with ⟨hjr, hcond⟩
      have hne : j ≠ i := by
        intro he
        subst he
        simp at hcond
      exact (List.mem_erase_of_ne hne).mpr hjr
    have hnd : ((List.range N).filter
        (fun j => !(i == j) && (getLabel i C == getLabel j C))).Nodup :=
      (List.nodup_range N).filter _
    have hle := (hnd.subperm hsub).length_le
    have herase : ((List.range N).erase i).length = N - 1 := by
      rw [List.length_erase_of_mem hi, List.length_range]
    omega
  have hsum := List.sum_le_card_nsmul _ (N - 1) hb
  rw [List.length_map, List.length_range, smul_eq_mul] at hsum
  exact hsum

theorem roundCreated_length_le (N C : Nat) (coins : Nat → Bool) (r : Nat) :
    (roundCreated N C coins r).length ≤ N * (N - 1) := by
  unfold roundCreated
  calc ((eligiblePairs N C).enum.filterMap _).length
      ≤ (eligiblePairs N C).enum.length := List.length_filterMap_le _ _
    _ = (eligiblePairs N C).length := List.enum_length
    _ ≤ N * (N - 1) := eligiblePairs_length_le N C

theorem txSentOf_le (N C R : Nat) (coins : Nat → Bool) :
    txSentOf N C R coins ≤ R * (N * (N - 1)) := by
  unfold txSentOf createdTxs
  rw [List.flatMap_def, List.length_flatten, List.map_map]
  have hsum := List.sum_le_card_nsmul
    ((List.range R).map (List.length ∘ fun r => roundCreated N C coins r)) (N * (N - 1)) ?_
  · rw [List.length_map, List.length_range, smul_eq_mul] at hsum
    exact hsum
  · intro x hx
    rcases List.mem_map.mp hx with ⟨r, _, he⟩
    subst he
    exact roundCreated_length_le N C coins r

theorem roundPop_allFalse (N C r : Nat) (lbl : String) :
    roundPop N C (fun _ => false) r lbl = [] := by
  unfold roundPop
  apply List.filterMap_eq_nil_iff.mpr
  intro kij _
  rw [if_neg (fun hcon => Bool.noConfusion hcon.1)]

theorem flatMap_nil_of {α β : Type} (l : List α) (f : α → List β)
    (h : ∀ a ∈ l, f a = []) : l.flatMap f = [] := by
  induction l with
  | nil => rfl
  | cons a l ih =>
    rw [List.flatMap_cons, h a (List.mem_cons_self _ _),
      ih (fun b hb => h b (List.mem_cons_of_mem _ hb))]
    rfl

/-- With all coins false (`p = 0`), the script consists of the closes only. -/
theorem scriptOf_allFalse (N C R : Nat) :
    scriptOf N C R (fun _ => false) = (List.range N).map Cmd.closeInbox := by
  unfold scriptOf
  rw [flatMap_nil_of _ _ ?_]
  · rfl
  · intro r _
    apply flatMap_nil_of
    intro i _
    split <;> rw [roundPop_allFalse] <;> rfl

theorem roundCreated_allFalse (N C r : Nat) :
    roundCreated N C (fun _ => false) r = [] := by
  unfold roundCreated
  apply List.filterMap_eq_nil_iff.mpr
  intro kij _
  rw [if_neg (fun hcon => Bool.noConfusion hcon)]

theorem txSentOf_allFalse (N C R : Nat) : txSentOf N C R (fun _ => false) = 0 := by
  unfold txSentOf createdTxs
  rw [flatMap_nil_of _ _ (fun r _ => roundCreated_allFalse N C r)]
  rfl

/-- Pointwise update of an index-indexed family. -/
def updF {α : Type} (f : Nat → α) (i : Nat) (v : α) : Nat → α :=
  fun j => if j = i then v else f j

/-- The broadcast loop's delivery targets for miner `i`: every `j < N`
except `i` itself and except honest receivers of corrupt senders. -/
def targets (N C i : Nat) : List Nat :=
  (List.range N).filter (fun j =>
    !(i == j || (getLabel i C == "corrupt" && getLabel j C == "honest")))

theorem mem_targets (N C i j : Nat) :
    j ∈ targets N C i ↔
      j < N ∧ j ≠ i ∧ ¬(getLabel i C = "corrupt" ∧ getLabel j C = "honest") := by
  unfold targets
  rw [List.mem_filter, List.mem_range]
  constructor
  · intro ⟨hj, hcond⟩
    simp only [Bool.not_eq_true', Bool.or_eq_false_iff, Bool.and_eq_false_iff] at hcond
    refine ⟨hj, ?_, ?_⟩
    · intro he
      subst he
      rcases hcond with ⟨h1, _⟩
      simp at h1
    · intro ⟨hc1, hc2⟩
      rcases hcond with ⟨_, h2 | h2⟩
      · rw [hc1] at h2
        simp at h2
      · rw [hc2] at h2
        simp at h2
  · intro ⟨hj, hne, hvis⟩
    refine ⟨hj, ?_⟩
    simp only [Bool.not_eq_true', Bool.or_eq_false_iff, Bool.and_eq_false_iff]
    constructor
    · exact beq_eq_false_iff_ne.mpr (fun he => hne he.symm)
    · by_cases h1 : getLabel i C = "corrupt"
      · right
        exact beq_eq_false_iff_ne.mpr (fun h2 => hvis ⟨h1, h2⟩)
      · left
        exact beq_eq_false_iff_ne.mpr h1

/-- Local updates of the chain-variant mining branch: store and account the
new block, move the best tip to it, flush pending transactions, and enter
the broadcast loop. -/
def mineUpdate (nd : ChainNode) (nb : Block) (N C i : Nat) : ChainNode :=
  { nd with hashMap := upd nd.hashMap nb.Hash nb,
            counts := upd nd.counts nb.Hash (lookupD nd.counts nd.maxChain 0 + 1),
            origins := upd nd.origins nb.Hash i,
            maxChain := nb.Hash,
            maxLength := lookupD nd.counts nd.maxChain 0 + 1,
            pending := [],
            outbox := (targets N C i).map (fun j => (j, nb)) }

/-- `buildBlockChain`'s backward walk, fuelled (every stated property holds
for every fuel value; the tip-first order matches the Go `temp` slice). -/
def chainWalk (m : List (String × Block)) : Nat → String → List Block
  | 0, _ => []
  | fuel + 1, tail =>
    (if (lookupD m tail Block.zero).Hash ≠ "" then [lookupD m tail Block.zero] else []) ++
      (match m.lookup tail with
       | none => []
       | some b => chainWalk m fuel b.PrevHash)

/-- `buildBlockChain`: genesis followed by the walk in oldest-first order. -/
def buildBlockChain (m : List (String × Block)) (genesis : Block) (tail : String)
    (fuel : Nat) : List Block :=
  genesis :: (chainWalk m fuel tail).reverse

theorem lookup_some_mem_pair {α β : Type} [BEq α] [LawfulBEq α] :
    ∀ (m : List (α × β)) (k : α) (v : β), m.lookup k = some v → (k, v) ∈ m := by
  intro m
  induction m with
  | nil => intro k v h; cases h
  | cons p rest ih =>
    intro k v h
    simp only [List.lookup] at h
    split at h
    next heq =>
      cases h
      have : k = p.1 := by simpa using heq
      subst this
      exact List.mem_cons_self _ _
    next => exact List.mem_cons_of_mem _ (ih k v h)

theorem chainWalk_mem (m : List (String × Block)) :
    ∀ (fuel : Nat) (tail : String) (b : Block),
      b ∈ chainWalk m fuel tail → ∃ k, (k, b) ∈ m := by
  intro fuel
  induction fuel with
  | zero => intro tail b h; cases h
  | succ f ih =>
    intro tail b h
    simp only [chainWalk] at h
    rcases List.mem_append.mp h with h | h
    · split at h
      next hne =>
        rcases List.mem_cons.mp h with rfl | h'
        · cases hl : m.lookup tail with
          | none =>
            unfold lookupD at hne ⊢
            rw [hl] at hne
            exact absurd rfl hne
          | some b' =>
            refine ⟨tail, ?_⟩
            have := lookup_some_mem_pair m tail b' hl
            unfold lookupD
            rw [hl]
            exact this
        · cases h'
      next => cases h
    · split at h
      next => cases h
      next b' hl => exact ih b'.PrevHash b h

/-- `countConfirmedTransactions`: the number of distinct amounts in the
winning chain. -/
def countConfirmedTransactions (bc : List Block) : Nat :=
  ((bc.flatMap (·.Transactions)).map (·.Amount)).dedup.length

/-- Global state of the chain-variant simulation: per-node goroutine
states, per-node receiver buffers (entries carry a ghost sender id),
inbox-closed flags, the remaining driver script, and the winner
aggregation protected by `winnerMu`. -/
structure ChainState where
  N : Nat
  C : Nat
  D : Nat
  gen : Block
  node : Nat → ChainNode
  queue : Nat → List (Nat × Block)
  closed : Nat → Bool
  script : List Cmd
  winner : List Block
  winnerType : String

/-- Initial chain-simulation state. -/
def chainInit (N C R D : Nat) (coins : Nat → Bool) (G : Block) : ChainState :=
  { N := N, C := C, D := D, gen := G,
    node := fun _ => ChainNode.start,
    queue := fun _ => [],
    closed := fun _ => false,
    script := scriptOf N C R coins,
    winner := [], winnerType := "" }

/-- One interleaving step of the chain simulation.  Driver actions follow
the script order; node actions model one iteration of the select loop; the
broadcast loop is a sequence of `sendOk`/`sendDrop` sub-steps during which
the sender takes no other action; `finalize` is the post-loop
`buildBlockChain` plus the winner merge under the mutex. -/
inductive ChainStep : ChainState → ChainState → Prop where
  | driverClose (s : ChainState) (i : Nat) (rest : List Cmd) :
      s.script = Cmd.closeInbox i :: rest →
      ChainStep s { s with closed := updF s.closed i true, script := rest }
  | recvTx (s : ChainState) (i : Nat) (tx : Transaction) (rest : List Cmd) :
      s.script = Cmd.send i tx :: rest →
      (s.node i).exited = false → (s.node i).outbox = [] →
      ChainStep s { s with
        script := rest
        node := updF s.node i { s.node i with pending := (s.node i).pending ++ [tx] } }
  | observeClose (s : ChainState) (i : Nat) :
      s.closed i = true → (s.node i).exited = false → (s.node i).outbox = [] →
      ChainStep s { s with node := updF s.node i { s.node i with exited := true } }
  | recvBlock (s : ChainState) (i o : Nat) (b : Block) (q : List (Nat × Block)) :
      s.queue i = (o, b) :: q → (s.node i).exited = false → (s.node i).outbox = [] →
      ChainStep s { s with
        queue := updF s.queue i q
        node := updF s.node i (receiveBlock s.gen.Hash (s.node i) b o) }
  | mine (s : ChainState) (i fuel : Nat) (nb : Block) :
      (s.node i).exited = false → (s.node i).outbox = [] → (s.node i).pending ≠ [] →
      mineBlock { Transactions := (s.node i).pending,
                  PrevHash := (s.node i).maxChain,
                  Hash := "", Nonce := 0 } s.D fuel = some nb →
      ChainStep s { s with node := updF s.node i (mineUpdate (s.node i) nb s.N s.C i) }
  | sendOk (s : ChainState) (i j : Nat) (b : Block) (rest : List (Nat × Block)) :
      (s.node i).outbox = (j, b) :: rest → (s.queue j).length < s.N →
      ChainStep s { s with
        queue := updF s.queue j (s.queue j ++ [(i, b)])
        node := updF s.node i { s.node i with outbox := rest } }
  | sendDrop (s : ChainState) (i j : Nat) (b : Block) (rest : List (Nat × Block)) :
      (s.node i).outbox = (j, b) :: rest → ¬ (s.queue j).length < s.N →
      ChainStep s { s with node := updF s.node i { s.node i with outbox := rest } }
  | finalize (s : ChainState) (i fuel : Nat) :
      (s.node i).exited = true → (s.node i).merged = false →
      ChainStep s { s with
        node := updF s.node i { s.node i with merged := true }
        winner := if (buildBlockChain (s.node i).hashMap s.gen (s.node i).maxChain
            fuel).length > s.winner.length
          then buildBlockChain (s.node i).hashMap s.gen (s.node i).maxChain fuel
          else s.winner
        winnerType := if (buildBlockChain (s.node i).hashMap s.gen (s.node i).maxChain
            fuel).length > s.winner.length
          then getLabel i s.C else s.winnerType }

/-- Reachability in the chain simulation. -/
def ChainReach (s s' : ChainState) : Prop := Relation.ReflTransGen ChainStep s s'

theorem updF_self {α : Type} (f : Nat → α) (i : Nat) (v : α) : updF f i v i = v := by
  simp [updF]

theorem updF_ne {α : Type} (f : Nat → α) (i j : Nat) (v : α) (h : j ≠ i) :
    updF f i v j = f j := by
  simp [updF, h]

theorem mem_upd_elim {α β : Type} [BEq α] [LawfulBEq α] {m : List (α × β)} {k : α} {v : β}
    {p : α × β} (h : p ∈ upd m k v) : p = (k, v) ∨ p ∈ m := by
  rcases List.mem_cons.mp h with h | h
  · exact Or.inl h
  · exact Or.inr (List.mem_of_mem_filter h)

theorem keysOf_upd_superset {α β : Type} [BEq α] [LawfulBEq α] (m : List (α × β))
    (k : α) (v : β) : ∀ k', k' ∈ keysOf m → k' ∈ keysOf (upd m k v) := by
  intro k' hk
  by_cases he : k' = k
  · subst he
    exact List.mem_cons_self _ _
  · rcases List.mem_map.mp hk with ⟨p, hp, hpe⟩
    refine List.mem_cons_of_mem _ (List.mem_map.mpr ⟨p, ?_, hpe⟩)
    apply List.mem_filter.mpr
    refine ⟨hp, ?_⟩
    subst hpe
    simp [beq_eq_false_iff_ne, he]

theorem self_mem_keys_upd {α β : Type} [BEq α] [LawfulBEq α] (m : List (α × β))
    (k : α) (v : β) : k ∈ keysOf (upd m k v) :=
  List.mem_cons_self _ _

theorem hasKey_mem_keys {α β : Type} [BEq α] [LawfulBEq α] {m : List (α × β)} {k : α}
    (h : hasKey m k = true) : k ∈ keysOf m := by
  unfold hasKey at h
  cases hl : m.lookup k with
  | none => rw [hl] at h; cases h
  | some v => exact lookup_some_mem_keys m k v hl

/-- The four explicit outcomes of `receiveBlock`. -/
theorem receiveBlock_eq1 (g : String) (nd : ChainNode) (b : Block) (o : Nat)
    (h1 : hasKey nd.hashMap b.PrevHash = true)
    (h2 : lookupD nd.counts b.PrevHash 0 + 1 > nd.maxLength) :
    receiveBlock g nd b o =
      { nd with hashMap := upd nd.hashMap b.Hash b,
                counts := upd nd.counts b.Hash (lookupD nd.counts b.PrevHash 0 + 1),
                origins := upd nd.origins b.Hash o,
                maxChain := b.Hash,
                maxLength := lookupD nd.counts b.PrevHash 0 + 1 } := by
  unfold receiveBlock
  rw [if_pos h1, if_pos h2]

theorem receiveBlock_eq2 (g : String) (nd : ChainNode) (b : Block) (o : Nat)
    (h1 : hasKey nd.hashMap b.PrevHash = true)
    (h2 : ¬ (lookupD nd.counts b.PrevHash 0 + 1 > nd.maxLength)) :
    receiveBlock g nd b o =
      { nd with hashMap := upd nd.hashMap b.Hash b,
                counts := upd nd.counts b.Hash (lookupD nd.counts b.PrevHash 0 + 1),
                origins := upd nd.origins b.Hash o } := by
  unfold receiveBlock
  rw [if_pos h1, if_neg h2]

theorem receiveBlock_eq3 (g : String) (nd : ChainNode) (b : Block) (o : Nat)
    (h1 : hasKey nd.hashMap b.PrevHash = false) (h2 : nd.maxChain = "") :
    receiveBlock g nd b o =
      { nd with hashMap := upd nd.hashMap b.Hash { b with PrevHash := g },
                counts := upd nd.counts b.Hash 1,
                origins := upd nd.origins b.Hash o,
                maxChain := b.Hash,
                maxLength := 1 } := by
  unfold receiveBlock
  rw [if_neg (by simp [h1]), if_pos h2]

theorem receiveBlock_eq4 (g : String) (nd : ChainNode) (b : Block) (o : Nat)
    (h1 : hasKey nd.hashMap b.PrevHash = false) (h2 : ¬ nd.maxChain = "") :
    receiveBlock g nd b o =
      { nd with hashMap := upd nd.hashMap b.Hash { b with PrevHash := g },
                counts := upd nd.counts b.Hash 1,
                origins := upd nd.origins b.Hash o } := by
  unfold receiveBlock
  rw [if_neg (by simp [h1]), if_neg h2]

/-- Safety invariant of the chain simulation, parametrised by the set of
transactions the driver ever creates.  It packages the broadcast
visibility (C1), ledger reference integrity (C2), and the provenance of
every transaction in the system (C3). -/
structure ChainInv (created : List Transaction) (s : ChainState) : Prop where
  genTxs : s.gen.Transactions = []
  outboxVis : ∀ i jb, jb ∈ (s.node i).outbox →
    jb.1 ≠ i ∧ ¬(getLabel i s.C = "corrupt" ∧ getLabel jb.1 s.C = "honest")
  queueVis : ∀ j ob, ob ∈ s.queue j →
    ¬(getLabel ob.1 s.C = "corrupt" ∧ getLabel j s.C = "honest")
  originsVis : ∀ j ho, ho ∈ (s.node j).origins →
    getLabel j s.C = "honest" → getLabel ho.2 s.C = "honest"
  tipOK : ∀ j, (s.node j).maxChain ∈ keysOf (s.node j).hashMap ∨ (s.node j).maxChain = ""
  prevOK : ∀ j hb, hb ∈ (s.node j).hashMap →
    hb.2.PrevHash ∈ keysOf (s.node j).hashMap ∨ hb.2.PrevHash = s.gen.Hash ∨
      hb.2.PrevHash = ""
  scriptTxs : ∀ c ∈ s.script, ∀ i tx, c = Cmd.send i tx → tx ∈ created
  pendingTxs : ∀ j, ∀ tx ∈ (s.node j).pending, tx ∈ created
  mapTxs : ∀ j hb, hb ∈ (s.node j).hashMap → ∀ tx ∈ hb.2.Transactions, tx ∈ created
  queueTxs : ∀ j ob, ob ∈ s.queue j → ∀ tx ∈ ob.2.Transactions, tx ∈ created
  outboxTxs : ∀ i jb, jb ∈ (s.node i).outbox → ∀ tx ∈ jb.2.Transactions, tx ∈ created
  winnerTxs : ∀ b ∈ s.winner, ∀ tx ∈ b.Transactions, tx ∈ created

theorem chainInv_init (N C R D : Nat) (coins : Nat → Bool) (G : Block)
    (hG : G.Transactions = []) :
    ChainInv (createdTxs N C R coins) (chainInit N C R D coins G) := by
  refine ⟨hG, ?_, ?_, ?_, ?_, ?_, ?_, ?_, ?_, ?_, ?_, ?_⟩
  · intro i jb h; cases h
  · intro j ob h; cases h
  · intro j ho h; cases h
  · intro j; exact Or.inr rfl
  · intro j hb h; cases h
  · intro c hc i tx he
    subst he
    exact script_send_created N C R coins i tx hc
  · intro j tx h; cases h
  · intro j hb h; cases h
  · intro j ob h; cases h
  · intro i jb h; cases h
  · intro b h; cases h

theorem getLabel_cases (i C : Nat) : getLabel i C = "corrupt" ∨ getLabel i C = "honest" := by
  unfold getLabel
  split
  · exact Or.inl rfl
  · exact Or.inr rfl

theorem updF_outbox (f : Nat → ChainNode) (i : Nat) (v : ChainNode)
    (h : v.outbox = (f i).outbox) (j : Nat) : (updF f i v j).outbox = (f j).outbox := by
  by_cases hj : j = i
  · subst hj
    rw [updF_self, h]
  · rw [updF_ne _ _ _ _ hj]

theorem updF_origins (f : Nat → ChainNode) (i : Nat) (v : ChainNode)
    (h : v.origins = (f i).origins) (j : Nat) : (updF f i v j).origins = (f j).origins := by
  by_cases hj : j = i
  · subst hj
    rw [updF_self, h]
  · rw [updF_ne _ _ _ _ hj]

theorem updF_maxChain (f : Nat → ChainNode) (i : Nat) (v : ChainNode)
    (h : v.maxChain = (f i).maxChain) (j : Nat) : (updF f i v j).maxChain = (f j).maxChain := by
  by_cases hj : j = i
  · subst hj
    rw [updF_self, h]
  · rw [updF_ne _ _ _ _ hj]

theorem updF_hashMap (f : Nat → ChainNode) (i : Nat) (v : ChainNode)
    (h : v.hashMap = (f i).hashMap) (j : Nat) : (updF f i v j).hashMap = (f j).hashMap := by
  by_cases hj : j = i
  · subst hj
    rw [updF_self, h]
  · rw [updF_ne _ _ _ _ hj]

theorem updF_pending (f : Nat → ChainNode) (i : Nat) (v : ChainNode)
    (h : v.pending = (f i).pending) (j : Nat) : (updF f i v j).pending = (f j).pending := by
  by_cases hj : j = i
  · subst hj
    rw [updF_self, h]
  · rw [updF_ne _ _ _ _ hj]

theorem receiveBlock_outbox (g : String) (nd : ChainNode) (b : Block) (o : Nat) :
    (receiveBlock g nd b o).outbox = nd.outbox := by
  unfold receiveBlock
  split
  · split <;> rfl
  · split <;> rfl

theorem receiveBlock_pending (g : String) (nd : ChainNode) (b : Block) (o : Nat) :
    (receiveBlock g nd b o).pending = nd.pending := by
  unfold receiveBlock
  split
  · split <;> rfl
  · split <;> rfl

theorem receiveBlock_origins (g : String) (nd : ChainNode) (b : Block) (o : Nat) :
    (receiveBlock g nd b o).origins = upd nd.origins b.Hash o := by
  unfold receiveBlock
  split
  · split <;> rfl
  · split <;> rfl

theorem receiveBlock_hashMap_cases (g : String) (nd : ChainNode) (b : Block) (o : Nat) :
    ((receiveBlock g nd b o).hashMap = upd nd.hashMap b.Hash b ∧
      hasKey nd.hashMap b.PrevHash = true) ∨
    ((receiveBlock g nd b o).hashMap = upd nd.hashMap b.Hash { b with PrevHash := g } ∧
      hasKey nd.hashMap b.PrevHash = false) := by
  by_cases h1 : hasKey nd.hashMap b.PrevHash = true
  · left
    refine ⟨?_, h1⟩
    by_cases h2 : lookupD nd.counts b.PrevHash 0 + 1 > nd.maxLength
    · rw [receiveBlock_eq1 g nd b o h1 h2]
    · rw [receiveBlock_eq2 g nd b o h1 h2]
  · have h1' : hasKey nd.hashMap b.PrevHash = false := by
      cases hx : hasKey nd.hashMap b.PrevHash
      · rfl
      · exact absurd hx h1
    right
    refine ⟨?_, h1'⟩
    by_cases h2 : nd.maxChain = ""
    · rw [receiveBlock_eq3 g nd b o h1' h2]
    · rw [receiveBlock_eq4 g nd b o h1' h2]

theorem receiveBlock_maxChain_cases (g : String) (nd : ChainNode) (b : Block) (o : Nat) :
    (receiveBlock g nd b o).maxChain = b.Hash ∨
    (receiveBlock g nd b o).maxChain = nd.maxChain := by
  unfold receiveBlock
  split
  · split
    · exact Or.inl rfl
    · exact Or.inr rfl
  · split
    · exact Or.inl rfl
    · exact Or.inr rfl

theorem chainInv_step {created : List Transaction} {s s' : ChainState}
    (hstep : ChainStep s s') (hinv : ChainInv created s) : ChainInv created s' := by
  cases hstep with
  | driverClose i rest hs =>
    refine ⟨hinv.genTxs, hinv.outboxVis, hinv.queueVis, hinv.originsVis, hinv.tipOK,
      hinv.prevOK, ?_, hinv.pendingTxs, hinv.mapTxs, hinv.queueTxs, hinv.outboxTxs,
      hinv.winnerTxs⟩
    all_goals dsimp only
    intro c hc i' tx he
    exact hinv.scriptTxs c (by rw [hs]; exact List.mem_cons_of_mem _ hc) i' tx he
  | recvTx i tx rest hs hex hob =>
    refine ⟨hinv.genTxs, ?_, hinv.queueVis, ?_, ?_, ?_, ?_, ?_, ?_, hinv.queueTxs, ?_,
      hinv.winnerTxs⟩
    all_goals dsimp only
    · intro i' jb hjb
      rw [updF_outbox s.node i { s.node i with pending := (s.node i).pending ++ [tx] } rfl i'] at hjb
      exact hinv.outboxVis i' jb hjb
    · intro j ho hho
      rw [updF_origins s.node i { s.node i with pending := (s.node i).pending ++ [tx] } rfl j] at hho
      exact hinv.originsVis j ho hho
    · intro j
      rw [updF_maxChain s.node i { s.node i with pending := (s.node i).pending ++ [tx] } rfl j, updF_hashMap s.node i { s.node i with pending := (s.node i).pending ++ [tx] } rfl j]
      exact hinv.tipOK j
    · intro j hb hhb
      rw [updF_hashMap s.node i { s.node i with pending := (s.node i).pending ++ [tx] } rfl j] at hhb ⊢
      exact hinv.prevOK j hb hhb
    · intro c hc i' tx' he
      exact hinv.scriptTxs c (by rw [hs]; exact List.mem_cons_of_mem _ hc) i' tx' he
    · intro j tx' htx
      by_cases hj : j = i
      · subst hj
        rw [updF_self] at htx
        rcases List.mem_append.mp htx with htx | htx
        · exact hinv.pendingTxs j tx' htx
        · rcases List.mem_cons.mp htx with rfl | h0
          · exact hinv.scriptTxs _ (by rw [hs]; exact List.mem_cons_self _ _) j tx' rfl
          · cases h0
      · rw [updF_ne _ _ _ _ hj] at htx
        exact hinv.pendingTxs j tx' htx
    · intro j hb hhb
      rw [updF_hashMap s.node i { s.node i with pending := (s.node i).pending ++ [tx] } rfl j] at hhb
      exact hinv.mapTxs j hb hhb
    · intro i' jb hjb
      rw [updF_outbox s.node i { s.node i with pending := (s.node i).pending ++ [tx] } rfl i'] at hjb
      exact hinv.outboxTxs i' jb hjb
  | observeClose i hc hex hob =>
    refine ⟨hinv.genTxs, ?_, hinv.queueVis, ?_, ?_, ?_, hinv.scriptTxs, ?_, ?_,
      hinv.queueTxs, ?_, hinv.winnerTxs⟩
    all_goals dsimp only
    · intro i' jb hjb
      rw [updF_outbox s.node i { s.node i with exited := true } rfl i'] at hjb
      exact hinv.outboxVis i' jb hjb
    · intro j ho hho
      rw [updF_origins s.node i { s.node i with exited := true } rfl j] at hho
      exact hinv.originsVis j ho hho
    · intro j
      rw [updF_maxChain s.node i { s.node i with exited := true } rfl j, updF_hashMap s.node i { s.node i with exited := true } rfl j]
      exact hinv.tipOK j
    · intro j hb hhb
      rw [updF_hashMap s.node i { s.node i with exited := true } rfl j] at hhb ⊢
      exact hinv.prevOK j hb hhb
    · intro j tx' htx
      rw [updF_pending s.node i { s.node i with exited := true } rfl j] at htx
      exact hinv.pendingTxs j tx' htx
    · intro j hb hhb
      rw [updF_hashMap s.node i { s.node i with exited := true } rfl j] at hhb
      exact hinv.mapTxs j hb hhb
    · intro i' jb hjb
      rw [updF_outbox s.node i { s.node i with exited := true } rfl i'] at hjb
      exact hinv.outboxTxs i' jb hjb
  | recvBlock i o b q hq hex hob =>
    have hqmem : (o, b) ∈ s.queue i := by
      rw [hq]
      exact List.mem_cons_self _ _
    refine ⟨hinv.genTxs, ?_, ?_, ?_, ?_, ?_, hinv.scriptTxs, ?_, ?_, ?_, ?_,
      hinv.winnerTxs⟩
    all_goals dsimp only
    · intro i' jb hjb
      rw [updF_outbox s.node i _ (receiveBlock_outbox s.gen.Hash (s.node i) b o) i'] at hjb
      exact hinv.outboxVis i' jb hjb
    · intro j ob hob'
      by_cases hj : j = i
      · subst hj
        rw [updF_self] at hob'
        exact hinv.queueVis j ob (by rw [hq]; exact List.mem_cons_of_mem _ hob')
      · rw [updF_ne _ _ _ _ hj] at hob'
        exact hinv.queueVis j ob hob'
    · intro j ho hho hhon
      by_cases hj : j = i
      · subst hj
        rw [updF_self, receiveBlock_origins] at hho
        rcases mem_upd_elim hho with rfl | hold
        · rcases getLabel_cases o s.C with hoc | hoh
          · exact absurd ⟨hoc, hhon⟩ (hinv.queueVis j (o, b) hqmem)
          · exact hoh
        · exact hinv.originsVis j ho hold hhon
      · rw [updF_ne _ _ _ _ hj] at hho
        exact hinv.originsVis j ho hho hhon
    · intro j
      by_cases hj : j = i
      · subst hj
        rw [updF_self]
        rcases receiveBlock_maxChain_cases s.gen.Hash (s.node j) b o with hmc | hmc
        · rw [hmc]
          rcases receiveBlock_hashMap_cases s.gen.Hash (s.node j) b o with ⟨hm, _⟩ | ⟨hm, _⟩
          · rw [hm]
            exact Or.inl (self_mem_keys_upd _ _ _)
          · rw [hm]
            exact Or.inl (self_mem_keys_upd _ _ _)
        · rw [hmc]
          rcases hinv.tipOK j with ht | ht
          · rcases receiveBlock_hashMap_cases s.gen.Hash (s.node j) b o with ⟨hm, _⟩ | ⟨hm, _⟩
            · rw [hm]
              exact Or.inl (keysOf_upd_superset _ _ _ _ ht)
            · rw [hm]
              exact Or.inl (keysOf_upd_superset _ _ _ _ ht)
          · exact Or.inr ht
      · rw [updF_ne _ _ _ _ hj]
        exact hinv.tipOK j
    · intro j hb hhb
      by_cases hj : j = i
      · subst hj
        rw [updF_self] at hhb ⊢
        rcases receiveBlock_hashMap_cases s.gen.Hash (s.node j) b o with ⟨hm, hk⟩ | ⟨hm, hk⟩
        · rw [hm] at hhb ⊢
          rcases mem_upd_elim hhb with rfl | hold
          · exact Or.inl (keysOf_upd_superset _ _ _ _ (hasKey_mem_keys hk))
          · rcases hinv.prevOK j hb hold with hp | hp | hp
            · exact Or.inl (keysOf_upd_superset _ _ _ _ hp)
            · exact Or.inr (Or.inl hp)
            · exact Or.inr (Or.inr hp)
        · rw [hm] at hhb ⊢
          rcases mem_upd_elim hhb with rfl | hold
          · exact Or.inr (Or.inl rfl)
          · rcases hinv.prevOK j hb hold with hp | hp | hp
            · exact Or.inl (keysOf_upd_superset _ _ _ _ hp)
            · exact Or.inr (Or.inl hp)
            · exact Or.inr (Or.inr hp)
      · rw [updF_ne _ _ _ _ hj] at hhb ⊢
        exact hinv.prevOK j hb hhb
    · intro j tx' htx
      rw [updF_pending s.node i _ (receiveBlock_pending s.gen.Hash (s.node i) b o) j] at htx
      exact hinv.pendingTxs j tx' htx
    · intro j hb hhb
      by_cases hj : j = i
      · subst hj
        rw [updF_self] at hhb
        rcases receiveBlock_hashMap_cases s.gen.Hash (s.node j) b o with ⟨hm, _⟩ | ⟨hm, _⟩
        · rw [hm] at hhb
          rcases mem_upd_elim hhb with rfl | hold
          · exact hinv.queueTxs j (o, b) hqmem
          · exact hinv.mapTxs j hb hold
        · rw [hm] at hhb
          rcases mem_upd_elim hhb with rfl | hold
          · exact hinv.queueTxs j (o, b) hqmem
          · exact hinv.mapTxs j hb hold
      · rw [updF_ne _ _ _ _ hj] at hhb
        exact hinv.mapTxs j hb hhb
    · intro j ob hob'
      by_cases hj : j = i
      · subst hj
        rw [updF_self] at hob'
        exact hinv.queueTxs j ob (by rw [hq]; exact List.mem_cons_of_mem _ hob')
      · rw [updF_ne _ _ _ _ hj] at hob'
        exact hinv.queueTxs j ob hob'
    · intro i' jb hjb
      rw [updF_outbox s.node i _ (receiveBlock_outbox s.gen.Hash (s.node i) b o) i'] at hjb
      exact hinv.outboxTxs i' jb hjb
  | mine i fuel nb hex hob hpend hmine =>
    have hfr := mineBlock_frame fuel _ s.D nb hmine
    refine ⟨hinv.genTxs, ?_, hinv.queueVis, ?_, ?_, ?_, hinv.scriptTxs, ?_, ?_,
      hinv.queueTxs, ?_, hinv.winnerTxs⟩
    all_goals dsimp only
    · intro i' jb hjb
      by_cases hj : i' = i
      · subst hj
        rw [updF_self] at hjb
        rcases List.mem_map.mp hjb with ⟨j', hj', rfl⟩
        rw [mem_targets] at hj'
        exact ⟨hj'.2.1, hj'.2.2⟩
      · rw [updF_ne _ _ _ _ hj] at hjb
        exact hinv.outboxVis i' jb hjb
    · intro j ho hho hhon
      by_cases hj : j = i
      · subst hj
        rw [updF_self] at hho
        rcases mem_upd_elim hho with rfl | hold
        · exact hhon
        · exact hinv.originsVis j ho hold hhon
      · rw [updF_ne _ _ _ _ hj] at hho
        exact hinv.originsVis j ho hho hhon
    · intro j
      by_cases hj : j = i
      · subst hj
        rw [updF_self]
        exact Or.inl (self_mem_keys_upd _ _ _)
      · rw [updF_ne _ _ _ _ hj]
        exact hinv.tipOK j
    · intro j hb hhb
      by_cases hj : j = i
      · subst hj
        rw [updF_self] at hhb ⊢
        rcases mem_upd_elim hhb with rfl | hold
        · rw [hfr.2]
          rcases hinv.tipOK j with ht | ht
          · exact Or.inl (keysOf_upd_superset _ _ _ _ ht)
          · exact Or.inr (Or.inr ht)
        · rcases hinv.prevOK j hb hold with hp | hp | hp
          · exact Or.inl (keysOf_upd_superset _ _ _ _ hp)
          · exact Or.inr (Or.inl hp)
          · exact Or.inr (Or.inr hp)
      · rw [updF_ne _ _ _ _ hj] at hhb ⊢
        exact hinv.prevOK j hb hhb
    · intro j tx' htx
      by_cases hj : j = i
      · subst hj
        rw [updF_self] at htx
        exact absurd htx (List.not_mem_nil tx')
      · rw [updF_ne _ _ _ _ hj] at htx
        exact hinv.pendingTxs j tx' htx
    · intro j hb hhb
      by_cases hj : j = i
      · subst hj
        rw [updF_self] at hhb
        rcases mem_upd_elim hhb with rfl | hold
        · intro tx' htx
          rw [hfr.1] at htx
          exact hinv.pendingTxs j tx' htx
        · exact hinv.mapTxs j hb hold
      · rw [updF_ne _ _ _ _ hj] at hhb
        exact hinv.mapTxs j hb hhb
    · intro i' jb hjb
      by_cases hj : i' = i
      · subst hj
        rw [updF_self] at hjb
        rcases List.mem_map.mp hjb with ⟨j', hj', rfl⟩
        intro tx' htx
        rw [hfr.1] at htx
        exact hinv.pendingTxs i' tx' htx
      · rw [updF_ne _ _ _ _ hj] at hjb
        exact hinv.outboxTxs i' jb hjb
  | sendOk i j b rest hob hlen =>
    refine ⟨hinv.genTxs, ?_, ?_, ?_, ?_, ?_, hinv.scriptTxs, ?_, ?_, ?_, ?_,
      hinv.winnerTxs⟩
    all_goals dsimp only
    · intro i' jb hjb
      by_cases hj : i' = i
      · subst hj
        rw [updF_self] at hjb
        exact hinv.outboxVis i' jb (by rw [hob]; exact List.mem_cons_of_mem _ hjb)
      · rw [updF_ne _ _ _ _ hj] at hjb
        exact hinv.outboxVis i' jb hjb
    · intro j' ob hob'
      by_cases hj : j' = j
      · subst hj
        rw [updF_self] at hob'
        rcases List.mem_append.mp hob' with h | h
        · exact hinv.queueVis j' ob h
        · rcases List.mem_cons.mp h with rfl | h0
          · exact (hinv.outboxVis i (j', b) (by rw [hob]; exact List.mem_cons_self _ _)).2
          · cases h0
      · rw [updF_ne _ _ _ _ hj] at hob'
        exact hinv.queueVis j' ob hob'
    · intro j' ho hho
      rw [updF_origins s.node i { s.node i with outbox := rest } rfl j'] at hho
      exact hinv.originsVis j' ho hho
    · intro j'
      rw [updF_maxChain s.node i { s.node i with outbox := rest } rfl j', updF_hashMap s.node i { s.node i with outbox := rest } rfl j']
      exact hinv.tipOK j'
    · intro j' hb hhb
      rw [updF_hashMap s.node i { s.node i with outbox := rest } rfl j'] at hhb ⊢
      exact hinv.prevOK j' hb hhb
    · intro j' tx' htx
      rw [updF_pending s.node i { s.node i with outbox := rest } rfl j'] at htx
      exact hinv.pendingTxs j' tx' htx
    · intro j' hb hhb
      rw [updF_hashMap s.node i { s.node i with outbox := rest } rfl j'] at hhb
      exact hinv.mapTxs j' hb hhb
    · intro j' ob hob'
      by_cases hj : j' = j
      · subst hj
        rw [updF_self] at hob'
        rcases List.mem_append.mp hob' with h | h
        · exact hinv.queueTxs j' ob h
        · rcases List.mem_cons.mp h with rfl | h0
          · exact hinv.outboxTxs i (j', b) (by rw [hob]; exact List.mem_cons_self _ _)
          · cases h0
      · rw [updF_ne _ _ _ _ hj] at hob'
        exact hinv.queueTxs j' ob hob'
    · intro i' jb hjb
      by_cases hj : i' = i
      · subst hj
        rw [updF_self] at hjb
        exact hinv.outboxTxs i' jb (by rw [hob]; exact List.mem_cons_of_mem _ hjb)
      · rw [updF_ne _ _ _ _ hj] at hjb
        exact hinv.outboxTxs i' jb hjb
  | sendDrop i j b rest hob hlen =>
    refine ⟨hinv.genTxs, ?_, hinv.queueVis, ?_, ?_, ?_, hinv.scriptTxs, ?_, ?_,
      hinv.queueTxs, ?_, hinv.winnerTxs⟩
    all_goals dsimp only
    · intro i' jb hjb
      by_cases hj : i' = i
      · subst hj
        rw [updF_self] at hjb
        exact hinv.outboxVis i' jb (by rw [hob]; exact List.mem_cons_of_mem _ hjb)
      · rw [updF_ne _ _ _ _ hj] at hjb
        exact hinv.outboxVis i' jb hjb
    · intro j' ho hho
      rw [updF_origins s.node i { s.node i with outbox := rest } rfl j'] at hho
      exact hinv.originsVis j' ho hho
    · intro j'
      rw [updF_maxChain s.node i { s.node i with outbox := rest } rfl j', updF_hashMap s.node i { s.node i with outbox := rest } rfl j']
      exact hinv.tipOK j'
    · intro j' hb hhb
      rw [updF_hashMap s.node i { s.node i with outbox := rest } rfl j'] at hhb ⊢
      exact hinv.prevOK j' hb hhb
    · intro j' tx' htx
      rw [updF_pending s.node i { s.node i with outbox := rest } rfl j'] at htx
      exact hinv.pendingTxs j' tx' htx
    · intro j' hb hhb
      rw [updF_hashMap s.node i { s.node i with outbox := rest } rfl j'] at hhb
      exact hinv.mapTxs j' hb hhb
    · intro i' jb hjb
      by_cases hj : i' = i
      · subst hj
        rw [updF_self] at hjb
        exact hinv.outboxTxs i' jb (by rw [hob]; exact List.mem_cons_of_mem _ hjb)
      · rw [updF_ne _ _ _ _ hj] at hjb
        exact hinv.outboxTxs i' jb hjb
  | finalize i fuel hex hmg =>
    refine ⟨hinv.genTxs, ?_, hinv.queueVis, ?_, ?_, ?_, hinv.scriptTxs, ?_, ?_,
      hinv.queueTxs, ?_, ?_⟩
    all_goals dsimp only
    · intro i' jb hjb
      rw [updF_outbox s.node i { s.node i with merged := true } rfl i'] at hjb
      exact hinv.outboxVis i' jb hjb
    · intro j ho hho
      rw [updF_origins s.node i { s.node i with merged := true } rfl j] at hho
      exact hinv.originsVis j ho hho
    · intro j
      rw [updF_maxChain s.node i { s.node i with merged := true } rfl j, updF_hashMap s.node i { s.node i with merged := true } rfl j]
      exact hinv.tipOK j
    · intro j hb hhb
      rw [updF_hashMap s.node i { s.node i with merged := true } rfl j] at hhb ⊢
      exact hinv.prevOK j hb hhb
    · intro j tx' htx
      rw [updF_pending s.node i { s.node i with merged := true } rfl j] at htx
      exact hinv.pendingTxs j tx' htx
    · intro j hb hhb
      rw [updF_hashMap s.node i { s.node i with merged := true } rfl j] at hhb
      exact hinv.mapTxs j hb hhb
    · intro i' jb hjb
      rw [updF_outbox s.node i { s.node i with merged := true } rfl i'] at hjb
      exact hinv.outboxTxs i' jb hjb
    · intro b hb
      split at hb
      · rcases List.mem_cons.mp hb with rfl | hb'
        · intro tx htx
          rw [hinv.genTxs] at htx
          exact absurd htx (List.not_mem_nil tx)
        · rcases chainWalk_mem _ _ _ _ (List.mem_reverse.mp hb') with ⟨k, hk⟩
          intro tx htx
          exact hinv.mapTxs i (k, b) hk tx htx
      · exact hinv.winnerTxs b hb

theorem chainInv_reach {created : List Transaction} {s s' : ChainState}
    (hreach : ChainReach s s') (hinv : ChainInv created s) : ChainInv created s' := by
  induction hreach with
  | refl => exact hinv
  | tail _ hstep ih => exact chainInv_step hstep ih

/-- Per-node local state of the tangle-variant worker goroutine (the
`SimulateDAG` goroutine body).  `origins` is ghost instrumentation (which
node produced each stored artifact) and `outbox` holds the remaining
targets of the broadcast loop the goroutine is inside. -/
structure TangleNode where
  hashMap : TxMap
  nodesList : List Transaction
  pending : List Transaction
  exited : Bool
  merged : Bool
  outbox : List (Nat × Transaction)
  origins : List (String × Nat)
deriving DecidableEq, Repr

/-- Initial tangle node state: the two genesis artifacts under their
overwritten hashes, in both the map and the `Nodes` slice. -/
def TangleNode.start : TangleNode :=
  { hashMap := tangleInitMap, nodesList := [tangleG1, tangleG2], pending := [],
    exited := false, merged := false, outbox := [], origins := [] }

/-- The tangle receive case of `SimulateDAG`: a received transaction is
integrated only when both of its declared parents are already known
locally, and is silently discarded otherwise.  `o` is the ghost origin. -/
def integrateTx (nd : TangleNode) (t : Transaction) (o : Nat) : TangleNode :=
  if hasKey nd.hashMap (t.Parents.getD 0 "") && hasKey nd.hashMap (t.Parents.getD 1 "") then
    { nd with hashMap := upd nd.hashMap t.Hash t,
              nodesList := nd.nodesList ++ [t],
              origins := upd nd.origins t.Hash o }
  else nd

/-- Local updates of the tangle mining branch: store the mined transaction
in the map and the `Nodes` slice, drop the mined-off pending entry, and
enter the broadcast loop. -/
def mineTxUpdate (nd : TangleNode) (nt : Transaction) (ts : List Transaction)
    (N C i : Nat) : TangleNode :=
  { nd with hashMap := upd nd.hashMap nt.Hash nt,
            nodesList := nd.nodesList ++ [nt],
            pending := ts,
            origins := upd nd.origins nt.Hash i,
            outbox := (targets N C i).map (fun j => (j, nt)) }

/-- Global state of the tangle simulation: per-node goroutine states,
inbox-closed flags, the remaining driver script, and the global tracker
and canonical-copy map protected by `mu`. -/
structure TangleState where
  N : Nat
  C : Nat
  D : Nat
  node : Nat → TangleNode
  closed : Nat → Bool
  script : List Cmd
  tracker : List (Nat × Nat)
  txmap : List (Nat × Transaction)

/-- Initial tangle-simulation state. -/
def tangleInit (N C R D : Nat) (coins : Nat → Bool) : TangleState :=
  { N := N, C := C, D := D, node := fun _ => TangleNode.start,
    closed := fun _ => false, script := scriptOf N C R coins,
    tracker := [], txmap := [] }

/-- One interleaving step of the tangle simulation.  Driver actions follow
the script; node actions model one iteration of the select loop; `deliver`
is a rendezvous on the unbuffered receiver channel (`dropTx` is the
`default` branch when the target is not ready); `aggregate` is the
post-loop confidence computation and the tracker merge under the mutex. -/
inductive TangleStep : TangleState → TangleState → Prop where
  | driverClose (s : TangleState) (i : Nat) (rest : List Cmd) :
      s.script = Cmd.closeInbox i :: rest →
      TangleStep s { s with closed := updF s.closed i true, script := rest }
  | recvTx (s : TangleState) (i : Nat) (tx : Transaction) (rest : List Cmd) :
      s.script = Cmd.send i tx :: rest →
      (s.node i).exited = false → (s.node i).outbox = [] →
      TangleStep s { s with
        script := rest
        node := updF s.node i { s.node i with pending := (s.node i).pending ++ [tx] } }
  | observeClose (s : TangleState) (i : Nat) :
      s.closed i = true → (s.node i).exited = false → (s.node i).outbox = [] →
      TangleStep s { s with node := updF s.node i { s.node i with exited := true } }
  | mineTx (s : TangleState) (i a b fuel : Nat) (nt : Transaction)
      (ts : List Transaction) (t0 : Transaction) :
      (s.node i).exited = false → (s.node i).outbox = [] →
      (s.node i).pending = ts ++ [t0] →
      a < (s.node i).nodesList.length → b < (s.node i).nodesList.length → a ≠ b →
      mineTransaction { t0 with
          Parents := [((s.node i).nodesList.getD a Transaction.zero).Hash,
                      ((s.node i).nodesList.getD b Transaction.zero).Hash] } s.D fuel
        = some nt →
      TangleStep s { s with node := updF s.node i (mineTxUpdate (s.node i) nt ts s.N s.C i) }
  | deliver (s : TangleState) (i j : Nat) (t : Transaction)
      (rest : List (Nat × Transaction)) :
      (s.node i).outbox = (j, t) :: rest → j ≠ i → (s.node j).exited = false →
      TangleStep s { s with
        node := updF (updF s.node i { s.node i with outbox := rest }) j
          (integrateTx (s.node j) t i) }
  | dropTx (s : TangleState) (i j : Nat) (t : Transaction)
      (rest : List (Nat × Transaction)) :
      (s.node i).outbox = (j, t) :: rest →
      TangleStep s { s with node := updF s.node i { s.node i with outbox := rest } }
  | aggregate (s : TangleState) (i : Nat) :
      (s.node i).exited = true → (s.node i).merged = false →
      TangleStep s { s with
        node := updF s.node i { s.node i with merged := true }
        tracker := (aggregateNode s.tracker s.txmap (confidenceOf (s.node i).hashMap)
          (s.node i).hashMap).1
        txmap := (aggregateNode s.tracker s.txmap (confidenceOf (s.node i).hashMap)
          (s.node i).hashMap).2 }

/-- Reachability in the tangle simulation. -/
def TangleReach (s s' : TangleState) : Prop := Relation.ReflTransGen TangleStep s s'

/-- The two explicit outcomes of `integrateTx`. -/
theorem integrateTx_eq1 (nd : TangleNode) (t : Transaction) (o : Nat)
    (h : (hasKey nd.hashMap (t.Parents.getD 0 "") &&
      hasKey nd.hashMap (t.Parents.getD 1 "")) = true) :
    integrateTx nd t o =
      { nd with hashMap := upd nd.hashMap t.Hash t,
                nodesList := nd.nodesList ++ [t],
                origins := upd nd.origins t.Hash o } := by
  unfold integrateTx
  rw [if_pos h]

theorem integrateTx_eq2 (nd : TangleNode) (t : Transaction) (o : Nat)
    (h : ¬ (hasKey nd.hashMap (t.Parents.getD 0 "") &&
      hasKey nd.hashMap (t.Parents.getD 1 "")) = true) :
    integrateTx nd t o = nd := by
  unfold integrateTx
  rw [if_neg h]

theorem updFT_outbox (f : Nat → TangleNode) (i : Nat) (v : TangleNode)
    (h : v.outbox = (f i).outbox) (j : Nat) : (updF f i v j).outbox = (f j).outbox := by
  by_cases hj : j = i
  · subst hj
    rw [updF_self, h]
  · rw [updF_ne _ _ _ _ hj]

theorem updFT_origins (f : Nat → TangleNode) (i : Nat) (v : TangleNode)
    (h : v.origins = (f i).origins) (j : Nat) : (updF f i v j).origins = (f j).origins := by
  by_cases hj : j = i
  · subst hj
    rw [updF_self, h]
  · rw [updF_ne _ _ _ _ hj]

theorem updFT_hashMap (f : Nat → TangleNode) (i : Nat) (v : TangleNode)
    (h : v.hashMap = (f i).hashMap) (j : Nat) : (updF f i v j).hashMap = (f j).hashMap := by
  by_cases hj : j = i
  · subst hj
    rw [updF_self, h]
  · rw [updF_ne _ _ _ _ hj]

theorem updFT_pending (f : Nat → TangleNode) (i : Nat) (v : TangleNode)
    (h : v.pending = (f i).pending) (j : Nat) : (updF f i v j).pending = (f j).pending := by
  by_cases hj : j = i
  · subst hj
    rw [updF_self, h]
  · rw [updF_ne _ _ _ _ hj]

theorem updFT_nodesList (f : Nat → TangleNode) (i : Nat) (v : TangleNode)
    (h : v.nodesList = (f i).nodesList) (j : Nat) :
    (updF f i v j).nodesList = (f j).nodesList := by
  by_cases hj : j = i
  · subst hj
    rw [updF_self, h]
  · rw [updF_ne _ _ _ _ hj]

theorem mem_keys_upd_elim {α β : Type} [BEq α] [LawfulBEq α] {m : List (α × β)} {k : α}
    {v : β} {x : α} (h : x ∈ keysOf (upd m k v)) : x = k ∨ x ∈ keysOf m := by
  rcases List.mem_map.mp h with ⟨p, hp, he⟩
  rcases List.mem_cons.mp hp with rfl | hp
  · exact Or.inl he.symm
  · exact Or.inr (List.mem_map.mpr ⟨p, List.mem_of_mem_filter hp, he⟩)

theorem keysOf_upd_nodup {α β : Type} [BEq α] [LawfulBEq α] (m : List (α × β)) (k : α)
    (v : β) (h : (keysOf m).Nodup) : (keysOf (upd m k v)).Nodup := by
  unfold upd
  unfold keysOf
  rw [List.map_cons]
  refine List.nodup_cons.mpr ⟨?_, ?_⟩
  · intro hk
    rcases List.mem_map.mp hk with ⟨p, hp, he⟩
    have := List.of_mem_filter hp
    rw [he] at this
    simp at this
  · exact h.sublist ((List.filter_sublist m).map _)

theorem mem_keys_lookup_some {α β : Type} [BEq α] [LawfulBEq α] :
    ∀ (m : List (α × β)) (k : α), k ∈ keysOf m → ∃ v, m.lookup k = some v := by
  intro m
  induction m with
  | nil => intro k h; cases h
  | cons p rest ih =>
    intro k h
    by_cases he : k = p.1
    · refine ⟨p.2, ?_⟩
      simp only [List.lookup]
      have hb : (k == p.1) = true := by simpa using he
      rw [hb]
    · have h2 : k ∈ keysOf rest := by
        rcases List.mem_cons.mp h with h1 | h1
        · exact absurd h1 he
        · exact h1
      rcases ih k h2 with ⟨v, hv⟩
      refine ⟨v, ?_⟩
      simp only [List.lookup]
      have hb : (k == p.1) = false := by simpa using he
      rw [hb]
      exact hv

theorem parentsOf_sub_keys (m : TxMap)
    (hPC : ∀ kt ∈ m, ∀ p ∈ kt.2.Parents, p ∈ keysOf m)
    (h : String) (hh : h ∈ keysOf m) : ∀ p ∈ parentsOf m h, p ∈ keysOf m := by
  rcases mem_keys_lookup_some m h hh with ⟨v, hv⟩
  intro p hp
  unfold parentsOf lookupD at hp
  rw [hv] at hp
  exact hPC (h, v) (lookup_some_mem_pair m h v hv) p hp

theorem dfsConf_keys_fold (m : TxMap)
    (hPC : ∀ kt ∈ m, ∀ p ∈ kt.2.Parents, p ∈ keysOf m) :
    ∀ (fuel : Nat) (ps : List String) (cv : List (String × Nat) × List String),
      (∀ p ∈ ps, p ∈ keysOf m) →
      ∀ k, k ∈ keysOf (ps.foldl (fun cv' p => dfsConf m fuel cv' p) cv).1 →
        k ∈ keysOf cv.1 ∨ k ∈ keysOf m := by
  intro fuel
  induction fuel with
  | zero =>
    intro ps
    induction ps with
    | nil => intro cv _ k hk; exact Or.inl hk
    | cons p ps ih =>
      intro cv hps k hk
      rw [List.foldl_cons] at hk
      exact ih cv (fun q hq => hps q (List.mem_cons_of_mem _ hq)) k hk
  | succ fu ihf =>
    intro ps
    induction ps with
    | nil => intro cv _ k hk; exact Or.inl hk
    | cons p ps ih =>
      intro cv hps k hk
      rw [List.foldl_cons] at hk
      have hpm : p ∈ keysOf m := hps p (List.mem_cons_self _ _)
      have h1 : ∀ k', k' ∈ keysOf (dfsConf m (fu + 1) cv p).1 →
          k' ∈ keysOf cv.1 ∨ k' ∈ keysOf m := by
        intro k' hk'
        simp only [dfsConf] at hk'
        split at hk'
        · exact Or.inl hk'
        · rcases ihf (parentsOf m p) (upd cv.1 p (lookupD cv.1 p 0 + 1), p :: cv.2)
            (parentsOf_sub_keys m hPC p hpm) k' hk' with h | h
          · rcases mem_keys_upd_elim h with rfl | h
            · exact Or.inr hpm
            · exact Or.inl h
          · exact Or.inr h
      rcases ih (dfsConf m (fu + 1) cv p)
          (fun q hq => hps q (List.mem_cons_of_mem _ hq)) k hk with h | h
      · exact h1 k h
      · exact Or.inr h

theorem tipsOf_sub_keys (m : TxMap) : ∀ t ∈ tipsOf m, t ∈ keysOf m := by
  intro t ht
  exact List.mem_of_mem_filter ht

/-- With parent references closed in the map, every fingerprint holding a
confidence entry is a key of the map. -/
theorem confidenceOf_keys (m : TxMap)
    (hPC : ∀ kt ∈ m, ∀ p ∈ kt.2.Parents, p ∈ keysOf m) :
    ∀ k ∈ keysOf (confidenceOf m), k ∈ keysOf m := by
  unfold confidenceOf
  suffices hgen : ∀ (tips : List String) (conf : List (String × Nat)),
      (∀ t ∈ tips, t ∈ keysOf m) → (∀ k ∈ keysOf conf, k ∈ keysOf m) →
      ∀ k ∈ keysOf (tips.foldl
        (fun conf t => (dfsConf m (m.length + 1) (conf, []) t).1) conf),
        k ∈ keysOf m by
    intro k hk
    exact hgen (tipsOf m) [] (tipsOf_sub_keys m) (fun k' hk' => absurd hk' (by simp [keysOf]))
      k hk
  intro tips
  induction tips with
  | nil => intro conf _ hconf k hk; exact hconf k hk
  | cons t tips ih =>
    intro conf htips hconf k hk
    rw [List.foldl_cons] at hk
    refine ih _ (fun q hq => htips q (List.mem_cons_of_mem _ hq)) ?_ k hk
    intro k' hk'
    have hone := dfsConf_keys_fold m hPC (m.length + 1) [t] (conf, [])
      (fun q hq => by rcases List.mem_cons.mp hq with rfl | h0
                      · exact htips q (List.mem_cons_self _ _)
                      · cases h0) k' hk'
    rcases hone with h | h
    · exact hconf k' h
    · exact h

theorem aggregateNode_tracker_keys (m : TxMap) :
    ∀ (conf : List (String × Nat)) (tr : List (Nat × Nat)) (tm : List (Nat × Transaction))
      (x : Nat), x ∈ keysOf (aggregateNode tr tm conf m).1 →
      x ∈ keysOf tr ∨ ∃ kv ∈ conf, x = (lookupD m kv.1 Transaction.zero).Amount := by
  intro conf
  induction conf with
  | nil => intro tr tm x hx; exact Or.inl hx
  | cons kv conf ih =>
    intro tr tm x hx
    have hstep : aggregateNode tr tm (kv :: conf) m =
        aggregateNode (upd tr (lookupD m kv.1 Transaction.zero).Amount
            (lookupD tr (lookupD m kv.1 Transaction.zero).Amount 0 + 1))
          (if hasKey tr (lookupD m kv.1 Transaction.zero).Amount then tm
            else upd tm (lookupD m kv.1 Transaction.zero).Amount
              (lookupD m kv.1 Transaction.zero)) conf m := rfl
    rw [hstep] at hx
    rcases ih _ _ x hx with hx | hx
    · rcases mem_keys_upd_elim hx with rfl | hx
      · exact Or.inr ⟨kv, List.mem_cons_self _ _, rfl⟩
      · exact Or.inl hx
    · rcases hx with ⟨kv', hkv', he⟩
      exact Or.inr ⟨kv', List.mem_cons_of_mem _ hkv', he⟩

theorem aggregateNode_tracker_nodup (m : TxMap) :
    ∀ (conf : List (String × Nat)) (tr : List (Nat × Nat)) (tm : List (Nat × Transaction)),
      (keysOf tr).Nodup → (keysOf (aggregateNode tr tm conf m).1).Nodup := by
  intro conf
  induction conf with
  | nil => intro tr tm h; exact h
  | cons kv conf ih =>
    intro tr tm h
    have hstep : aggregateNode tr tm (kv :: conf) m =
        aggregateNode (upd tr (lookupD m kv.1 Transaction.zero).Amount
            (lookupD tr (lookupD m kv.1 Transaction.zero).Amount 0 + 1))
          (if hasKey tr (lookupD m kv.1 Transaction.zero).Amount then tm
            else upd tm (lookupD m kv.1 Transaction.zero).Amount
              (lookupD m kv.1 Transaction.zero)) conf m := rfl
    rw [hstep]
    exact ih _ _ (keysOf_upd_nodup _ _ _ h)

theorem integrateTx_outbox (nd : TangleNode) (t : Transaction) (o : Nat) :
    (integrateTx nd t o).outbox = nd.outbox := by
  unfold integrateTx
  split <;> rfl

theorem integrateTx_pending (nd : TangleNode) (t : Transaction) (o : Nat) :
    (integrateTx nd t o).pending = nd.pending := by
  unfold integrateTx
  split <;> rfl

/-- Safety invariant of the tangle simulation, parametrised by the set of
transactions the driver ever creates.  It packages broadcast visibility
(C1), parent-reference closure of every local DAG (C2), and the
amount-provenance of the global tracker (C3). -/
structure TangleInv (created : List Transaction) (s : TangleState) : Prop where
  outboxVis : ∀ i jt, jt ∈ (s.node i).outbox →
    jt.1 ≠ i ∧ ¬(getLabel i s.C = "corrupt" ∧ getLabel jt.1 s.C = "honest")
  originsVis : ∀ j ho, ho ∈ (s.node j).origins →
    getLabel j s.C = "honest" → getLabel ho.2 s.C = "honest"
  outboxPar : ∀ i jt, jt ∈ (s.node i).outbox → ∃ p1 p2, jt.2.Parents = [p1, p2]
  parentClosed : ∀ j kt, kt ∈ (s.node j).hashMap →
    kt.2.Parents = [] ∨ ∃ p1 p2, kt.2.Parents = [p1, p2] ∧
      p1 ∈ keysOf (s.node j).hashMap ∧ p2 ∈ keysOf (s.node j).hashMap
  nodesKeys : ∀ j, ∀ t ∈ (s.node j).nodesList, t.Hash ∈ keysOf (s.node j).hashMap
  scriptTxs : ∀ c ∈ s.script, ∀ i tx, c = Cmd.send i tx → tx ∈ created
  pendingTxs : ∀ j, ∀ tx ∈ (s.node j).pending, tx ∈ created
  mapAmts : ∀ j kt, kt ∈ (s.node j).hashMap →
    kt.2.Amount ∈ created.map (·.Amount) ∨ kt.2.Amount = 1 ∨ kt.2.Amount = 2
  outboxAmts : ∀ i jt, jt ∈ (s.node i).outbox → jt.2.Amount ∈ created.map (·.Amount)
  trackerAmts : ∀ x ∈ keysOf s.tracker, x ∈ created.map (·.Amount) ∨ x = 1 ∨ x = 2
  trackerNodup : (keysOf s.tracker).Nodup

theorem tangleInv_init (N C R D : Nat) (coins : Nat → Bool) :
    TangleInv (createdTxs N C R coins) (tangleInit N C R D coins) := by
  refine ⟨?_, ?_, ?_, ?_, ?_, ?_, ?_, ?_, ?_, ?_, ?_⟩
  · intro i jt h
    cases h
  · intro j ho h
    cases h
  · intro i jt h
    cases h
  · intro j kt hkt
    have hkt' : kt ∈ ([("gen2", tangleG2), ("gen1", tangleG1)] : TxMap) := hkt
    rcases List.mem_cons.mp hkt' with rfl | hkt'
    · exact Or.inl rfl
    · rcases List.mem_cons.mp hkt' with rfl | hkt'
      · exact Or.inl rfl
      · cases hkt'
  · intro j t ht
    have ht' : t ∈ ([tangleG1, tangleG2] : List Transaction) := ht
    rcases List.mem_cons.mp ht' with rfl | ht'
    · exact (show ("gen1" : String) ∈ keysOf tangleInitMap by decide)
    · rcases List.mem_cons.mp ht' with rfl | ht'
      · exact (show ("gen2" : String) ∈ keysOf tangleInitMap by decide)
      · cases ht'
  · intro c hc i tx he
    subst he
    exact script_send_created N C R coins i tx hc
  · intro j tx h
    cases h
  · intro j kt hkt
    have hkt' : kt ∈ ([("gen2", tangleG2), ("gen1", tangleG1)] : TxMap) := hkt
    rcases List.mem_cons.mp hkt' with rfl | hkt'
    · exact Or.inr (Or.inr rfl)
    · rcases List.mem_cons.mp hkt' with rfl | hkt'
      · exact Or.inr (Or.inl rfl)
      · cases hkt'
  · intro i jt h
    cases h
  · intro x hx
    cases hx
  · exact List.nodup_nil

theorem tangleInv_step {created : List Transaction} {s s' : TangleState}
    (hstep : TangleStep s s') (hinv : TangleInv created s) : TangleInv created s' := by
  cases hstep with
  | driverClose i rest hs =>
    refine ⟨hinv.outboxVis, hinv.originsVis, hinv.outboxPar, hinv.parentClosed,
      hinv.nodesKeys, ?_, hinv.pendingTxs, hinv.mapAmts, hinv.outboxAmts,
      hinv.trackerAmts, hinv.trackerNodup⟩
    all_goals dsimp only
    intro c hc i' tx he
    exact hinv.scriptTxs c (by rw [hs]; exact List.mem_cons_of_mem _ hc) i' tx he
  | recvTx i tx rest hs hex hob =>
    refine ⟨?_, ?_, ?_, ?_, ?_, ?_, ?_, ?_, ?_, hinv.trackerAmts, hinv.trackerNodup⟩
    all_goals dsimp only
    · intro i' jt hjt
      rw [updFT_outbox s.node i { s.node i with pending := (s.node i).pending ++ [tx] }
        rfl i'] at hjt
      exact hinv.outboxVis i' jt hjt
    · intro j ho hho
      rw [updFT_origins s.node i { s.node i with pending := (s.node i).pending ++ [tx] }
        rfl j] at hho
      exact hinv.originsVis j ho hho
    · intro i' jt hjt
      rw [updFT_outbox s.node i { s.node i with pending := (s.node i).pending ++ [tx] }
        rfl i'] at hjt
      exact hinv.outboxPar i' jt hjt
    · intro j kt hkt
      rw [updFT_hashMap s.node i { s.node i with pending := (s.node i).pending ++ [tx] }
        rfl j] at hkt ⊢
      exact hinv.parentClosed j kt hkt
    · intro j t ht
      rw [updFT_nodesList s.node i { s.node i with pending := (s.node i).pending ++ [tx] }
        rfl j] at ht
      rw [updFT_hashMap s.node i { s.node i with pending := (s.node i).pending ++ [tx] }
        rfl j]
      exact hinv.nodesKeys j t ht
    · intro c hc i' tx' he
      exact hinv.scriptTxs c (by rw [hs]; exact List.mem_cons_of_mem _ hc) i' tx' he
    · intro j tx' htx
      by_cases hj : j = i
      · subst hj
        rw [updF_self] at htx
        rcases List.mem_append.mp htx with htx | htx
        · exact hinv.pendingTxs j tx' htx
        · rcases List.mem_cons.mp htx with rfl | h0
          · exact hinv.scriptTxs _ (by rw [hs]; exact List.mem_cons_self _ _) j tx' rfl
          · cases h0
      · rw [updF_ne _ _ _ _ hj] at htx
        exact hinv.pendingTxs j tx' htx
    · intro j kt hkt
      rw [updFT_hashMap s.node i { s.node i with pending := (s.node i).pending ++ [tx] }
        rfl j] at hkt
      exact hinv.mapAmts j kt hkt
    · intro i' jt hjt
      rw [updFT_outbox s.node i { s.node i with pending := (s.node i).pending ++ [tx] }
        rfl i'] at hjt
      exact hinv.outboxAmts i' jt hjt
  | observeClose i hc hex hob =>
    refine ⟨?_, ?_, ?_, ?_, ?_, hinv.scriptTxs, ?_, ?_, ?_, hinv.trackerAmts,
      hinv.trackerNodup⟩
    all_goals dsimp only
    · intro i' jt hjt
      rw [updFT_outbox s.node i { s.node i with exited := true } rfl i'] at hjt
      exact hinv.outboxVis i' jt hjt
    · intro j ho hho
      rw [updFT_origins s.node i { s.node i with exited := true } rfl j] at hho
      exact hinv.originsVis j ho hho
    · intro i' jt hjt
      rw [updFT_outbox s.node i { s.node i with exited := true } rfl i'] at hjt
      exact hinv.outboxPar i' jt hjt
    · intro j kt hkt
      rw [updFT_hashMap s.node i { s.node i with exited := true } rfl j] at hkt ⊢
      exact hinv.parentClosed j kt hkt
    · intro j t ht
      rw [updFT_nodesList s.node i { s.node i with exited := true } rfl j] at ht
      rw [updFT_hashMap s.node i { s.node i with exited := true } rfl j]
      exact hinv.nodesKeys j t ht
    · intro j tx' htx
      rw [updFT_pending s.node i { s.node i with exited := true } rfl j] at htx
      exact hinv.pendingTxs j tx' htx
    · intro j kt hkt
      rw [updFT_hashMap s.node i { s.node i with exited := true } rfl j] at hkt
      exact hinv.mapAmts j kt hkt
    · intro i' jt hjt
      rw [updFT_outbox s.node i { s.node i with exited := true } rfl i'] at hjt
      exact hinv.outboxAmts i' jt hjt
  | mineTx i a b fuel nt ts t0 hex hob hpend ha hb hab hmine =>
    have hfr := mineTransaction_frame fuel _ s.D nt hmine
    have hga : (s.node i).nodesList.getD a Transaction.zero ∈ (s.node i).nodesList := by
      rw [List.getD_eq_getElem _ _ ha]
      exact List.getElem_mem ha
    have hgb : (s.node i).nodesList.getD b Transaction.zero ∈ (s.node i).nodesList := by
      rw [List.getD_eq_getElem _ _ hb]
      exact List.getElem_mem hb
    have h1k := hinv.nodesKeys i _ hga
    have h2k := hinv.nodesKeys i _ hgb
    have ht0 : t0 ∈ (s.node i).pending := by
      rw [hpend]
      exact List.mem_append_right _ (List.mem_cons_self _ _)
    have ht0c := hinv.pendingTxs i t0 ht0
    refine ⟨?_, ?_, ?_, ?_, ?_, hinv.scriptTxs, ?_, ?_, ?_, hinv.trackerAmts,
      hinv.trackerNodup⟩
    all_goals dsimp only
    · intro i' jt hjt
      by_cases hj : i' = i
      · subst hj
        rw [updF_self] at hjt
        rcases List.mem_map.mp hjt with ⟨j', hj', rfl⟩
        rw [mem_targets] at hj'
        exact ⟨hj'.2.1, hj'.2.2⟩
      · rw [updF_ne _ _ _ _ hj] at hjt
        exact hinv.outboxVis i' jt hjt
    · intro j ho hho hhon
      by_cases hj : j = i
      · subst hj
        rw [updF_self] at hho
        rcases mem_upd_elim hho with rfl | hold
        · exact hhon
        · exact hinv.originsVis j ho hold hhon
      · rw [updF_ne _ _ _ _ hj] at hho
        exact hinv.originsVis j ho hho hhon
    · intro i' jt hjt
      by_cases hj : i' = i
      · subst hj
        rw [updF_self] at hjt
        rcases List.mem_map.mp hjt with ⟨j', hj', rfl⟩
        exact ⟨_, _, hfr.2.2.2⟩
      · rw [updF_ne _ _ _ _ hj] at hjt
        exact hinv.outboxPar i' jt hjt
    · intro j kt hkt
      by_cases hj : j = i
      · subst hj
        rw [updF_self] at hkt ⊢
        rcases mem_upd_elim hkt with rfl | hold
        · refine Or.inr ⟨_, _, hfr.2.2.2, ?_, ?_⟩
          · exact keysOf_upd_superset _ _ _ _ h1k
          · exact keysOf_upd_superset _ _ _ _ h2k
        · rcases hinv.parentClosed j kt hold with hnil | ⟨p1, p2, hps, hp1, hp2⟩
          · exact Or.inl hnil
          · exact Or.inr ⟨p1, p2, hps, keysOf_upd_superset _ _ _ _ hp1,
              keysOf_upd_superset _ _ _ _ hp2⟩
      · rw [updF_ne _ _ _ _ hj] at hkt ⊢
        exact hinv.parentClosed j kt hkt
    · intro j t ht
      by_cases hj : j = i
      · subst hj
        rw [updF_self] at ht ⊢
        rcases List.mem_append.mp ht with ht | ht
        · exact keysOf_upd_superset _ _ _ _ (hinv.nodesKeys j t ht)
        · rcases List.mem_cons.mp ht with rfl | h0
          · exact self_mem_keys_upd _ _ _
          · cases h0
      · rw [updF_ne _ _ _ _ hj] at ht ⊢
        exact hinv.nodesKeys j t ht
    · intro j tx' htx
      by_cases hj : j = i
      · subst hj
        rw [updF_self] at htx
        exact hinv.pendingTxs j tx' (by rw [hpend]; exact List.mem_append_left _ htx)
      · rw [updF_ne _ _ _ _ hj] at htx
        exact hinv.pendingTxs j tx' htx
    · intro j kt hkt
      by_cases hj : j = i
      · subst hj
        rw [updF_self] at hkt
        rcases mem_upd_elim hkt with rfl | hold
        · rw [show nt.Amount = t0.Amount from hfr.2.2.1]
          exact Or.inl (List.mem_map.mpr ⟨t0, ht0c, rfl⟩)
        · exact hinv.mapAmts j kt hold
      · rw [updF_ne _ _ _ _ hj] at hkt
        exact hinv.mapAmts j kt hkt
    · intro i' jt hjt
      by_cases hj : i' = i
      · subst hj
        rw [updF_self] at hjt
        rcases List.mem_map.mp hjt with ⟨j', hj', rfl⟩
        rw [show nt.Amount = t0.Amount from hfr.2.2.1]
        exact List.mem_map.mpr ⟨t0, ht0c, rfl⟩
      · rw [updF_ne _ _ _ _ hj] at hjt
        exact hinv.outboxAmts i' jt hjt
  | deliver i j t rest hob hne hexj =>
    have hhead : (j, t) ∈ (s.node i).outbox := by
      rw [hob]
      exact List.mem_cons_self _ _
    refine ⟨?_, ?_, ?_, ?_, ?_, hinv.scriptTxs, ?_, ?_, ?_, hinv.trackerAmts,
      hinv.trackerNodup⟩
    all_goals dsimp only
    · intro k jt hjt
      by_cases hkj : k = j
      · subst hkj
        rw [updF_self, integrateTx_outbox] at hjt
        exact hinv.outboxVis k jt hjt
      · rw [updF_ne _ _ _ _ hkj] at hjt
        by_cases hki : k = i
        · subst hki
          rw [updF_self] at hjt
          exact hinv.outboxVis k jt (by rw [hob]; exact List.mem_cons_of_mem _ hjt)
        · rw [updF_ne _ _ _ _ hki] at hjt
          exact hinv.outboxVis k jt hjt
    · intro k ho hho hhon
      by_cases hkj : k = j
      · subst hkj
        rw [updF_self] at hho
        by_cases hcond : (hasKey (s.node k).hashMap (t.Parents.getD 0 "") &&
            hasKey (s.node k).hashMap (t.Parents.getD 1 "")) = true
        · rw [integrateTx_eq1 _ _ _ hcond] at hho
          rcases mem_upd_elim hho with rfl | hold
          · rcases getLabel_cases i s.C with hic | hih
            · exact absurd ⟨hic, hhon⟩ (hinv.outboxVis i (k, t) hhead).2
            · exact hih
          · exact hinv.originsVis k ho hold hhon
        · rw [integrateTx_eq2 _ _ _ hcond] at hho
          exact hinv.originsVis k ho hho hhon
      · rw [updF_ne _ _ _ _ hkj] at hho
        by_cases hki : k = i
        · subst hki
          rw [updF_self] at hho
          exact hinv.originsVis k ho hho hhon
        · rw [updF_ne _ _ _ _ hki] at hho
          exact hinv.originsVis k ho hho hhon
    · intro k jt hjt
      by_cases hkj : k = j
      · subst hkj
        rw [updF_self, integrateTx_outbox] at hjt
        exact hinv.outboxPar k jt hjt
      · rw [updF_ne _ _ _ _ hkj] at hjt
        by_cases hki : k = i
        · subst hki
          rw [updF_self] at hjt
          exact hinv.outboxPar k jt (by rw [hob]; exact List.mem_cons_of_mem _ hjt)
        · rw [updF_ne _ _ _ _ hki] at hjt
          exact hinv.outboxPar k jt hjt
    · intro k kt hkt
      by_cases hkj : k = j
      · subst hkj
        rw [updF_self] at hkt ⊢
        by_cases hcond : (hasKey (s.node k).hashMap (t.Parents.getD 0 "") &&
            hasKey (s.node k).hashMap (t.Parents.getD 1 "")) = true
        · rw [integrateTx_eq1 _ _ _ hcond] at hkt ⊢
          rcases mem_upd_elim hkt with rfl | hold
          · rcases hinv.outboxPar i (k, t) hhead with ⟨p1, p2, hp⟩
            have hc12 := hcond
            rw [Bool.and_eq_true] at hc12
            rcases hc12 with ⟨hc1, hc2⟩
            rw [hp] at hc1 hc2
            refine Or.inr ⟨p1, p2, hp, ?_, ?_⟩
            · exact keysOf_upd_superset _ _ _ _ (hasKey_mem_keys hc1)
            · exact keysOf_upd_superset _ _ _ _ (hasKey_mem_keys hc2)
          · rcases hinv.parentClosed k kt hold with hnil | ⟨p1, p2, hps, hp1, hp2⟩
            · exact Or.inl hnil
            · exact Or.inr ⟨p1, p2, hps, keysOf_upd_superset _ _ _ _ hp1,
                keysOf_upd_superset _ _ _ _ hp2⟩
        · rw [integrateTx_eq2 _ _ _ hcond] at hkt ⊢
          exact hinv.parentClosed k kt hkt
      · rw [updF_ne _ _ _ _ hkj] at hkt ⊢
        by_cases hki : k = i
        · subst hki
          rw [updF_self] at hkt ⊢
          exact hinv.parentClosed k kt hkt
        · rw [updF_ne _ _ _ _ hki] at hkt ⊢
          exact hinv.parentClosed k kt hkt
    · intro k t' ht'
      by_cases hkj : k = j
      · subst hkj
        rw [updF_self] at ht' ⊢
        by_cases hcond : (hasKey (s.node k).hashMap (t.Parents.getD 0 "") &&
            hasKey (s.node k).hashMap (t.Parents.getD 1 "")) = true
        · rw [integrateTx_eq1 _ _ _ hcond] at ht' ⊢
          rcases List.mem_append.mp ht' with ht' | ht'
          · exact keysOf_upd_superset _ _ _ _ (hinv.nodesKeys k t' ht')
          · rcases List.mem_cons.mp ht' with rfl | h0
            · exact self_mem_keys_upd _ _ _
            · cases h0
        · rw [integrateTx_eq2 _ _ _ hcond] at ht' ⊢
          exact hinv.nodesKeys k t' ht'
      · rw [updF_ne _ _ _ _ hkj] at ht' ⊢
        by_cases hki : k = i
        · subst hki
          rw [updF_self] at ht' ⊢
          exact hinv.nodesKeys k t' ht'
        · rw [updF_ne _ _ _ _ hki] at ht' ⊢
          exact hinv.nodesKeys k t' ht'
    · intro k tx' htx
      by_cases hkj : k = j
      · subst hkj
        rw [updF_self, integrateTx_pending] at htx
        exact hinv.pendingTxs k tx' htx
      · rw [updF_ne _ _ _ _ hkj] at htx
        by_cases hki : k = i
        · subst hki
          rw [updF_self] at htx
          exact hinv.pendingTxs k tx' htx
        · rw [updF_ne _ _ _ _ hki] at htx
          exact hinv.pendingTxs k tx' htx
    · intro k kt hkt
      by_cases hkj : k = j
      · subst hkj
        rw [updF_self] at hkt
        by_cases hcond : (hasKey (s.node k).hashMap (t.Parents.getD 0 "") &&
            hasKey (s.node k).hashMap (t.Parents.getD 1 "")) = true
        · rw [integrateTx_eq1 _ _ _ hcond] at hkt
          rcases mem_upd_elim hkt with rfl | hold
          · exact Or.inl (hinv.outboxAmts i (k, t) hhead)
          · exact hinv.mapAmts k kt hold
        · rw [integrateTx_eq2 _ _ _ hcond] at hkt
          exact hinv.mapAmts k kt hkt
      · rw [updF_ne _ _ _ _ hkj] at hkt
        by_cases hki : k = i
        · subst hki
          rw [updF_self] at hkt
          exact hinv.mapAmts k kt hkt
        · rw [updF_ne _ _ _ _ hki] at hkt
          exact hinv.mapAmts k kt hkt
    · intro k jt hjt
      by_cases hkj : k = j
      · subst hkj
        rw [updF_self, integrateTx_outbox] at hjt
        exact hinv.outboxAmts k jt hjt
      · rw [updF_ne _ _ _ _ hkj] at hjt
        by_cases hki : k = i
        · subst hki
          rw [updF_self] at hjt
          exact hinv.outboxAmts k jt (by rw [hob]; exact List.mem_cons_of_mem _ hjt)
        · rw [updF_ne _ _ _ _ hki] at hjt
          exact hinv.outboxAmts k jt hjt
  | dropTx i j t rest hob =>
    refine ⟨?_, ?_, ?_, ?_, ?_, hinv.scriptTxs, ?_, ?_, ?_, hinv.trackerAmts,
      hinv.trackerNodup⟩
    all_goals dsimp only
    · intro i' jt hjt
      by_cases hj : i' = i
      · subst hj
        rw [updF_self] at hjt
        exact hinv.outboxVis i' jt (by rw [hob]; exact List.mem_cons_of_mem _ hjt)
      · rw [updF_ne _ _ _ _ hj] at hjt
        exact hinv.outboxVis i' jt hjt
    · intro j' ho hho
      rw [updFT_origins s.node i { s.node i with outbox := rest } rfl j'] at hho
      exact hinv.originsVis j' ho hho
    · intro i' jt hjt
      by_cases hj : i' = i
      · subst hj
        rw [updF_self] at hjt
        exact hinv.outboxPar i' jt (by rw [hob]; exact List.mem_cons_of_mem _ hjt)
      · rw [updF_ne _ _ _ _ hj] at hjt
        exact hinv.outboxPar i' jt hjt
    · intro j' kt hkt
      rw [updFT_hashMap s.node i { s.node i with outbox := rest } rfl j'] at hkt ⊢
      exact hinv.parentClosed j' kt hkt
    · intro j' t' ht'
      rw [updFT_nodesList s.node i { s.node i with outbox := rest } rfl j'] at ht'
      rw [updFT_hashMap s.node i { s.node i with outbox := rest } rfl j']
      exact hinv.nodesKeys j' t' ht'
    · intro j' tx' htx
      rw [updFT_pending s.node i { s.node i with outbox := rest } rfl j'] at htx
      exact hinv.pendingTxs j' tx' htx
    · intro j' kt hkt
      rw [updFT_hashMap s.node i { s.node i with outbox := rest } rfl j'] at hkt
      exact hinv.mapAmts j' kt hkt
    · intro i' jt hjt
      by_cases hj : i' = i
      · subst hj
        rw [updF_self] at hjt
        exact hinv.outboxAmts i' jt (by rw [hob]; exact List.mem_cons_of_mem _ hjt)
      · rw [updF_ne _ _ _ _ hj] at hjt
        exact hinv.outboxAmts i' jt hjt
  | aggregate i hex hmg =>
    have hPC : ∀ kt ∈ (s.node i).hashMap, ∀ p ∈ kt.2.Parents,
        p ∈ keysOf (s.node i).hashMap := by
      intro kt hkt p hp
      rcases hinv.parentClosed i kt hkt with hnil | ⟨p1, p2, hps, h1, h2⟩
      · rw [hnil] at hp
        cases hp
      · rw [hps] at hp
        rcases List.mem_cons.mp hp with rfl | hp
        · exact h1
        · rcases List.mem_cons.mp hp with rfl | hp
          · exact h2
          · cases hp
    refine ⟨?_, ?_, ?_, ?_, ?_, hinv.scriptTxs, ?_, ?_, ?_, ?_, ?_⟩
    all_goals dsimp only
    · intro i' jt hjt
      rw [updFT_outbox s.node i { s.node i with merged := true } rfl i'] at hjt
      exact hinv.outboxVis i' jt hjt
    · intro j ho hho
      rw [updFT_origins s.node i { s.node i with merged := true } rfl j] at hho
      exact hinv.originsVis j ho hho
    · intro i' jt hjt
      rw [updFT_outbox s.node i { s.node i with merged := true } rfl i'] at hjt
      exact hinv.outboxPar i' jt hjt
    · intro j kt hkt
      rw [updFT_hashMap s.node i { s.node i with merged := true } rfl j] at hkt ⊢
      exact hinv.parentClosed j kt hkt
    · intro j t ht
      rw [updFT_nodesList s.node i { s.node i with merged := true } rfl j] at ht
      rw [updFT_hashMap s.node i { s.node i with merged := true } rfl j]
      exact hinv.nodesKeys j t ht
    · intro j tx' htx
      rw [updFT_pending s.node i { s.node i with merged := true } rfl j] at htx
      exact hinv.pendingTxs j tx' htx
    · intro j kt hkt
      rw [updFT_hashMap s.node i { s.node i with merged := true } rfl j] at hkt
      exact hinv.mapAmts j kt hkt
    · intro i' jt hjt
      rw [updFT_outbox s.node i { s.node i with merged := true } rfl i'] at hjt
      exact hinv.outboxAmts i' jt hjt
    · intro x hx
      rcases aggregateNode_tracker_keys _ _ _ _ x hx with hx | ⟨kv, hkv, he⟩
      · exact hinv.trackerAmts x hx
      · have hkc : kv.1 ∈ keysOf (confidenceOf (s.node i).hashMap) :=
          List.mem_map.mpr ⟨kv, hkv, rfl⟩
        have hkm := confidenceOf_keys (s.node i).hashMap hPC kv.1 hkc
        rcases mem_keys_lookup_some _ _ hkm with ⟨v, hv⟩
        have hlv : lookupD (s.node i).hashMap kv.1 Transaction.zero = v := by
          unfold lookupD
          rw [hv]
          rfl
        rw [he, hlv]
        exact hinv.mapAmts i (kv.1, v) (lookup_some_mem_pair _ _ _ hv)
    · exact aggregateNode_tracker_nodup _ _ _ _ hinv.trackerNodup

theorem tangleInv_reach {created : List Transaction} {s s' : TangleState}
    (hreach : TangleReach s s') (hinv : TangleInv created s) : TangleInv created s' := by
  induction hreach with
  | refl => exact hinv
  | tail _ hstep ih => exact tangleInv_step hstep ih

/-- Coin sequence for the three-node counterexample run: only the first
eligible slot draws true. -/
def c2coins : Nat → Bool := fun q => q == 0

/-- The genesis block `createGenesisBlock(0)` actually mines: the zero
candidate accepted at nonce 0. -/
def c2gen : Block :=
  { Transactions := [], PrevHash := "",
    Hash := "9af776142f229988b775390a39bec0a7068e9208a009134efa92ffe4b8f9267e",
    Nonce := 0 }

theorem c2gen_mined : mineBlock genesisCandidate 0 1 = some c2gen := by rfl

/-- The single driver transaction of the run (honest1 → honest2). -/
def c2tx : Transaction := mkTx 1 0 (1, 2)

/-- The block node 1 mines from `c2tx` on an empty chain (`PrevHash` is the
empty `MaxChain`). -/
def c2nb : Block :=
  { Transactions := [c2tx], PrevHash := "",
    Hash := "f9ff05b53d1b72da2f25578453fb21bb09b05b7491730fac17ceb6b34c630d40",
    Nonce := 0 }

theorem c2nb_mined :
    mineBlock { Transactions := [c2tx], PrevHash := "", Hash := "", Nonce := 0 } 0 1 =
      some c2nb := by rfl

/-- Initial state of the N = 3, C = 1, R = 1, D = 0 chain run. -/
def c2init : ChainState := chainInit 3 1 1 0 c2coins c2gen

def c2rest1 : List Cmd :=
  [Cmd.send 2 c2tx, Cmd.closeInbox 0, Cmd.closeInbox 1, Cmd.closeInbox 2]

/-- After node 1 reads `c2tx` from its inbox. -/
def c2s1 : ChainState :=
  { c2init with
    script := c2rest1
    node := updF c2init.node 1
      { c2init.node 1 with pending := (c2init.node 1).pending ++ [c2tx] } }

theorem c2step1 : ChainStep c2init c2s1 :=
  ChainStep.recvTx c2init 1 c2tx c2rest1 (by decide) rfl rfl

/-- After node 1 mines `c2nb` and enters its broadcast loop. -/
def c2s2 : ChainState :=
  { c2s1 with node := updF c2s1.node 1 (mineUpdate (c2s1.node 1) c2nb 3 1 1) }

theorem c2step2 : ChainStep c2s1 c2s2 :=
  ChainStep.mine c2s1 1 1 c2nb rfl rfl (by decide) c2nb_mined

def c2rest2 : List (Nat × Block) := [(2, c2nb)]

/-- After node 1 delivers `c2nb` into corrupt node 0's receiver buffer. -/
def c2s3 : ChainState :=
  { c2s2 with
    queue := updF c2s2.queue 0 (c2s2.queue 0 ++ [(1, c2nb)])
    node := updF c2s2.node 1 { c2s2.node 1 with outbox := c2rest2 } }

theorem c2step3 : ChainStep c2s2 c2s3 :=
  ChainStep.sendOk c2s2 1 0 c2nb c2rest2 (by decide) (by decide)

/-- After corrupt node 0 receives and stores the honest-mined block. -/
def c2s4 : ChainState :=
  { c2s3 with
    queue := updF c2s3.queue 0 []
    node := updF c2s3.node 0 (receiveBlock c2s3.gen.Hash (c2s3.node 0) c2nb 1) }

theorem c2step4 : ChainStep c2s3 c2s4 :=
  ChainStep.recvBlock c2s3 0 1 c2nb [] (by decide) rfl rfl

/-- C1 (amended): the broadcast filter skips exactly self-delivery and the
corrupt-sender/honest-receiver pairs, so honest nodes never receive
artifacts from corrupt nodes while corrupt nodes are targeted by every
other node; accordingly, in every reachable state of either variant,
everything an honest node has buffered or stored originates from honest
nodes (the partition direction is corrupt-to-honest, not
honest-to-corrupt). -/
theorem C1_theorem (N C R D : Nat) (coins : Nat → Bool) (G : Block)
    (hG : G.Transactions = []) :
    (∀ i j : Nat, j ∈ targets N C i ↔
      j < N ∧ j ≠ i ∧ ¬(getLabel i C = "corrupt" ∧ getLabel j C = "honest")) ∧
    (∀ s', ChainReach (chainInit N C R D coins G) s' →
      (∀ j ob, ob ∈ s'.queue j →
        ¬(getLabel ob.1 s'.C = "corrupt" ∧ getLabel j s'.C = "honest")) ∧
      (∀ j ho, ho ∈ (s'.node j).origins →
        getLabel j s'.C = "honest" → getLabel ho.2 s'.C = "honest")) ∧
    (∀ s', TangleReach (tangleInit N C R D coins) s' →
      ∀ j ho, ho ∈ (s'.node j).origins →
        getLabel j s'.C = "honest" → getLabel ho.2 s'.C = "honest") := by
  refine ⟨mem_targets N C, ?_, ?_⟩
  · intro s' hr
    have hinv := chainInv_reach hr (chainInv_init N C R D coins G hG)
    exact ⟨hinv.queueVis, hinv.originsVis⟩
  · intro s' hr
    exact (tangleInv_reach hr (tangleInv_init N C R D coins)).originsVis

/-- C1 witness: in the 3-node run with one corrupt node, the honest miner's
broadcast targets include the corrupt node 0 and the honest node 2. -/
theorem C1_witness :
    c2gen.Transactions = ([] : List Transaction) ∧
    ((0 : Nat) ∈ targets 3 1 1 ↔ 0 < 3 ∧ 0 ≠ 1 ∧
      ¬(getLabel 1 1 = "corrupt" ∧ getLabel 0 1 = "honest")) ∧
    ((2 : Nat) ∈ targets 3 1 1 ↔ 2 < 3 ∧ 2 ≠ 1 ∧
      ¬(getLabel 1 1 = "corrupt" ∧ getLabel 2 1 = "honest")) :=
  ⟨rfl, (C1_theorem 3 1 1 0 c2coins c2gen rfl).1 1 0,
    (C1_theorem 3 1 1 0 c2coins c2gen rfl).1 1 2⟩

/-- C1 counterexample: a reachable state of the 3-node chain run in which
the corrupt node 0 has received and stored a block originated by the
honest node 1 — corrupt nodes do receive artifacts from honest nodes. -/
theorem C1_counterexample :
    ChainReach (chainInit 3 1 1 0 c2coins c2gen) c2s4 ∧
    getLabel 0 c2s4.C = "corrupt" ∧
    ∃ ho, ho ∈ (c2s4.node 0).origins ∧ getLabel ho.2 c2s4.C = "honest" := by
  refine ⟨?_, by decide, ⟨(c2nb.Hash, 1), by decide, by decide⟩⟩
  exact Relation.ReflTransGen.tail (Relation.ReflTransGen.tail
    (Relation.ReflTransGen.tail (Relation.ReflTransGen.single c2step1) c2step2)
    c2step3) c2step4

/-- C2 (amended): the tangle integration rule stores a received transaction
exactly when both declared parents are known and discards it otherwise, and
every reachable tangle ledger is parent-closed (genesis artifacts have no
parents); in the chain variant every stored block's previous-hash is
present, is the genesis hash (the orphan graft), or is the empty string
(a block mined while the node's best tip was still empty). -/
theorem C2_theorem (N C R D : Nat) (coins : Nat → Bool) (G : Block)
    (hG : G.Transactions = []) :
    (∀ (nd : TangleNode) (t : Transaction) (o : Nat),
      ((hasKey nd.hashMap (t.Parents.getD 0 "") &&
          hasKey nd.hashMap (t.Parents.getD 1 "")) = true →
        integrateTx nd t o =
          { nd with hashMap := upd nd.hashMap t.Hash t,
                    nodesList := nd.nodesList ++ [t],
                    origins := upd nd.origins t.Hash o }) ∧
      (¬ (hasKey nd.hashMap (t.Parents.getD 0 "") &&
          hasKey nd.hashMap (t.Parents.getD 1 "")) = true →
        integrateTx nd t o = nd)) ∧
    (∀ s', TangleReach (tangleInit N C R D coins) s' →
      ∀ j kt, kt ∈ (s'.node j).hashMap →
        kt.2.Parents = [] ∨ ∃ p1 p2, kt.2.Parents = [p1, p2] ∧
          p1 ∈ keysOf (s'.node j).hashMap ∧ p2 ∈ keysOf (s'.node j).hashMap) ∧
    (∀ s', ChainReach (chainInit N C R D coins G) s' →
      ∀ j hb, hb ∈ (s'.node j).hashMap →
        hb.2.PrevHash ∈ keysOf (s'.node j).hashMap ∨ hb.2.PrevHash = s'.gen.Hash ∨
          hb.2.PrevHash = "") := by
  refine ⟨?_, ?_, ?_⟩
  · intro nd t o
    exact ⟨fun h => integrateTx_eq1 nd t o h, fun h => integrateTx_eq2 nd t o h⟩
  · intro s' hr
    exact (tangleInv_reach hr (tangleInv_init N C R D coins)).parentClosed
  · intro s' hr
    exact (chainInv_reach hr (chainInv_init N C R D coins G hG)).prevOK

/-- C2 witness: a transaction with unknown parents is silently discarded by
the initial tangle node. -/
def c2orphanTx : Transaction :=
  { Sender := "honest1", Receiver := "honest2", Amount := 100,
    Parents := ["x", "y"], Hash := "h", Nonce := 0 }

theorem C2_witness :
    c2gen.Transactions = ([] : List Transaction) ∧
    integrateTx TangleNode.start c2orphanTx 1 = TangleNode.start :=
  ⟨rfl, ((C2_theorem 2 0 1 0 (fun _ => false) c2gen rfl).1 TangleNode.start
    c2orphanTx 1).2 (by decide)⟩

/-- C2 counterexample: a reachable chain state whose ledger stores a block
whose previous-hash is neither present locally nor the genesis hash (the
first block a node mines references the empty best-tip string), so the
"sole exception is the orphan-to-genesis graft" part of the claim fails. -/
theorem C2_counterexample :
    ChainReach (chainInit 3 1 1 0 c2coins c2gen) c2s2 ∧
    ¬ (∀ hb, hb ∈ (c2s2.node 1).hashMap →
        hb.2.PrevHash ∈ keysOf (c2s2.node 1).hashMap ∨ hb.2.PrevHash = c2gen.Hash) := by
  refine ⟨?_, ?_⟩
  · exact Relation.ReflTransGen.tail (Relation.ReflTransGen.single c2step1) c2step2
  · intro hcl
    rcases hcl (c2nb.Hash, c2nb) (by decide) with h | h
    · exact absurd h (by decide)
    · exact absurd h (by decide)

theorem dedup_sub_length_le {α : Type} [DecidableEq α] (l A : List α)
    (h : ∀ a ∈ l, a ∈ A) : l.dedup.length ≤ A.length := by
  have hnd : l.dedup.Nodup := List.nodup_dedup l
  have hsub : l.dedup ⊆ A.dedup := fun a ha =>
    List.mem_dedup.mpr (h a (List.mem_dedup.mp ha))
  have h1 := (hnd.subperm hsub).length_le
  have h2 := (List.dedup_sublist A).length_le
  omega

/-- C3 (amended): the sent count is bounded by N·(N−1)·R; in the chain
variant the confirmed count of every reachable winner is at most the sent
count; in the tangle variant the confirmed count is only bounded by the
sent count plus two, because the two genesis artifacts enter the global
tracker alongside the driver transactions. -/
theorem C3_theorem (N C R D : Nat) (coins : Nat → Bool) (G : Block)
    (hG : G.Transactions = []) :
    txSentOf N C R coins ≤ R * (N * (N - 1)) ∧
    (∀ s', ChainReach (chainInit N C R D coins G) s' →
      countConfirmedTransactions s'.winner ≤ txSentOf N C R coins) ∧
    (∀ s', TangleReach (tangleInit N C R D coins) s' →
      tangleConfirmedCount s'.tracker ≤ txSentOf N C R coins + 2) := by
  refine ⟨txSentOf_le N C R coins, ?_, ?_⟩
  · intro s' hr
    have hinv := chainInv_reach hr (chainInv_init N C R D coins G hG)
    have hsub : ∀ a ∈ (s'.winner.flatMap (·.Transactions)).map (·.Amount),
        a ∈ (createdTxs N C R coins).map (·.Amount) := by
      intro a ha
      rcases List.mem_map.mp ha with ⟨tx, htx, rfl⟩
      rcases List.mem_flatMap.mp htx with ⟨b, hb, htxb⟩
      exact List.mem_map.mpr ⟨tx, hinv.winnerTxs b hb tx htxb, rfl⟩
    have hle := dedup_sub_length_le _ _ hsub
    rw [List.length_map] at hle
    exact hle
  · intro s' hr
    have hinv := tangleInv_reach hr (tangleInv_init N C R D coins)
    have h1 : tangleConfirmedCount s'.tracker ≤ s'.tracker.length :=
      List.countP_le_length _
    have h2 : s'.tracker.length = (keysOf s'.tracker).length :=
      (List.length_map _ _).symm
    have hsub : keysOf s'.tracker ⊆
        1 :: 2 :: ((createdTxs N C R coins).map (·.Amount)).dedup := by
      intro x hx
      rcases hinv.trackerAmts x hx with hx1 | hx1 | hx1
      · exact List.mem_cons_of_mem _ (List.mem_cons_of_mem _ (List.mem_dedup.mpr hx1))
      · rw [hx1]
        exact List.mem_cons_self _ _
      · rw [hx1]
        exact List.mem_cons_of_mem _ (List.mem_cons_self _ _)
    have h3 := (hinv.trackerNodup.subperm hsub).length_le
    simp only [List.length_cons] at h3
    have h4 := (List.dedup_sublist ((createdTxs N C R coins).map (·.Amount))).length_le
    have h5 : ((createdTxs N C R coins).map (·.Amount)).length = txSentOf N C R coins :=
      List.length_map _ _
    omega

/-- C3 witness: the sent bound and both confirmed bounds at the initial
states of a two-node run. -/
theorem C3_witness :
    c2gen.Transactions = ([] : List Transaction) ∧
    txSentOf 2 0 1 (fun _ => false) ≤ 1 * (2 * (2 - 1)) ∧
    countConfirmedTransactions (chainInit 2 0 1 0 (fun _ => false) c2gen).winner ≤
      txSentOf 2 0 1 (fun _ => false) ∧
    tangleConfirmedCount (tangleInit 2 0 1 0 (fun _ => false)).tracker ≤
      txSentOf 2 0 1 (fun _ => false) + 2 :=
  ⟨rfl, (C3_theorem 2 0 1 0 (fun _ => false) c2gen rfl).1,
    (C3_theorem 2 0 1 0 (fun _ => false) c2gen rfl).2.1 _ Relation.ReflTransGen.refl,
    (C3_theorem 2 0 1 0 (fun _ => false) c2gen rfl).2.2 _ Relation.ReflTransGen.refl⟩

/-- Initial state of the N = 2, C = 0, R = 1, p = 0 tangle run. -/
def c3init : TangleState := tangleInit 2 0 1 0 (fun _ => false)

def c3s1 : TangleState :=
  { c3init with closed := updF c3init.closed 0 true, script := [Cmd.closeInbox 1] }

theorem c3t1 : TangleStep c3init c3s1 :=
  TangleStep.driverClose c3init 0 [Cmd.closeInbox 1] (by decide)

def c3s2 : TangleState :=
  { c3s1 with closed := updF c3s1.closed 1 true, script := ([] : List Cmd) }

theorem c3t2 : TangleStep c3s1 c3s2 :=
  TangleStep.driverClose c3s1 1 [] (by decide)

def c3s3 : TangleState :=
  { c3s2 with node := updF c3s2.node 0 { c3s2.node 0 with exited := true } }

theorem c3t3 : TangleStep c3s2 c3s3 :=
  TangleStep.observeClose c3s2 0 rfl rfl rfl

def c3s4 : TangleState :=
  { c3s3 with node := updF c3s3.node 1 { c3s3.node 1 with exited := true } }

theorem c3t4 : TangleStep c3s3 c3s4 :=
  TangleStep.observeClose c3s3 1 rfl rfl rfl

def c3s5 : TangleState :=
  { c3s4 with
    node := updF c3s4.node 0 { c3s4.node 0 with merged := true }
    tracker := (aggregateNode c3s4.tracker c3s4.txmap (confidenceOf (c3s4.node 0).hashMap)
      (c3s4.node 0).hashMap).1
    txmap := (aggregateNode c3s4.tracker c3s4.txmap (confidenceOf (c3s4.node 0).hashMap)
      (c3s4.node 0).hashMap).2 }

theorem c3t5 : TangleStep c3s4 c3s5 :=
  TangleStep.aggregate c3s4 0 rfl rfl

def c3s6 : TangleState :=
  { c3s5 with
    node := updF c3s5.node 1 { c3s5.node 1 with merged := true }
    tracker := (aggregateNode c3s5.tracker c3s5.txmap (confidenceOf (c3s5.node 1).hashMap)
      (c3s5.node 1).hashMap).1
    txmap := (aggregateNode c3s5.tracker c3s5.txmap (confidenceOf (c3s5.node 1).hashMap)
      (c3s5.node 1).hashMap).2 }

theorem c3t6 : TangleStep c3s5 c3s6 :=
  TangleStep.aggregate c3s5 1 rfl rfl

/-- C3 counterexample: the completed p = 0 tangle run confirms the two
genesis artifacts while zero transactions were sent, so confirmed ≤ sent
fails in the tangle variant. -/
theorem C3_counterexample :
    TangleReach (tangleInit 2 0 1 0 (fun _ => false)) c3s6 ∧
    txSentOf 2 0 1 (fun _ => false) = 0 ∧
    tangleConfirmedCount c3s6.tracker = 2 ∧
    ¬ tangleConfirmedCount c3s6.tracker ≤ txSentOf 2 0 1 (fun _ => false) := by
  refine ⟨?_, by decide, by decide, by decide⟩
  exact Relation.ReflTransGen.tail (Relation.ReflTransGen.tail
    (Relation.ReflTransGen.tail (Relation.ReflTransGen.tail
      (Relation.ReflTransGen.tail (Relation.ReflTransGen.single c3t1) c3t2) c3t3)
      c3t4) c3t5) c3t6

theorem chain_closes_phase :
    ∀ (l : List Nat) (s : ChainState), s.script = l.map Cmd.closeInbox →
      ∃ s', ChainReach s s' ∧ s'.script = [] ∧
        (∀ i ∈ l, s'.closed i = true) ∧
        (∀ j, s.closed j = true → s'.closed j = true) ∧
        s'.node = s.node ∧ s'.queue = s.queue ∧ s'.winner = s.winner ∧
        s'.N = s.N ∧ s'.C = s.C ∧ s'.gen = s.gen := by
  intro l
  induction l with
  | nil =>
    intro s hs
    exact ⟨s, Relation.ReflTransGen.refl, hs, fun i hi => absurd hi (List.not_mem_nil i),
      fun j hj => hj, rfl, rfl, rfl, rfl, rfl, rfl⟩
  | cons i l ih =>
    intro s hs
    have hstep : ChainStep s
        { s with closed := updF s.closed i true, script := l.map Cmd.closeInbox } :=
      ChainStep.driverClose s i (l.map Cmd.closeInbox) (by rw [hs]; rfl)
    rcases ih { s with closed := updF s.closed i true, script := l.map Cmd.closeInbox }
        rfl with ⟨s', hr, hscript, hcl, hmono, hnode, hqueue, hwin, hN, hC, hgen⟩
    refine ⟨s', Relation.ReflTransGen.trans (Relation.ReflTransGen.single hstep) hr,
      hscript, ?_, ?_, hnode, hqueue, hwin, hN, hC, hgen⟩
    · intro i' hi'
      rcases List.mem_cons.mp hi' with he | hi'
      · subst he
        exact hmono i' (updF_self s.closed i' true)
      · exact hcl i' hi'
    · intro j hj
      by_cases hji : j = i
      · subst hji
        exact hmono j (updF_self s.closed j true)
      · exact hmono j ((updF_ne s.closed i j true hji).trans hj)

theorem chain_exits_phase :
    ∀ (l : List Nat) (s : ChainState),
      (∀ i ∈ l, s.closed i = true ∧ (s.node i).exited = false ∧
        (s.node i).outbox = []) →
      l.Nodup →
      ∃ s', ChainReach s s' ∧
        (∀ i ∈ l, (s'.node i).exited = true) ∧
        (∀ j, (s.node j).exited = true → (s'.node j).exited = true) ∧
        (∀ j, (s'.node j).merged = (s.node j).merged) ∧
        s'.script = s.script ∧ s'.winner = s.winner ∧ s'.N = s.N ∧ s'.C = s.C ∧
        s'.gen = s.gen := by
  intro l
  induction l with
  | nil =>
    intro s _ _
    exact ⟨s, Relation.ReflTransGen.refl, fun i hi => absurd hi (List.not_mem_nil i),
      fun j hj => hj, fun j => rfl, rfl, rfl, rfl, rfl, rfl⟩
  | cons i l ih =>
    intro s hcond hnd
    rcases hcond i (List.mem_cons_self _ _) with ⟨hc, hex, hob⟩
    have hstep : ChainStep s
        { s with node := updF s.node i { s.node i with exited := true } } :=
      ChainStep.observeClose s i hc hex hob
    have hnotmem : i ∉ l := (List.nodup_cons.mp hnd).1
    rcases ih { s with node := updF s.node i { s.node i with exited := true } }
        (by
          intro i' hi'
          rcases hcond i' (List.mem_cons_of_mem _ hi') with ⟨hc', hex', hob'⟩
          have hne : i' ≠ i := fun he => hnotmem (he ▸ hi')
          refine ⟨hc', ?_, ?_⟩
          · dsimp only
            rw [updF_ne _ _ _ _ hne]
            exact hex'
          · dsimp only
            rw [updF_ne _ _ _ _ hne]
            exact hob')
        (List.nodup_cons.mp hnd).2 with
      ⟨s', hr, hexed, hmono, hmerged, hscript, hwin, hN, hC, hgen⟩
    refine ⟨s', Relation.ReflTransGen.trans (Relation.ReflTransGen.single hstep) hr,
      ?_, ?_, ?_, hscript, hwin, hN, hC, hgen⟩
    · intro i' hi'
      rcases List.mem_cons.mp hi' with he | hi'
      · subst he
        refine hmono i' ?_
        dsimp only
        rw [updF_self]
      · exact hexed i' hi'
    · intro j hj
      refine hmono j ?_
      dsimp only
      by_cases hji : j = i
      · subst hji
        rw [updF_self]
      · rw [updF_ne _ _ _ _ hji]
        exact hj
    · intro j
      rw [hmerged j]
      dsimp only
      by_cases hji : j = i
      · subst hji
        rw [updF_self]
      · rw [updF_ne _ _ _ _ hji]

theorem chain_merge_phase :
    ∀ (l : List Nat) (s : ChainState),
      (∀ i ∈ l, (s.node i).exited = true ∧ (s.node i).merged = false) →
      l.Nodup →
      ∃ s', ChainReach s s' ∧
        (∀ i ∈ l, (s'.node i).merged = true) ∧
        (∀ j, (s.node j).merged = true → (s'.node j).merged = true) ∧
        s'.script = s.script := by
  intro l
  induction l with
  | nil =>
    intro s _ _
    exact ⟨s, Relation.ReflTransGen.refl, fun i hi => absurd hi (List.not_mem_nil i),
      fun j hj => hj, rfl⟩
  | cons i l ih =>
    intro s hcond hnd
    rcases hcond i (List.mem_cons_self _ _) with ⟨hex, hmg⟩
    have hstep := ChainStep.finalize s i 1 hex hmg
    have hnotmem : i ∉ l := (List.nodup_cons.mp hnd).1
    rcases ih { s with
        node := updF s.node i { s.node i with merged := true }
        winner := if (buildBlockChain (s.node i).hashMap s.gen (s.node i).maxChain
            1).length > s.winner.length
          then buildBlockChain (s.node i).hashMap s.gen (s.node i).maxChain 1
          else s.winner
        winnerType := if (buildBlockChain (s.node i).hashMap s.gen (s.node i).maxChain
            1).length > s.winner.length
          then getLabel i s.C else s.winnerType }
      (by
        intro i' hi'
        rcases hcond i' (List.mem_cons_of_mem _ hi') with ⟨hex', hmg'⟩
        have hne : i' ≠ i := fun he => hnotmem (he ▸ hi')
        constructor
        · dsimp only
          rw [updF_ne _ _ _ _ hne]
          exact hex'
        · dsimp only
          rw [updF_ne _ _ _ _ hne]
          exact hmg')
      (List.nodup_cons.mp hnd).2 with ⟨s', hr, hmgd, hmono, hscript⟩
    refine ⟨s', Relation.ReflTransGen.trans (Relation.ReflTransGen.single hstep) hr,
      ?_, ?_, hscript⟩
    · intro i' hi'
      rcases List.mem_cons.mp hi' with he | hi'
      · subst he
        refine hmono i' ?_
        dsimp only
        rw [updF_self]
      · exact hmgd i' hi'
    · intro j hj
      refine hmono j ?_
      dsimp only
      by_cases hji : j = i
      · subst hji
        rw [updF_self]
      · rw [updF_ne _ _ _ _ hji]
        exact hj

/-- With p = 0, every chain configuration runs to completion: the driver
finishes, every worker observes its closed inbox, exits, and merges. -/
theorem chain_completes (N C R D : Nat) (G : Block) :
    ∃ s', ChainReach (chainInit N C R D (fun _ => false) G) s' ∧ s'.script = [] ∧
      ∀ i ∈ List.range N, (s'.node i).merged = true := by
  rcases chain_closes_phase (List.range N) (chainInit N C R D (fun _ => false) G)
      (scriptOf_allFalse N C R) with
    ⟨s1, hr1, hscript1, hcl1, _, hnode1, _, _, _, _, _⟩
  rcases chain_exits_phase (List.range N) s1
      (fun i hi => ⟨hcl1 i hi, (congrArg (fun f => (f i).exited) hnode1).trans rfl,
        (congrArg (fun f => (f i).outbox) hnode1).trans rfl⟩)
      (List.nodup_range N) with
    ⟨s2, hr2, hex2, _, hmg2, hscript2, _, _, _, _⟩
  rcases chain_merge_phase (List.range N) s2
      (fun i hi => ⟨hex2 i hi,
        (hmg2 i).trans ((congrArg (fun f => (f i).merged) hnode1).trans rfl)⟩)
      (List.nodup_range N) with
    ⟨s3, hr3, hmg3, _, hscript3⟩
  refine ⟨s3, Relation.ReflTransGen.trans (Relation.ReflTransGen.trans hr1 hr2) hr3,
    ?_, hmg3⟩
  rw [hscript3, hscript2, hscript1]

theorem tangle_closes_phase :
    ∀ (l : List Nat) (s : TangleState), s.script = l.map Cmd.closeInbox →
      ∃ s', TangleReach s s' ∧ s'.script = [] ∧
        (∀ i ∈ l, s'.closed i = true) ∧
        (∀ j, s.closed j = true → s'.closed j = true) ∧
        s'.node = s.node ∧ s'.N = s.N ∧ s'.C = s.C := by
  intro l
  induction l with
  | nil =>
    intro s hs
    exact ⟨s, Relation.ReflTransGen.refl, hs, fun i hi => absurd hi (List.not_mem_nil i),
      fun j hj => hj, rfl, rfl, rfl⟩
  | cons i l ih =>
    intro s hs
    have hstep : TangleStep s
        { s with closed := updF s.closed i true, script := l.map Cmd.closeInbox } :=
      TangleStep.driverClose s i (l.map Cmd.closeInbox) (by rw [hs]; rfl)
    rcases ih { s with closed := updF s.closed i true, script := l.map Cmd.closeInbox }
        rfl with ⟨s', hr, hscript, hcl, hmono, hnode, hN, hC⟩
    refine ⟨s', Relation.ReflTransGen.trans (Relation.ReflTransGen.single hstep) hr,
      hscript, ?_, ?_, hnode, hN, hC⟩
    · intro i' hi'
      rcases List.mem_cons.mp hi' with he | hi'
      · subst he
        exact hmono i' (updF_self s.closed i' true)
      · exact hcl i' hi'
    · intro j hj
      by_cases hji : j = i
      · subst hji
        exact hmono j (updF_self s.closed j true)
      · exact hmono j ((updF_ne s.closed i j true hji).trans hj)

theorem tangle_exits_phase :
    ∀ (l : List Nat) (s : TangleState),
      (∀ i ∈ l, s.closed i = true ∧ (s.node i).exited = false ∧
        (s.node i).outbox = []) →
      l.Nodup →
      ∃ s', TangleReach s s' ∧
        (∀ i ∈ l, (s'.node i).exited = true) ∧
        (∀ j, (s.node j).exited = true → (s'.node j).exited = true) ∧
        (∀ j, (s'.node j).merged = (s.node j).merged) ∧
        s'.script = s.script := by
  intro l
  induction l with
  | nil =>
    intro s _ _
    exact ⟨s, Relation.ReflTransGen.refl, fun i hi => absurd hi (List.not_mem_nil i),
      fun j hj => hj, fun j => rfl, rfl⟩
  | cons i l ih =>
    intro s hcond hnd
    rcases hcond i (List.mem_cons_self _ _) with ⟨hc, hex, hob⟩
    have hstep : TangleStep s
        { s with node := updF s.node i { s.node i with exited := true } } :=
      TangleStep.observeClose s i hc hex hob
    have hnotmem : i ∉ l := (List.nodup_cons.mp hnd).1
    rcases ih { s with node := updF s.node i { s.node i with exited := true } }
        (by
          intro i' hi'
          rcases hcond i' (List.mem_cons_of_mem _ hi') with ⟨hc', hex', hob'⟩
          have hne : i' ≠ i := fun he => hnotmem (he ▸ hi')
          refine ⟨hc', ?_, ?_⟩
          · dsimp only
            rw [updF_ne _ _ _ _ hne]
            exact hex'
          · dsimp only
            rw [updF_ne _ _ _ _ hne]
            exact hob')
        (List.nodup_cons.mp hnd).2 with ⟨s', hr, hexed, hmono, hmerged, hscript⟩
    refine ⟨s', Relation.ReflTransGen.trans (Relation.ReflTransGen.single hstep) hr,
      ?_, ?_, ?_, hscript⟩
    · intro i' hi'
      rcases List.mem_cons.mp hi' with he | hi'
      · subst he
        refine hmono i' ?_
        dsimp only
        rw [updF_self]
      · exact hexed i' hi'
    · intro j hj
      refine hmono j ?_
      dsimp only
      by_cases hji : j = i
      · subst hji
        rw [updF_self]
      · rw [updF_ne _ _ _ _ hji]
        exact hj
    · intro j
      rw [hmerged j]
      dsimp only
      by_cases hji : j = i
      · subst hji
        rw [updF_self]
      · rw [updF_ne _ _ _ _ hji]

theorem tangle_merge_phase :
    ∀ (l : List Nat) (s : TangleState),
      (∀ i ∈ l, (s.node i).exited = true ∧ (s.node i).merged = false) →
      l.Nodup →
      ∃ s', TangleReach s s' ∧
        (∀ i ∈ l, (s'.node i).merged = true) ∧
        (∀ j, (s.node j).merged = true → (s'.node j).merged = true) ∧
        s'.script = s.script := by
  intro l
  induction l with
  | nil =>
    intro s _ _
    exact ⟨s, Relation.ReflTransGen.refl, fun i hi => absurd hi (List.not_mem_nil i),
      fun j hj => hj, rfl⟩
  | cons i l ih =>
    intro s hcond hnd
    rcases hcond i (List.mem_cons_self _ _) with ⟨hex, hmg⟩
    have hstep := TangleStep.aggregate s i hex hmg
    have hnotmem : i ∉ l := (List.nodup_cons.mp hnd).1
    rcases ih { s with
        node := updF s.node i { s.node i with merged := true }
        tracker := (aggregateNode s.tracker s.txmap (confidenceOf (s.node i).hashMap)
          (s.node i).hashMap).1
        txmap := (aggregateNode s.tracker s.txmap (confidenceOf (s.node i).hashMap)
          (s.node i).hashMap).2 }
      (by
        intro i' hi'
        rcases hcond i' (List.mem_cons_of_mem _ hi') with ⟨hex', hmg'⟩
        have hne : i' ≠ i := fun he => hnotmem (he ▸ hi')
        constructor
        · dsimp only
          rw [updF_ne _ _ _ _ hne]
          exact hex'
        · dsimp only
          rw [updF_ne _ _ _ _ hne]
          exact hmg')
      (List.nodup_cons.mp hnd).2 with ⟨s', hr, hmgd, hmono, hscript⟩
    refine ⟨s', Relation.ReflTransGen.trans (Relation.ReflTransGen.single hstep) hr,
      ?_, ?_, hscript⟩
    · intro i' hi'
      rcases List.mem_cons.mp hi' with he | hi'
      · subst he
        refine hmono i' ?_
        dsimp only
        rw [updF_self]
      · exact hmgd i' hi'
    · intro j hj
      refine hmono j ?_
      dsimp only
      by_cases hji : j = i
      · subst hji
        rw [updF_self]
      · rw [updF_ne _ _ _ _ hji]
        exact hj

/-- With p = 0, every tangle configuration runs to completion. -/
theorem tangle_completes (N C R D : Nat) :
    ∃ s', TangleReach (tangleInit N C R D (fun _ => false)) s' ∧ s'.script = [] ∧
      ∀ i ∈ List.range N, (s'.node i).merged = true := by
  rcases tangle_closes_phase (List.range N) (tangleInit N C R D (fun _ => false))
      (scriptOf_allFalse N C R) with ⟨s1, hr1, hscript1, hcl1, _, hnode1, _, _⟩
  rcases tangle_exits_phase (List.range N) s1
      (fun i hi => ⟨hcl1 i hi, (congrArg (fun f => (f i).exited) hnode1).trans rfl,
        (congrArg (fun f => (f i).outbox) hnode1).trans rfl⟩)
      (List.nodup_range N) with
    ⟨s2, hr2, hex2, _, hmg2, hscript2⟩
  rcases tangle_merge_phase (List.range N) s2
      (fun i hi => ⟨hex2 i hi,
        (hmg2 i).trans ((congrArg (fun f => (f i).merged) hnode1).trans rfl)⟩)
      (List.nodup_range N) with
    ⟨s3, hr3, hmg3, _, hscript3⟩
  refine ⟨s3, Relation.ReflTransGen.trans (Relation.ReflTransGen.trans hr1 hr2) hr3,
    ?_, hmg3⟩
  rw [hscript3, hscript2, hscript1]

/-- C6 (amended): neither entry point performs any configuration
validation — there is no InvalidConfiguration error in the code.  Every
configuration, including N < 2 and C > N, starts the simulation; with
p = 0 (in particular whenever no eligible sender-receiver pair exists,
which is always the case for N < 2) the run terminates normally with zero
transactions sent and every worker merged. -/
theorem C6_theorem (N C R D : Nat) (G : Block) :
    txSentOf N C R (fun _ => false) = 0 ∧
    (∃ s', ChainReach (chainInit N C R D (fun _ => false) G) s' ∧ s'.script = [] ∧
      ∀ i ∈ List.range N, (s'.node i).merged = true) ∧
    (∃ s', TangleReach (tangleInit N C R D (fun _ => false)) s' ∧ s'.script = [] ∧
      ∀ i ∈ List.range N, (s'.node i).merged = true) :=
  ⟨txSentOf_allFalse N C R, chain_completes N C R D G, tangle_completes N C R D⟩

def cc6init : ChainState := chainInit 1 0 1 0 (fun _ => false) c2gen

def cc6s1 : ChainState :=
  { cc6init with closed := updF cc6init.closed 0 true, script := ([] : List Cmd) }

theorem cc6t1 : ChainStep cc6init cc6s1 :=
  ChainStep.driverClose cc6init 0 [] (by decide)

def cc6s2 : ChainState :=
  { cc6s1 with node := updF cc6s1.node 0 { cc6s1.node 0 with exited := true } }

theorem cc6t2 : ChainStep cc6s1 cc6s2 :=
  ChainStep.observeClose cc6s1 0 rfl rfl rfl

def cc6s3 : ChainState :=
  { cc6s2 with
    node := updF cc6s2.node 0 { cc6s2.node 0 with merged := true }
    winner := if (buildBlockChain (cc6s2.node 0).hashMap cc6s2.gen
        (cc6s2.node 0).maxChain 1).length > cc6s2.winner.length
      then buildBlockChain (cc6s2.node 0).hashMap cc6s2.gen (cc6s2.node 0).maxChain 1
      else cc6s2.winner
    winnerType := if (buildBlockChain (cc6s2.node 0).hashMap cc6s2.gen
        (cc6s2.node 0).maxChain 1).length > cc6s2.winner.length
      then getLabel 0 cc6s2.C else cc6s2.winnerType }

theorem cc6t3 : ChainStep cc6s2 cc6s3 :=
  ChainStep.finalize cc6s2 0 1 rfl rfl

def ct6init : TangleState := tangleInit 1 0 1 0 (fun _ => false)

def ct6s1 : TangleState :=
  { ct6init with closed := updF ct6init.closed 0 true, script := ([] : List Cmd) }

theorem ct6t1 : TangleStep ct6init ct6s1 :=
  TangleStep.driverClose ct6init 0 [] (by decide)

def ct6s2 : TangleState :=
  { ct6s1 with node := updF ct6s1.node 0 { ct6s1.node 0 with exited := true } }

theorem ct6t2 : TangleStep ct6s1 ct6s2 :=
  TangleStep.observeClose ct6s1 0 rfl rfl rfl

def ct6s3 : TangleState :=
  { ct6s2 with
    node := updF ct6s2.node 0 { ct6s2.node 0 with merged := true }
    tracker := (aggregateNode ct6s2.tracker ct6s2.txmap
      (confidenceOf (ct6s2.node 0).hashMap) (ct6s2.node 0).hashMap).1
    txmap := (aggregateNode ct6s2.tracker ct6s2.txmap
      (confidenceOf (ct6s2.node 0).hashMap) (ct6s2.node 0).hashMap).2 }

theorem ct6t3 : TangleStep ct6s2 ct6s3 :=
  TangleStep.aggregate ct6s2 0 rfl rfl

/-- C6 counterexample: with N = 1 < 2 both entry points run the simulation
to normal completion (driver close, worker exit, merge) instead of
rejecting the configuration — no InvalidConfiguration rejection exists. -/
theorem C6_counterexample :
    (1 < 2 ∧ ChainReach (chainInit 1 0 1 0 (fun _ => false) c2gen) cc6s3 ∧
      cc6s3.script = [] ∧ (cc6s3.node 0).merged = true) ∧
    (TangleReach (tangleInit 1 0 1 0 (fun _ => false)) ct6s3 ∧
      ct6s3.script = [] ∧ (ct6s3.node 0).merged = true) := by
  refine ⟨⟨by decide, ?_, rfl, rfl⟩, ?_, rfl, rfl⟩
  · exact Relation.ReflTransGen.tail (Relation.ReflTransGen.tail
      (Relation.ReflTransGen.single cc6t1) cc6t2) cc6t3
  · exact Relation.ReflTransGen.tail (Relation.ReflTransGen.tail
      (Relation.ReflTransGen.single ct6t1) ct6t2) ct6t3

end Sim
